import Mathlib

/-!
# wit-go: grammar, case conversion, type mapping and module path derivation

A shallow embedding of `main.go`.  Go strings are modelled as `List Char`
(sequences of Unicode code points); every byte the program compares against
(`-`, `_`, `/`, `.`, letters, digits) is ASCII, so working on code points instead
of UTF-8 bytes does not change any of the functions below on valid UTF-8.
-/

namespace WitGo

/-! ## Go standard library: `unicode`, `strings` -/

/-- The tables of Go's `unicode` package for code points above ASCII.  The Go
functions treat ASCII by explicit code and consult their tables only for larger
code points, so the tables are a parameter and the ASCII behaviour is fixed. -/
structure UnicodeTables where
  isLetter : Char → Bool
  isDigit : Char → Bool
  isSpace : Char → Bool
  toLower : Char → Char
  toTitle : Char → Char

/-- A table without any letters, digits, spaces or case pairs above ASCII. -/
def asciiTables : UnicodeTables where
  isLetter := fun _ => false
  isDigit := fun _ => false
  isSpace := fun _ => false
  toLower := fun r => r
  toTitle := fun r => r

def isASCII (r : Char) : Bool := r.toNat ≤ 0x7F

def isASCIILower (r : Char) : Bool := 'a'.toNat ≤ r.toNat && r.toNat ≤ 'z'.toNat

def isASCIIUpper (r : Char) : Bool := 'A'.toNat ≤ r.toNat && r.toNat ≤ 'Z'.toNat

def isDecimal (r : Char) : Bool := '0'.toNat ≤ r.toNat && r.toNat ≤ '9'.toNat

/-- Go `unicode.ToLower`: ASCII by arithmetic, the rest by table. -/
def unicodeToLower (T : UnicodeTables) (r : Char) : Char :=
  if isASCII r then
    if isASCIIUpper r then Char.ofNat (r.toNat + 32) else r
  else T.toLower r

/-- Go `unicode.ToTitle`: ASCII by arithmetic, the rest by table. -/
def unicodeToTitle (T : UnicodeTables) (r : Char) : Char :=
  if isASCII r then
    if isASCIILower r then Char.ofNat (r.toNat - 32) else r
  else T.toTitle r

/-- Go `unicode.IsLetter` (the ASCII letters, then the table). -/
def unicodeIsLetter (T : UnicodeTables) (r : Char) : Bool :=
  if isASCII r then isASCIILower r || isASCIIUpper r else T.isLetter r

/-- Go `unicode.IsDigit` (the ASCII digits, then the table). -/
def unicodeIsDigit (T : UnicodeTables) (r : Char) : Bool :=
  if isASCII r then isDecimal r else T.isDigit r

/-- Go `strings.isSeparator`, the word boundary test of `strings.Title`. -/
def isSeparator (T : UnicodeTables) (r : Char) : Bool :=
  if isASCII r then
    if isDecimal r then false
    else if isASCIILower r then false
    else if isASCIIUpper r then false
    else if r = '_' then false
    else true
  else if unicodeIsLetter T r || unicodeIsDigit T r then false
  else T.isSpace r

/-- The closure `strings.Title` hands to `strings.Map`, with its captured
variable `prev` made an argument. -/
def titleMap (T : UnicodeTables) : Char → List Char → List Char
  | _, [] => []
  | prev, r :: rs =>
    (if isSeparator T prev then unicodeToTitle T r else r) :: titleMap T r rs

/-- Go `strings.Title`. -/
def Title (T : UnicodeTables) (s : List Char) : List Char := titleMap T ' ' s

/-- Go `strings.ToLower` (its ASCII fast path and `Map(unicode.ToLower, s)` agree). -/
def ToLower (T : UnicodeTables) (s : List Char) : List Char := s.map (unicodeToLower T)

/-- Go `strings.Index` for a one-character separator. -/
def Index (sep : Char) : List Char → Option Nat
  | [] => none
  | c :: cs => if c = sep then some 0 else (Index sep cs).map (· + 1)

/-- Go `strings.Count` for a one-character separator. -/
def Count (sep : Char) : List Char → Nat
  | [] => 0
  | c :: cs => if c = sep then Count sep cs + 1 else Count sep cs

/-- The loop of Go `strings.genSplit`; the first argument is the number of
iterations left (`n - 1 - i`). -/
def genSplitLoop (sep : Char) : Nat → List Char → List (List Char)
  | 0, s => [s]
  | n + 1, s =>
    match Index sep s with
    | none => [s]
    | some m => s.take m :: genSplitLoop sep n (s.drop (m + 1))

/-- Go `strings.Split(s, sep)` for a one-character separator:
`genSplit(s, sep, 0, -1)` with `n = Count(s, sep) + 1`. -/
def Split (s : List Char) (sep : Char) : List (List Char) :=
  genSplitLoop sep (Count sep s) s

/-- Go `strings.Join`. -/
def Join : List (List Char) → List Char → List Char
  | [], _ => []
  | [a], _ => a
  | a :: b :: rest, sep => a ++ sep ++ Join (b :: rest) sep

/-- Go `strings.HasSuffix`. -/
def HasSuffix (s suffix : List Char) : Bool :=
  decide (suffix.length ≤ s.length) && decide (s.drop (s.length - suffix.length) = suffix)

/-- Go `strings.TrimSuffix`. -/
def TrimSuffix (s suffix : List Char) : List Char :=
  if HasSuffix s suffix then s.take (s.length - suffix.length) else s

/-- The loop of Go `strings.Replace` for a one-character `old`: the first
argument is the number of replacements left, the list is `s[start:]`.  The loop
runs `Count(s, old)` times, so `Index` always finds an occurrence. -/
def replaceLoop (old : Char) (new : List Char) : Nat → List Char → List Char
  | 0, s => s
  | n + 1, s =>
    match Index old s with
    | none => s
    | some j => s.take j ++ new ++ replaceLoop old new n (s.drop (j + 1))

/-- Go `strings.ReplaceAll(s, old, new)` for a one-character `old`:
`Replace(s, old, new, -1)`. -/
def ReplaceAll (s : List Char) (old : Char) (new : List Char) : List Char :=
  if [old] = new then s
  else if Count old s = 0 then s
  else replaceLoop old new (Count old s) s

/-! ## Go standard library: `path/filepath` (Unix: separator `/`, no volume names) -/

def Separator : Char := '/'

def isPathSeparator (c : Char) : Bool := c = Separator

/-- The first loop of `filepath.Base`: strip trailing separators.  The list is
the path reversed. -/
def stripTrailingSeparators : List Char → List Char
  | [] => []
  | c :: cs => if isPathSeparator c then stripTrailingSeparators cs else c :: cs

/-- Go `filepath.Base`. -/
def filepathBase (path : List Char) : List Char :=
  if path = [] then ".".toList
  else
    let stripped := (stripTrailingSeparators path.reverse).reverse
    let last := (stripped.reverse.takeWhile (fun c => !isPathSeparator c)).reverse
    if last = [] then [Separator] else last

/-- The inner loop of the `..` case of `filepath.Clean`, run after `out.w--`:
moves `w` back while it is above `dotdot` and `buf[w]` is not a separator. -/
def backtrackLoop (buf : List Char) (dotdot : Nat) : Nat → Nat
  | 0 => 0
  | w + 1 =>
    if dotdot < w + 1 ∧ !isPathSeparator (buf.getD (w + 1) Separator) then backtrackLoop buf dotdot w
    else w + 1

/-- The main loop of `filepath.Clean`.  Arguments: iterations left, the unread
input `path[r:]`, the written output `buf[:w]`, and `dotdot`. -/
def cleanLoop (rooted : Bool) : Nat → List Char → List Char → Nat → List Char
  | 0, _, out, _ => out
  | _ + 1, [], out, _ => out
  | fuel + 1, c :: rest, out, dotdot =>
    if isPathSeparator c then
      cleanLoop rooted fuel rest out dotdot
    else if c = '.' ∧ (rest = [] ∨ rest.head?.map isPathSeparator = some true) then
      cleanLoop rooted fuel rest out dotdot
    else if c = '.' ∧ rest.head? = some '.' ∧
        (rest.tail = [] ∨ rest.tail.head?.map isPathSeparator = some true) then
      if dotdot < out.length then
        cleanLoop rooted fuel rest.tail
          (out.take (backtrackLoop out dotdot (out.length - 1))) dotdot
      else if !rooted then
        let out1 := (if 0 < out.length then out ++ [Separator] else out) ++ ['.', '.']
        cleanLoop rooted fuel rest.tail out1 out1.length
      else
        cleanLoop rooted fuel rest.tail out dotdot
    else
      let out1 :=
        if (rooted && decide (out.length ≠ 1)) || (!rooted && decide (out.length ≠ 0)) then
          out ++ [Separator]
        else out
      cleanLoop rooted fuel ((c :: rest).dropWhile (fun x => !isPathSeparator x))
        (out1 ++ (c :: rest).takeWhile (fun x => !isPathSeparator x)) dotdot

/-- Go `filepath.Clean`.  The lazily allocated buffer of the Go code is an
ordinary list here; both hold the same bytes. -/
def filepathClean (path : List Char) : List Char :=
  match path with
  | [] => ".".toList
  | c :: rest =>
    let rooted := isPathSeparator c
    let out :=
      if rooted then cleanLoop true (path.length + 1) rest [Separator] 1
      else cleanLoop false (path.length + 1) path [] 0
    if out = [] then ".".toList else out

/-- Go `filepath.Join`: the elements from the first non-empty one on, joined by
the separator and cleaned; the empty string when all are empty. -/
def filepathJoin : List (List Char) → List Char
  | [] => []
  | e :: rest => if e ≠ [] then filepathClean (Join (e :: rest) [Separator]) else filepathJoin rest

/-! ## Template functions (`main.go`, lines 49-92) -/

/-- Template function `Public`. -/
def Public (T : UnicodeTables) (s : List Char) : List Char :=
  Join ((Split s '-').map (Title T)) []

/-- The loop body of `Private` applied from index `i` on. -/
def privateParts (T : UnicodeTables) : Nat → List (List Char) → List (List Char)
  | _, [] => []
  | i, p :: ps => (if i > 0 then Title T p else ToLower T p) :: privateParts T (i + 1) ps

/-- Template function `Private`. -/
def Private (T : UnicodeTables) (s : List Char) : List Char :=
  Join (privateParts T 0 (Split s '-')) []

/-- What a call of a Go function does: return a value or panic. -/
inductive Outcome (α : Type) where
  | ret (v : α)
  | panic (msg : List Char)
deriving DecidableEq, Repr

/-! ## Declaration tree (`main.go`, lines 15-41)

The grammar makes every pointer field except `Func.Ret` mandatory
(`Decl.Func` is a bare capture, `Arg.Type` and `Ret.Type` follow a required
token), so the parser never leaves them nil; they are plain fields here. -/

structure Type_ where
  Ident : List Char
deriving DecidableEq, Repr

structure Ret where
  Type_ : Type_
deriving DecidableEq, Repr

structure Arg where
  Name : List Char
  Type_ : Type_
deriving DecidableEq, Repr

structure Func where
  Name : List Char
  Args : List Arg
  Ret : Option Ret
deriving DecidableEq, Repr

structure Decl where
  Func : Func
deriving DecidableEq, Repr

structure AST where
  Decls : List Decl
deriving DecidableEq, Repr

/-- Template function `Type`: a switch over the identifier whose default
branch panics. -/
def TypeFn (t : Type_) : Outcome (List Char) :=
  if t.Ident = "u8".toList then .ret "uint8".toList
  else if t.Ident = "u16".toList then .ret "uint16".toList
  else if t.Ident = "u32".toList then .ret "uint32".toList
  else if t.Ident = "u64".toList then .ret "uint64".toList
  else if t.Ident = "s8".toList then .ret "int8".toList
  else if t.Ident = "s16".toList then .ret "int16".toList
  else if t.Ident = "s32".toList then .ret "int32".toList
  else if t.Ident = "s64".toList then .ret "int64".toList
  else if t.Ident = "float32".toList then .ret "float32".toList
  else if t.Ident = "float64".toList then .ret "float64".toList
  else .panic "unknown type".toList

/-- The closed type vocabulary of the DSL, as the specification lists it. -/
def vocabulary : List (List Char) :=
  ["u8".toList, "u16".toList, "u32".toList, "u64".toList, "s8".toList, "s16".toList,
   "s32".toList, "s64".toList, "float32".toList, "float64".toList]

/-! ## Template execution (`witTemplate`, lines 94-109)

`text/template` calls a template function through `safeCall`, which recovers
a panic of the function and returns it as an error; `evalCall` then stops the
execution and `Execute` returns that error. -/

/-- The error `Execute` returns when a template function fails: the action
being evaluated, the function called and the recovered panic value. -/
structure ExecError where
  node : List Char
  fn : List Char
  msg : List Char
deriving DecidableEq, Repr

/-- Go `text/template` `safeCall`: a panic of the called function becomes an
error value. -/
def safeCall {α : Type} : Outcome α → Except (List Char) α
  | .ret v => .ok v
  | .panic msg => .error msg

/-- Go `text/template` `evalCall` for the one-argument function `fn` inside the
action `node`. -/
def evalCall {α : Type} (node fn : List Char) (o : Outcome α) : Except ExecError α :=
  match safeCall o with
  | .ok v => .ok v
  | .error msg => .error ⟨node, fn, msg⟩

/-- The inner `range $idx, $arg := .Args`: `idx` is the index of the next
argument, `w` what has been written so far. -/
def walkArgs (T : UnicodeTables) : Nat → List Arg → List Char → Except ExecError (List Char)
  | _, [], w => .ok w
  | idx, a :: rest, w =>
    let w1 := if idx ≠ 0 then w ++ ", ".toList else w
    let w2 := w1 ++ Private T a.Name ++ " ".toList
    match evalCall ".Type|Type".toList "Type".toList (TypeFn a.Type_) with
    | .error e => .error e
    | .ok t => walkArgs T (idx + 1) rest (w2 ++ t)

/-- The body of `with .Func`: one stub block appended to `w`. -/
def walkFunc (T : UnicodeTables) (module : List Char) (f : Func) (w : List Char) :
    Except ExecError (List Char) :=
  let w1 := w ++ "//go:wasm-module ".toList ++ module ++ "\n//go:export ".toList
    ++ Public T f.Name ++ "\nfunc ".toList ++ Public T f.Name ++ "(".toList
  match walkArgs T 0 f.Args w1 with
  | .error e => .error e
  | .ok w2 =>
    let w3 := w2 ++ ")".toList
    match f.Ret with
    | none => .ok (w3 ++ "\n\n".toList)
    | some r =>
      match evalCall ".Ret.Type|Type".toList "Type".toList (TypeFn r.Type_) with
      | .error e => .error e
      | .ok t => .ok (w3 ++ " ".toList ++ t ++ "\n\n".toList)

/-- The outer `range .AST.Decls`. -/
def walkDecls (T : UnicodeTables) (module : List Char) : List Decl → List Char →
    Except ExecError (List Char)
  | [], w => .ok w
  | d :: rest, w =>
    match walkFunc T module d.Func w with
    | .error e => .error e
    | .ok w1 => walkDecls T module rest w1

/-- The data `codegen` passes to the template. -/
structure TemplateData where
  Module : List Char
  Package : List Char
  AST : AST
deriving DecidableEq, Repr

/-- The call `witTemplate.Execute(w, data)`: the text written, or the error (the
text written before the failing action is then not part of the result). -/
def Execute (T : UnicodeTables) (data : TemplateData) : Except ExecError (List Char) :=
  match walkDecls T data.Module data.AST.Decls ("package ".toList ++ data.Package ++ "\n\n".toList) with
  | .error e => .error e
  | .ok w => .ok (w ++ "\n".toList)

/-! ## Lexer (`participle`'s default lexer: `text/scanner` with `GoTokens`)

`parser.Parse` first reads every token of the file, so a scanner error
anywhere rejects the file. -/

/-- Token types of `text/scanner`: the named classes, or the character itself. -/
inductive TokenType where
  | Ident
  | Int
  | Float
  | Char
  | String
  | RawString
  | Comment
  | Rune (r : Char)
deriving DecidableEq, Repr

structure Token where
  Type_ : TokenType
  Value : List Char
deriving DecidableEq, Repr

/-- Why the scanner rejects a text.  `literal` stands for a numeric, character,
string or raw string literal: the model does not scan these, since a malformed
one is a scanner error and a well-formed one is a token that no production of
the grammar accepts (its text starts with a digit, a dot or a quote), so the
file is rejected in both cases. -/
inductive LexError where
  | invalidNUL
  | commentNotTerminated
  | literal
  | fuel
deriving DecidableEq, Repr

/-- The scanner's default `isIdentRune`. -/
def isIdentRune (T : UnicodeTables) (ch : Char) (i : Nat) : Bool :=
  ch = '_' || unicodeIsLetter T ch || (unicodeIsDigit T ch && decide (i > 0))

/-- Membership in `scanner.GoWhitespace`. -/
def isWhitespace (ch : Char) : Bool := ch = '\t' || ch = '\n' || ch = '\r' || ch = ' '

/-- The line-comment loop of `scanComment`: reads up to the newline or the end. -/
def scanLineComment : List Char → Except LexError (List Char)
  | [] => .ok []
  | c :: cs =>
    if c = '\n' then .ok (c :: cs)
    else if c = Char.ofNat 0 then .error .invalidNUL
    else scanLineComment cs

/-- The general-comment loop of `scanComment`, started after the opening. -/
def scanBlockComment : List Char → Except LexError (List Char)
  | [] => .error .commentNotTerminated
  | [c] => if c = Char.ofNat 0 then .error .invalidNUL else .error .commentNotTerminated
  | c :: c1 :: cs1 =>
    if c = Char.ofNat 0 then .error .invalidNUL
    else if c = '*' ∧ c1 = '/' then .ok cs1
    else scanBlockComment (c1 :: cs1)

/-- Repeated `Scanner.Scan` up to the end of the text. -/
def scanAll (T : UnicodeTables) : Nat → List Char → Except LexError (List Token)
  | 0, _ => .error .fuel
  | fuel + 1, src =>
    match src with
    | [] => .ok []
    | ch :: rest =>
      if isWhitespace ch then scanAll T fuel rest
      else if isIdentRune T ch 0 then
        match scanAll T fuel (rest.dropWhile (fun c => isIdentRune T c 1)) with
        | .error e => .error e
        | .ok toks => .ok (⟨.Ident, ch :: rest.takeWhile (fun c => isIdentRune T c 1)⟩ :: toks)
      else if isDecimal ch then .error .literal
      else if ch = Char.ofNat 0 then .error .invalidNUL
      else if ch = '"' ∨ ch = '\'' ∨ ch = Char.ofNat 96 then .error .literal
      else if ch = '.' ∧ (rest.head?.map isDecimal) = some true then .error .literal
      else if ch = '/' ∧ rest.head? = some '/' then
        match scanLineComment rest.tail with
        | .error e => .error e
        | .ok rest1 => scanAll T fuel rest1
      else if ch = '/' ∧ rest.head? = some '*' then
        match scanBlockComment rest.tail with
        | .error e => .error e
        | .ok rest1 => scanAll T fuel rest1
      else
        match scanAll T fuel rest with
        | .error e => .error e
        | .ok toks => .ok (⟨.Rune ch, [ch]⟩ :: toks)

/-- The byte order mark, which `Scanner.Peek` skips at the start of a text. -/
def bom : Char := Char.ofNat 0xFEFF

/-- All tokens of a text, the final `EOF` left implicit. -/
def Lex (T : UnicodeTables) (src : List Char) : Except LexError (List Token) :=
  match src with
  | c :: rest => if c = bom then scanAll T (rest.length + 1) rest else scanAll T (src.length + 1) src
  | [] => .ok []

/-! ## Parser (`participle` over the grammar of the struct tags, lines 15-41)

A node of the grammar either matches a prefix of the tokens and yields a value
and the remaining tokens, or does not match.  For this grammar the parser's
bounded backtracking never decides between success and failure: a branch
of a group that fails after consuming tokens leaves the parser, rewound or not,
in front of a token the enclosing sequence rejects. -/

abbrev Parser (α : Type) := List Token → Option (α × List Token)

/-- A token reference such as `Ident`: matches by token type. -/
def tokenRef (t : TokenType) : Parser (List Char)
  | tok :: rest => if tok.Type_ = t then some (tok.Value, rest) else none
  | [] => none

/-- A quoted literal of the grammar: matches by token text, whatever the type. -/
def literal (s : List Char) : Parser (List Char)
  | tok :: rest => if tok.Value = s then some (tok.Value, rest) else none
  | [] => none

/-- The bound `participle.MaxIterations` on the matches of a repeated group. -/
def MaxIterations : Nat := 1000000

/-- A group `( ... )*`: the first argument is the number of iterations left; when
none is left the group fails (too many iterations). -/
def zeroOrMore {α : Type} (p : Parser α) : Nat → List Token → Option (List α × List Token)
  | 0, _ => none
  | n + 1, toks =>
    match p toks with
    | none => some ([], toks)
    | some (v, rest) =>
      match zeroOrMore p n rest with
      | none => none
      | some (vs, rest1) => some (v :: vs, rest1)

/-- A group `( ... )?`. -/
def zeroOrOne {α : Type} (p : Parser α) : Parser (Option α) := fun toks =>
  match p toks with
  | none => some (none, toks)
  | some (v, rest) => some (some v, rest)

/-- The group `"-" Ident` of a name, yielding the text of both tokens. -/
def hyphenIdent : Parser (List Char) := fun toks =>
  match literal "-".toList toks with
  | none => none
  | some (h, r1) =>
    match tokenRef .Ident r1 with
    | none => none
    | some (v, r2) => some (h ++ v, r2)

/-- The capture `@(Ident ("-" Ident)*)` into a string field: the texts of the
matched tokens, concatenated. -/
def parseName : Parser (List Char) := fun toks =>
  match tokenRef .Ident toks with
  | none => none
  | some (v, r1) =>
    match zeroOrMore hyphenIdent MaxIterations r1 with
    | none => none
    | some (vs, r2) => some (v ++ vs.flatten, r2)

/-- Struct `Type`: `@Ident`. -/
def parseType : Parser Type_ := fun toks =>
  match tokenRef .Ident toks with
  | none => none
  | some (v, r1) => some (⟨v⟩, r1)

/-- Struct `Arg`: a name, `":"` and a type. -/
def parseArg : Parser Arg := fun toks =>
  match parseName toks with
  | none => none
  | some (name, r1) =>
    match literal ":".toList r1 with
    | none => none
    | some (_, r2) =>
      match parseType r2 with
      | none => none
      | some (t, r3) => some (⟨name, t⟩, r3)

/-- The group `"," @@` of an argument list. -/
def commaArg : Parser Arg := fun toks =>
  match literal ",".toList toks with
  | none => none
  | some (_, r1) => parseArg r1

/-- The sequence `@@ ("," @@)* ","?` inside the parentheses. -/
def parseArgList : Parser (List Arg) := fun toks =>
  match parseArg toks with
  | none => none
  | some (a, r1) =>
    match zeroOrMore commaArg MaxIterations r1 with
    | none => none
    | some (rest, r2) =>
      match zeroOrOne (literal ",".toList) r2 with
      | none => none
      | some (_, r3) => some (a :: rest, r3)

/-- The group `"-" ">" @@` capturing `Ret`. -/
def parseRet : Parser Ret := fun toks =>
  match literal "-".toList toks with
  | none => none
  | some (_, r1) =>
    match literal ">".toList r1 with
    | none => none
    | some (_, r2) =>
      match parseType r2 with
      | none => none
      | some (t, r3) => some (⟨t⟩, r3)

/-- The sequence `":" "func" "("` that follows the name of a function. -/
def parseFuncOpen : Parser Unit := fun toks =>
  match literal ":".toList toks with
  | none => none
  | some (_, r1) =>
    match literal "func".toList r1 with
    | none => none
    | some (_, r2) =>
      match literal "(".toList r2 with
      | none => none
      | some (_, r3) => some ((), r3)

/-- Struct `Func`. -/
def parseFunc : Parser Func := fun toks =>
  match parseName toks with
  | none => none
  | some (name, r1) =>
    match parseFuncOpen r1 with
    | none => none
    | some (_, r2) =>
      match zeroOrOne parseArgList r2 with
      | none => none
      | some (args, r3) =>
        match literal ")".toList r3 with
        | none => none
        | some (_, r4) =>
          match zeroOrOne parseRet r4 with
          | none => none
          | some (ret, r5) => some (⟨name, args.getD [], ret⟩, r5)

/-- Struct `Decl`: `@@` capturing `Func`. -/
def parseDecl : Parser Decl := fun toks =>
  match parseFunc toks with
  | none => none
  | some (f, r1) => some (⟨f⟩, r1)

/-- What `parser.Parse` reports for a rejected text; the position and the
expectation text are left out. -/
inductive SyntaxError where
  | scan (e : LexError)
  | unexpectedToken
deriving DecidableEq, Repr

/-- The root `AST` (`@@*`) over a token sequence, followed by the check that
the next token is the end of the input. -/
def ParseTokens (toks : List Token) : Except SyntaxError AST :=
  match zeroOrMore parseDecl MaxIterations toks with
  | some (decls, []) => .ok ⟨decls⟩
  | _ => .error .unexpectedToken

/-- The call `parser.Parse(file, f)` on the text of the file. -/
def Parse (T : UnicodeTables) (src : List Char) : Except SyntaxError AST :=
  match Lex T src with
  | .error e => .error (.scan e)
  | .ok toks => ParseTokens toks

instance {ε α : Type} [DecidableEq ε] [DecidableEq α] : DecidableEq (Except ε α)
  | .ok a, .ok b => if h : a = b then isTrue (by rw [h]) else isFalse (by intro h1; cases h1; exact h rfl)
  | .error a, .error b => if h : a = b then isTrue (by rw [h]) else isFalse (by intro h1; cases h1; exact h rfl)
  | .ok _, .error _ => isFalse (by intro h; cases h)
  | .error _, .ok _ => isFalse (by intro h; cases h)

/-! ## `codegen` (lines 136-164)

Creating the directory and the file is left to the caller; the model returns
the paths `codegen` passes to `os.MkdirAll` and `os.Create` and what
`witTemplate.Execute` writes or returns. -/

/-- What `codegen` derives from the base name of the input file. -/
structure Derivation where
  module : List Char
  pkgParts : List (List Char)
  path : List Char
  pkg : List Char
deriving DecidableEq, Repr

/-- Lines 139-142 of `codegen`; indexing an empty slice would panic. -/
def derive (name : List Char) : Outcome Derivation :=
  let module := ReplaceAll name '_' "::".toList
  let pkgParts := Split name '_'
  let path := filepathJoin pkgParts
  match pkgParts[pkgParts.length - 1]? with
  | none => .panic "index out of range".toList
  | some pkg => .ret ⟨module, pkgParts, path, pkg⟩

/-- The observable result of a run of `codegen`. -/
structure Generated where
  dir : List Char
  file : List Char
  result : Except ExecError (List Char)
deriving DecidableEq, Repr

def codegen (T : UnicodeTables) (dest filename : List Char) (ast : AST) : Outcome Generated :=
  let name := TrimSuffix (filepathBase filename) ".wit".toList
  match derive name with
  | .panic msg => .panic msg
  | .ret d =>
    .ret ⟨filepathJoin [dest, d.path], filepathJoin [dest, d.path, d.pkg ++ ".go".toList],
      Execute T ⟨d.module, d.pkg, ast⟩⟩

/-! ## Identifiers -/

/-- An `Ident` token of the scanner: a non-empty run of identifier characters
that does not start with a digit. -/
def isIdent (T : UnicodeTables) : List Char → Bool
  | [] => false
  | c :: cs => isIdentRune T c 0 && cs.all (fun x => isIdentRune T x 1)

/-- A hyphen-segmented identifier: every part between hyphens is an identifier. -/
def hyphenSegmented (T : UnicodeTables) (s : List Char) : Bool :=
  (Split s '-').all (isIdent T)

/-- Lower-casing leaves the segment unchanged after its first character, and
the title case of the first character is that of its lower case. -/
def lowerStable (T : UnicodeTables) : List Char → Bool
  | [] => true
  | c :: cs =>
    decide (unicodeToTitle T (unicodeToLower T c) = unicodeToTitle T c) &&
      cs.all (fun x => decide (unicodeToLower T x = x))

/-- The case mappings of the table take letters to letters. -/
def CaseKeepsLetters (T : UnicodeTables) : Prop :=
  ∀ c, T.isLetter c = true →
    unicodeIsLetter T (T.toLower c) = true ∧ unicodeIsLetter T (T.toTitle c) = true

/-! ## The stub of one function, as the specification describes it -/

/-- The target type name `Type` returns for `t` (empty when it panics). -/
def typeName (t : Type_) : List Char :=
  match TypeFn t with
  | .ret v => v
  | .panic _ => []

/-- One parameter: the `Private` name, a space and the mapped type. -/
def paramText (T : UnicodeTables) (a : Arg) : List Char :=
  Private T a.Name ++ " ".toList ++ typeName a.Type_

/-- The return part: a space and the mapped type, or nothing. -/
def retText : Option Ret → List Char
  | none => []
  | some r => " ".toList ++ typeName r.Type_

/-- The three lines of a stub, followed by the blank line that ends the block. -/
def stubText (T : UnicodeTables) (module : List Char) (f : Func) : List Char :=
  "//go:wasm-module ".toList ++ module ++ "\n".toList ++
  "//go:export ".toList ++ Public T f.Name ++ "\n".toList ++
  "func ".toList ++ Public T f.Name ++ "(".toList ++
    Join (f.Args.map (paramText T)) ", ".toList ++ ")".toList ++ retText f.Ret ++ "\n".toList ++
  "\n".toList

/-- Every type reference of a function: the argument types, then the return type. -/
def funcTypes (f : Func) : List Type_ :=
  f.Args.map (·.Type_) ++ (match f.Ret with | none => [] | some r => [r.Type_])

/-- Every type reference of a tree. -/
def astTypes (ast : AST) : List Type_ :=
  (ast.Decls.map (fun d => funcTypes d.Func)).flatten

/-- The function of the end-to-end scenario,
`send-receive-skip-search : func(process-id: u64, timeout: u32) -> u32`. -/
def sendReceive : Func :=
  { Name := "send-receive-skip-search".toList
    Args := [⟨"process-id".toList, ⟨"u64".toList⟩⟩, ⟨"timeout".toList, ⟨"u32".toList⟩⟩]
    Ret := some ⟨⟨"u32".toList⟩⟩ }

/-- The error `Execute` returns for an unknown type at the action `node`. -/
def unknownTypeError (node : List Char) : ExecError :=
  ⟨node, "Type".toList, "unknown type".toList⟩

/-- Rename the type identifiers of a function by `ρ`. -/
def Func.retype (ρ : List Char → List Char) (f : Func) : Func :=
  { Name := f.Name
    Args := f.Args.map (fun a => ⟨a.Name, ⟨ρ a.Type_.Ident⟩⟩)
    Ret := f.Ret.map (fun r => ⟨⟨ρ r.Type_.Ident⟩⟩) }

/-- Rename the type identifiers of a tree by `ρ`. -/
def AST.retype (ρ : List Char → List Char) (ast : AST) : AST :=
  ⟨ast.Decls.map (fun d => ⟨d.Func.retype ρ⟩)⟩

/-- A tree with one function `f(x: <ident>)`. -/
def oneArgTree (ident : List Char) : AST :=
  ⟨[⟨{ Name := "f".toList, Args := [⟨"x".toList, ⟨ident⟩⟩], Ret := none }⟩]⟩

/-! ## Path segments -/

/-- A path segment that `filepath.Clean` keeps as it is: not empty, not `.`,
not `..`, and without a separator. -/
def plainSegment (s : List Char) : Bool :=
  decide (s ≠ []) && decide (s ≠ ['.']) && decide (s ≠ ['.', '.']) &&
    s.all (fun c => !isPathSeparator c)

/-- A path made of the given segments, rooted or not. -/
def segmentPath (rooted : Bool) (segs : List (List Char)) : List Char :=
  (if rooted then [Separator] else []) ++ Join segs [Separator]

/-- What the default case of `filepath.Clean` appends for each segment in turn:
a separator, unless the output is still at its start, and the segment. -/
def appendSegments (rooted : Bool) : List Char → List (List Char) → List Char
  | out, [] => out
  | out, s :: rest =>
    appendSegments rooted
      ((if (rooted && decide (out.length ≠ 1)) || (!rooted && decide (out.length ≠ 0)) then
          out ++ [Separator]
        else out) ++ s) rest

/-! ## The text of a function, token by token -/

/-- The `Ident` token the scanner produces for an identifier. -/
def identToken (v : List Char) : Token := ⟨.Ident, v⟩

/-- The token the scanner produces for a punctuation character. -/
def runeToken (c : Char) : Token := ⟨.Rune c, [c]⟩

/-- A hyphen-segmented name: the first identifier and the further ones. -/
structure NameSyntax where
  first : List Char
  rest : List (List Char)
deriving DecidableEq, Repr

/-- The tokens of a name: the identifiers with a hyphen between them. -/
def NameSyntax.tokens (n : NameSyntax) : List Token :=
  identToken n.first :: n.rest.flatMap (fun s => [runeToken '-', identToken s])

/-- The text of a name. -/
def NameSyntax.text (n : NameSyntax) : List Char :=
  n.first ++ n.rest.flatMap (fun s => '-' :: s)

/-- An argument as written: its name and the identifier of its type. -/
structure ArgSyntax where
  name : NameSyntax
  type : List Char
deriving DecidableEq, Repr

def ArgSyntax.tokens (a : ArgSyntax) : List Token :=
  a.name.tokens ++ [runeToken ':', identToken a.type]

def ArgSyntax.arg (a : ArgSyntax) : Arg := ⟨a.name.text, ⟨a.type⟩⟩

/-- A function declaration as written. -/
structure FuncSyntax where
  name : NameSyntax
  args : List ArgSyntax
  ret : Option (List Char)
deriving DecidableEq, Repr

/-- The arguments separated by commas. -/
def argListTokens : List ArgSyntax → List Token
  | [] => []
  | a :: rest => a.tokens ++ rest.flatMap (fun b => runeToken ',' :: b.tokens)

def retTokens : Option (List Char) → List Token
  | none => []
  | some t => [runeToken '-', runeToken '>', identToken t]

/-- The tokens of a function declaration, with or without a comma after the
last argument. -/
def FuncSyntax.tokens (trailingComma : Bool) (f : FuncSyntax) : List Token :=
  f.name.tokens ++ [runeToken ':', identToken "func".toList, runeToken '('] ++
    argListTokens f.args ++ (if trailingComma then [runeToken ','] else []) ++
    [runeToken ')'] ++ retTokens f.ret

/-- The tree of a function declaration. -/
def FuncSyntax.func (f : FuncSyntax) : Func :=
  ⟨f.name.text, f.args.map (·.arg), f.ret.map (fun t => ⟨⟨t⟩⟩)⟩

/-! ## The grammar of the specification, as a relation between tokens and trees

`G X c v` reads: the token sequence `c` is, as a whole, an `X` with the value
`v`. -/

/-- Zero or more items, each consuming its own tokens. -/
inductive Star {α : Type} (Q : List Token → α → Prop) : List Token → List α → Prop where
  | nil : Star Q [] []
  | cons {c cs : List Token} {v : α} {vs : List α} :
      Q c v → Star Q cs vs → Star Q (c ++ cs) (v :: vs)

/-- The group `"-" Ident`. -/
def GHyphenIdent (c : List Token) (v : List Char) : Prop :=
  ∃ h t, c = [h, t] ∧ h.Value = "-".toList ∧ t.Type_ = .Ident ∧ v = h.Value ++ t.Value

/-- `Ident ("-" Ident)*`, valued by the text of its tokens. -/
def GName (c : List Token) (v : List Char) : Prop :=
  ∃ t rest vs, c = t :: rest ∧ t.Type_ = .Ident ∧ Star GHyphenIdent rest vs ∧
    v = t.Value ++ vs.flatten

/-- `Arg := Name ":" Type`. -/
def GArg (c : List Token) (a : Arg) : Prop :=
  ∃ n colon t, c = n ++ [colon, t] ∧ GName n a.Name ∧ colon.Value = ":".toList ∧
    t.Type_ = .Ident ∧ a.Type_ = ⟨t.Value⟩

/-- The group `"," Arg`. -/
def GCommaArg (c : List Token) (a : Arg) : Prop :=
  ∃ comma c1, c = comma :: c1 ∧ comma.Value = ",".toList ∧ GArg c1 a

/-- `(Arg ("," Arg)* ","?)?`. -/
def GArgs (c : List Token) (args : List Arg) : Prop :=
  (c = [] ∧ args = []) ∨
  ∃ c1 a cs rest trailing, c = c1 ++ cs ++ trailing ∧ GArg c1 a ∧ Star GCommaArg cs rest ∧
    (trailing = [] ∨ ∃ t, trailing = [t] ∧ t.Value = ",".toList) ∧ args = a :: rest

/-- `("->" Type)?`, the arrow being the two tokens `-` and `>`. -/
def GRet (c : List Token) (r : Option Ret) : Prop :=
  (c = [] ∧ r = none) ∨
  ∃ h g t, c = [h, g, t] ∧ h.Value = "-".toList ∧ g.Value = ">".toList ∧ t.Type_ = .Ident ∧
    r = some ⟨⟨t.Value⟩⟩

/-- `Func := Name ":" "func" "(" Args ")" Ret`. -/
def GFunc (c : List Token) (f : Func) : Prop :=
  ∃ n colon fn lp ca rp cr, c = n ++ [colon, fn, lp] ++ ca ++ [rp] ++ cr ∧ GName n f.Name ∧
    colon.Value = ":".toList ∧ fn.Value = "func".toList ∧ lp.Value = "(".toList ∧
    GArgs ca f.Args ∧ rp.Value = ")".toList ∧ GRet cr f.Ret

/-- `Decl := Func`. -/
def GDecl (c : List Token) (d : Decl) : Prop := GFunc c d.Func

/-- `AST := Decl*`: the whole token sequence is a sequence of declarations. -/
def GAST (toks : List Token) (ast : AST) : Prop := Star GDecl toks ast.Decls

/-! ## Casing of one segment, as the specification describes it -/

/-- A segment with its first character in title case (the upper case of an
ASCII letter) and the other characters unchanged. -/
def capitalize (T : UnicodeTables) : List Char → List Char
  | [] => []
  | c :: cs => unicodeToTitle T c :: cs

/-! ## Lines of the rendered file -/

/-- A line that starts with `//go:export `. -/
def isExportLine (l : List Char) : Bool := "//go:export ".toList.isPrefixOf l

/-- The number of lines of a text that start with `//go:export `. -/
def exportLineCount (out : List Char) : Nat := ((Split out '\n').filter isExportLine).length

/-! ## Texts with a misplaced hyphen, as token sequences -/

/-- A name written as identifiers: every segment is an identifier, and there
are fewer segments than the parser's bound on repetitions. -/
def NameSyntax.valid (T : UnicodeTables) (n : NameSyntax) : Bool :=
  isIdent T n.first && n.rest.all (isIdent T) && decide (n.rest.length < MaxIterations)

/-- A function written with names that are identifiers, with no more arguments
than the parser's bound on repetitions, and with a comma after the last
argument only if there is an argument. -/
def FuncSyntax.valid (T : UnicodeTables) (trailingComma : Bool) (f : FuncSyntax) : Bool :=
  f.name.valid T && f.args.all (fun a => a.name.valid T) &&
    decide (f.args.length ≤ MaxIterations) && (!trailingComma || !f.args.isEmpty)

/-- The tokens of declarations written one after the other, each with or
without a comma after its last argument. -/
def declsTokens (gs : List (FuncSyntax × Bool)) : List Token :=
  gs.flatMap (fun g => g.1.tokens g.2)

/-- The tokens of a declaration up to the place of its next argument name: the
name of the function, `: func (` and the arguments already written, each
followed by a comma. -/
def argPosition (n : NameSyntax) (written : List ArgSyntax) : List Token :=
  n.tokens ++ [runeToken ':', identToken "func".toList, runeToken '('] ++
    written.flatMap (fun a => a.tokens ++ [runeToken ','])

/-! # Theorems -/

/-! ## Lemmas on `strings.Split` and `strings.Join` -/

theorem genSplitLoop_cons_ne (sep c : Char) (h : c ≠ sep) (n : Nat) (cs : List Char) :
    genSplitLoop sep n (c :: cs) = (genSplitLoop sep n cs).modifyHead (c :: ·) := by
  cases n with
  | zero => simp [genSplitLoop]
  | succ n =>
    simp only [genSplitLoop, Index, if_neg h]
    cases hI : Index sep cs with
    | none => simp
    | some m => simp

theorem Split_nil (sep : Char) : Split [] sep = [[]] := by
  simp [Split, Count, genSplitLoop]

theorem Split_cons (sep c : Char) (cs : List Char) :
    Split (c :: cs) sep =
      if c = sep then [] :: Split cs sep else (Split cs sep).modifyHead (c :: ·) := by
  by_cases h : c = sep
  · simp [Split, Count, h, genSplitLoop, Index]
  · simp [Split, Count, h, genSplitLoop_cons_ne]

theorem Split_eq_splitOn (s : List Char) (sep : Char) : Split s sep = s.splitOn sep := by
  induction s with
  | nil => simp [Split_nil]
  | cons c cs ih =>
    rw [Split_cons, List.splitOn, List.splitOnP_cons, ← List.splitOn, ← ih]
    by_cases h : c = sep <;> simp [h]

theorem Split_ne_nil (s : List Char) (sep : Char) : Split s sep ≠ [] := by
  rw [Split_eq_splitOn]; exact List.splitOnP_ne_nil _ _

theorem not_mem_of_mem_Split (sep : Char) (s p : List Char) (hp : p ∈ Split s sep) : sep ∉ p := by
  induction s generalizing p with
  | nil => simp [Split_nil] at hp; simp [hp]
  | cons c cs ih =>
    rw [Split_cons] at hp
    by_cases h : c = sep
    · simp only [if_pos h, List.mem_cons] at hp
      rcases hp with hp | hp
      · simp [hp]
      · exact ih p hp
    · simp only [if_neg h] at hp
      cases hS : Split cs sep with
      | nil => exact absurd hS (Split_ne_nil cs sep)
      | cons q qs =>
        rw [hS] at hp
        simp only [List.modifyHead_cons, List.mem_cons] at hp
        rcases hp with hp | hp
        · subst hp
          have := ih q (by simp [hS])
          simp only [List.mem_cons, not_or]
          exact ⟨fun e => h e.symm, this⟩
        · exact ih p (by simp [hS, hp])

theorem Split_of_not_mem (sep : Char) (s : List Char) (h : sep ∉ s) : Split s sep = [s] := by
  induction s with
  | nil => exact Split_nil sep
  | cons c cs ih =>
    simp only [List.mem_cons, not_or] at h
    rw [Split_cons, if_neg (fun e => h.1 e.symm), ih h.2]
    rfl

theorem Join_nil (l : List (List Char)) : Join l [] = l.flatten := by
  induction l with
  | nil => rfl
  | cons a rest ih =>
    cases rest with
    | nil => simp [Join]
    | cons b rest => simp [Join, ih]

/-! ## Lemmas on case mapping and `strings.Title` -/

theorem isSeparator_space (T : UnicodeTables) : isSeparator T ' ' = true := rfl

theorem isSeparator_hyphen (T : UnicodeTables) : isSeparator T '-' = true := rfl

theorem isSeparator_underscore (T : UnicodeTables) : isSeparator T '_' = false := rfl

theorem isSeparator_of_isLetter (T : UnicodeTables) (c : Char)
    (h : unicodeIsLetter T c = true) : isSeparator T c = false := by
  unfold isSeparator
  unfold unicodeIsLetter at h
  by_cases ha : isASCII c = true
  · simp only [ha, if_true] at h ⊢
    by_cases h1 : isASCIILower c = true
    · simp [h1]
    · have h2 : isASCIIUpper c = true := by simpa [h1] using h
      simp [h2]
  · have ha1 : isASCII c = false := by simpa using ha
    simp only [ha1, Bool.false_eq_true, if_false] at h ⊢
    simp [unicodeIsLetter, ha1, h]

theorem isSeparator_of_isIdentRune (T : UnicodeTables) (c : Char) (i : Nat)
    (h : isIdentRune T c i = true) : isSeparator T c = false := by
  unfold isIdentRune at h
  simp only [Bool.or_eq_true, Bool.and_eq_true, decide_eq_true_eq] at h
  rcases h with (h | h) | h
  · subst h; exact isSeparator_underscore T
  · exact isSeparator_of_isLetter T c h
  · unfold isSeparator
    have hd := h.1
    unfold unicodeIsDigit at hd
    by_cases ha : isASCII c = true
    · simp only [ha, if_true] at hd ⊢
      simp [hd]
    · have ha1 : isASCII c = false := by simpa using ha
      simp only [ha1, Bool.false_eq_true, if_false] at hd ⊢
      simp [unicodeIsDigit, ha1, hd]

theorem ascii_lower_upper :
    ∀ n < 128, (65 ≤ n ∧ n ≤ 90 → isASCIILower (Char.ofNat (n + 32)) = true ∧
        isASCII (Char.ofNat (n + 32)) = true) ∧
      (97 ≤ n ∧ n ≤ 122 → isASCIIUpper (Char.ofNat (n - 32)) = true ∧
        isASCII (Char.ofNat (n - 32)) = true) := by
  decide

theorem isLetter_toLower_ascii (T : UnicodeTables) (c : Char) (ha : isASCII c = true)
    (h : unicodeIsLetter T c = true) : unicodeIsLetter T (unicodeToLower T c) = true := by
  unfold unicodeToLower
  simp only [ha, if_true]
  by_cases hu : isASCIIUpper c = true
  · simp only [hu, if_true]
    have hn : c.toNat < 128 := by
      simp only [isASCII, decide_eq_true_eq] at ha; omega
    have hr : 65 ≤ c.toNat ∧ c.toNat ≤ 90 := by
      simpa [isASCIIUpper] using hu
    obtain ⟨h1, h2⟩ := (ascii_lower_upper c.toNat hn).1 hr
    simp [unicodeIsLetter, h1, h2]
  · simp only [hu]
    exact h

theorem isLetter_toTitle_ascii (T : UnicodeTables) (c : Char) (ha : isASCII c = true)
    (h : unicodeIsLetter T c = true) : unicodeIsLetter T (unicodeToTitle T c) = true := by
  unfold unicodeToTitle
  simp only [ha, if_true]
  by_cases hu : isASCIILower c = true
  · simp only [hu, if_true]
    have hn : c.toNat < 128 := by
      simp only [isASCII, decide_eq_true_eq] at ha; omega
    have hr : 97 ≤ c.toNat ∧ c.toNat ≤ 122 := by
      simpa [isASCIILower] using hu
    obtain ⟨h1, h2⟩ := (ascii_lower_upper c.toNat hn).2 hr
    simp [unicodeIsLetter, h1, h2]
  · simp only [hu]
    exact h

/-- Case mapping keeps the first character of an identifier a non-separator. -/
theorem isSeparator_case_start (T : UnicodeTables) (hT : CaseKeepsLetters T) (c : Char)
    (h : isIdentRune T c 0 = true) :
    isSeparator T (unicodeToLower T c) = false ∧ isSeparator T (unicodeToTitle T c) = false := by
  unfold isIdentRune at h
  simp only [Bool.or_eq_true, Bool.and_eq_true, decide_eq_true_eq] at h
  rcases h with (h | h) | h
  · subst h
    exact ⟨rfl, rfl⟩
  · by_cases ha : isASCII c = true
    · exact ⟨isSeparator_of_isLetter T _ (isLetter_toLower_ascii T c ha h),
        isSeparator_of_isLetter T _ (isLetter_toTitle_ascii T c ha h)⟩
    · have hl : T.isLetter c = true := by simpa [unicodeIsLetter, ha] using h
      obtain ⟨h1, h2⟩ := hT c hl
      constructor
      · simp only [unicodeToLower, ha]; exact isSeparator_of_isLetter T _ h1
      · simp only [unicodeToTitle, ha]; exact isSeparator_of_isLetter T _ h2
  · omega

theorem titleMap_of_not_separator (T : UnicodeTables) (cs : List Char) (prev : Char)
    (hp : isSeparator T prev = false) (h : ∀ x ∈ cs, isSeparator T x = false) :
    titleMap T prev cs = cs := by
  induction cs generalizing prev with
  | nil => rfl
  | cons r rs ih =>
    simp only [titleMap, hp]
    rw [ih r (h r (by simp)) (fun x hx => h x (by simp [hx]))]
    simp

theorem Title_cons (T : UnicodeTables) (c : Char) (cs : List Char) :
    Title T (c :: cs) = unicodeToTitle T c :: titleMap T c cs := by
  simp [Title, titleMap, isSeparator_space]

/-- On an identifier `Title` changes the first character only. -/
theorem Title_of_isIdent (T : UnicodeTables) (c : Char) (cs : List Char)
    (h : isIdent T (c :: cs) = true) : Title T (c :: cs) = unicodeToTitle T c :: cs := by
  simp only [isIdent, Bool.and_eq_true, List.all_eq_true] at h
  rw [Title_cons, titleMap_of_not_separator T cs c (isSeparator_of_isIdentRune T c 0 h.1)
    (fun x hx => isSeparator_of_isIdentRune T x 1 (h.2 x hx))]

theorem privateParts_pos (T : UnicodeTables) (i : Nat) (hi : 0 < i) (ps : List (List Char)) :
    privateParts T i ps = ps.map (Title T) := by
  induction ps generalizing i with
  | nil => rfl
  | cons p ps ih => simp [privateParts, hi, ih (i + 1) (by omega)]

/-! ## C1: `Public` after `Private` -/

theorem map_eq_self {α : Type} (f : α → α) (l : List α) (h : ∀ x ∈ l, f x = x) :
    l.map f = l := by
  induction l with
  | nil => rfl
  | cons a l ih =>
    simp only [List.map_cons, List.cons.injEq]
    exact ⟨h a (by simp), ih (fun x hx => h x (by simp [hx]))⟩

theorem not_separator_of_isIdent (T : UnicodeTables) (p : List Char) (h : isIdent T p = true) :
    ∀ x ∈ p, isSeparator T x = false := by
  cases p with
  | nil => simp
  | cons c cs =>
    simp only [isIdent, Bool.and_eq_true, List.all_eq_true] at h
    intro x hx
    simp only [List.mem_cons] at hx
    rcases hx with hx | hx
    · subst hx; exact isSeparator_of_isIdentRune T x 0 h.1
    · exact isSeparator_of_isIdentRune T x 1 (h.2 x hx)

theorem not_separator_Title (T : UnicodeTables) (hT : CaseKeepsLetters T) (p : List Char)
    (h : isIdent T p = true) : ∀ x ∈ Title T p, isSeparator T x = false := by
  cases p with
  | nil => simp [isIdent] at h
  | cons c cs =>
    rw [Title_of_isIdent T c cs h]
    have hall := not_separator_of_isIdent T (c :: cs) h
    simp only [isIdent, Bool.and_eq_true] at h
    intro x hx
    simp only [List.mem_cons] at hx
    rcases hx with hx | hx
    · subst hx; exact (isSeparator_case_start T hT c h.1).2
    · exact hall x (by simp [hx])

/-- C1 (amended): for a hyphen-segmented identifier whose first segment is
unchanged by lower-casing after its first character (and whose first character
has the same title case as its lower case), `Public (Private s) = Public s`,
given that the case tables take letters to letters. -/
theorem Public_Private (T : UnicodeTables) (s : List Char) (hT : CaseKeepsLetters T)
    (hs : hyphenSegmented T s = true)
    (hfirst : lowerStable T ((Split s '-').headD []) = true) :
    Public T (Private T s) = Public T s := by
  unfold hyphenSegmented at hs
  rw [List.all_eq_true] at hs
  cases hS : Split s '-' with
  | nil => exact absurd hS (Split_ne_nil s '-')
  | cons p0 ps =>
    rw [hS] at hs hfirst
    have hp0 := hs p0 (by simp)
    have hps : ∀ p ∈ ps, isIdent T p = true := fun p hp => hs p (by simp [hp])
    cases p0 with
    | nil => simp [isIdent] at hp0
    | cons c0 cs0 =>
      simp only [List.headD_cons, lowerStable, Bool.and_eq_true, decide_eq_true_eq,
        List.all_eq_true] at hfirst
      obtain ⟨hc0, hcs0⟩ := hfirst
      have hlow : ToLower T (c0 :: cs0) = unicodeToLower T c0 :: cs0 := by
        simp only [ToLower, List.map_cons, List.cons.injEq, true_and]
        exact map_eq_self _ cs0 hcs0
      have hidc := hp0
      simp only [isIdent, Bool.and_eq_true, List.all_eq_true] at hidc
      have hrest : ∀ x ∈ (ps.map (Title T)).flatten, isSeparator T x = false := by
        intro x hx
        simp only [List.mem_flatten, List.mem_map] at hx
        obtain ⟨l, ⟨p, hp, rfl⟩, hxl⟩ := hx
        exact not_separator_Title T hT p (hps p hp) x hxl
      have htail : ∀ x ∈ cs0 ++ (ps.map (Title T)).flatten, isSeparator T x = false := by
        intro x hx
        simp only [List.mem_append] at hx
        rcases hx with hx | hx
        · exact isSeparator_of_isIdentRune T x 1 (hidc.2 x hx)
        · exact hrest x hx
      have hlc0 := (isSeparator_case_start T hT c0 hidc.1).1
      have hpriv : Private T s =
          unicodeToLower T c0 :: (cs0 ++ (ps.map (Title T)).flatten) := by
        simp [Private, hS, privateParts, privateParts_pos, Join_nil, hlow]
      have hno : '-' ∉ Private T s := by
        rw [hpriv]
        intro hmem
        simp only [List.mem_cons] at hmem
        rcases hmem with hmem | hmem
        · rw [← hmem, isSeparator_hyphen] at hlc0; exact absurd hlc0 (by simp)
        · have := htail _ hmem
          rw [isSeparator_hyphen] at this; exact absurd this (by simp)
      have hpub : Public T s =
          unicodeToTitle T c0 :: (cs0 ++ (ps.map (Title T)).flatten) := by
        simp [Public, hS, Join_nil, Title_of_isIdent T c0 cs0 hp0]
      rw [hpub, Public, Split_of_not_mem '-' _ hno]
      simp only [List.map_cons, List.map_nil, Join]
      rw [hpriv, Title_cons, titleMap_of_not_separator T _ _ hlc0 htail, hc0]

/-- C1 witness: `process-id` satisfies the hypotheses. -/
theorem Public_Private_witness :
    Public asciiTables (Private asciiTables "process-id".toList) =
      Public asciiTables "process-id".toList :=
  Public_Private asciiTables "process-id".toList (fun _ h => by simp [asciiTables] at h)
    (by decide) (by decide)

/-- C1 counterexample: `fooBar-baz` is hyphen-segmented, yet `Public (Private s)`
is `FoobarBaz` and `Public s` is `FooBarBaz`, whatever the tables above ASCII. -/
theorem Public_Private_counterexample :
    ¬ ∃ T : UnicodeTables, hyphenSegmented T "fooBar-baz".toList = true →
      Public T (Private T "fooBar-baz".toList) = Public T "fooBar-baz".toList := by
  rintro ⟨T, h⟩
  have h1 : hyphenSegmented T "fooBar-baz".toList = true := rfl
  have h2 : Public T (Private T "fooBar-baz".toList) = "FoobarBaz".toList := rfl
  have h3 : Public T "fooBar-baz".toList = "FooBarBaz".toList := rfl
  have h4 := h h1
  rw [h2, h3] at h4
  revert h4
  decide

/-! ## C2: the type mapper -/

/-- C2: `Type` returns a non-empty name exactly on the closed vocabulary and
fails with `unknown type` on every other identifier. -/
theorem TypeFn_vocabulary (t : Type_) :
    (t.Ident ∈ vocabulary → ∃ v, TypeFn t = .ret v ∧ v ≠ []) ∧
    (t.Ident ∉ vocabulary → TypeFn t = .panic "unknown type".toList) := by
  constructor
  · intro h
    simp only [vocabulary, List.mem_cons, List.mem_singleton, List.not_mem_nil, or_false] at h
    rcases h with h | h | h | h | h | h | h | h | h | h <;>
      · rw [TypeFn, h]
        refine ⟨_, rfl, ?_⟩
        decide
  · intro h
    simp only [vocabulary, List.mem_cons, List.mem_singleton, List.not_mem_nil, or_false,
      not_or] at h
    obtain ⟨h1, h2, h3, h4, h5, h6, h7, h8, h9, h10⟩ := h
    rw [TypeFn, if_neg h1, if_neg h2, if_neg h3, if_neg h4, if_neg h5, if_neg h6, if_neg h7,
      if_neg h8, if_neg h9, if_neg h10]

/-! ## C3: the end-to-end scenario parses -/

set_option maxRecDepth 100000 in
set_option maxHeartbeats 4000000 in
/-- C3: the text of the scenario parses to exactly one `Function` named
`send-receive-skip-search` with the arguments (`process-id`, u64) and
(`timeout`, u32), in this order, and the return type u32. -/
theorem Parse_sendReceive (T : UnicodeTables) :
    Parse T "send-receive-skip-search : func(process-id: u64, timeout: u32) -> u32".toList =
      .ok ⟨[⟨{ Name := "send-receive-skip-search".toList
               Args := [⟨"process-id".toList, ⟨"u64".toList⟩⟩, ⟨"timeout".toList, ⟨"u32".toList⟩⟩]
               Ret := some ⟨⟨"u32".toList⟩⟩ }⟩]⟩ := by
  rfl

/-! ## Template execution -/

theorem TypeFn_of_mem (t : Type_) (h : t.Ident ∈ vocabulary) :
    TypeFn t = .ret (typeName t) ∧ typeName t ≠ [] := by
  simp only [vocabulary, List.mem_cons, List.mem_singleton, List.not_mem_nil, or_false] at h
  rcases h with h | h | h | h | h | h | h | h | h | h <;>
    · rw [typeName, TypeFn, h]
      exact ⟨rfl, by decide⟩

theorem TypeFn_of_not_mem (t : Type_) (h : t.Ident ∉ vocabulary) :
    TypeFn t = .panic "unknown type".toList := by
  simp only [vocabulary, List.mem_cons, List.mem_singleton, List.not_mem_nil, or_false,
    not_or] at h
  obtain ⟨h1, h2, h3, h4, h5, h6, h7, h8, h9, h10⟩ := h
  rw [TypeFn, if_neg h1, if_neg h2, if_neg h3, if_neg h4, if_neg h5, if_neg h6, if_neg h7,
    if_neg h8, if_neg h9, if_neg h10]

theorem evalCall_of_mem (node fn : List Char) (t : Type_) (h : t.Ident ∈ vocabulary) :
    evalCall node fn (TypeFn t) = .ok (typeName t) := by
  rw [(TypeFn_of_mem t h).1]; rfl

theorem evalCall_of_not_mem (node : List Char) (t : Type_) (h : t.Ident ∉ vocabulary) :
    evalCall node "Type".toList (TypeFn t) = .error (unknownTypeError node) := by
  rw [TypeFn_of_not_mem t h]; rfl

theorem Join_cons (a : List Char) (rest : List (List Char)) (sep : List Char) :
    Join (a :: rest) sep = a ++ rest.flatMap (sep ++ ·) := by
  induction rest generalizing a with
  | nil => simp [Join]
  | cons b rest ih => rw [Join, ih]; simp

/-- With every type known, the inner loop past the first argument writes each
parameter after a comma and a space. -/
theorem walkArgs_pos (T : UnicodeTables) (args : List Arg)
    (h : ∀ a ∈ args, a.Type_.Ident ∈ vocabulary) (idx : Nat) (hi : idx ≠ 0) (w : List Char) :
    walkArgs T idx args w =
      .ok (w ++ args.flatMap (fun a => ", ".toList ++ paramText T a)) := by
  induction args generalizing idx w with
  | nil => simp [walkArgs]
  | cons a rest ih =>
    rw [walkArgs, evalCall_of_mem _ _ _ (h a (by simp))]
    simp only []
    rw [ih (fun x hx => h x (by simp [hx])) (idx + 1) (by omega)]
    simp [hi, paramText]

/-- With every type known, the inner loop writes the parameters joined by a
comma and a space. -/
theorem walkArgs_ok (T : UnicodeTables) (args : List Arg)
    (h : ∀ a ∈ args, a.Type_.Ident ∈ vocabulary) (w : List Char) :
    walkArgs T 0 args w = .ok (w ++ Join (args.map (paramText T)) ", ".toList) := by
  cases args with
  | nil => simp [walkArgs, Join]
  | cons a rest =>
    rw [walkArgs, evalCall_of_mem _ _ _ (h a (by simp))]
    simp only []
    rw [walkArgs_pos T rest (fun x hx => h x (by simp [hx])) 1 (by omega), List.map_cons,
      Join_cons]
    simp [paramText, List.flatMap_map]

/-- The inner loop stops at the first unknown argument type. -/
theorem walkArgs_error (T : UnicodeTables) (args : List Arg)
    (h : ∃ a ∈ args, a.Type_.Ident ∉ vocabulary) (idx : Nat) (w : List Char) :
    walkArgs T idx args w = .error (unknownTypeError ".Type|Type".toList) := by
  induction args generalizing idx w with
  | nil => simp at h
  | cons a rest ih =>
    rw [walkArgs]
    by_cases ha : a.Type_.Ident ∈ vocabulary
    · rw [evalCall_of_mem _ _ _ ha]
      simp only []
      apply ih
      obtain ⟨x, hx, hxv⟩ := h
      simp only [List.mem_cons] at hx
      rcases hx with hx | hx
      · subst hx; exact absurd ha hxv
      · exact ⟨x, hx, hxv⟩
    · rw [evalCall_of_not_mem _ _ ha]

theorem walkFunc_ok (T : UnicodeTables) (module : List Char) (f : Func) (w : List Char)
    (h : ∀ t ∈ funcTypes f, t.Ident ∈ vocabulary) :
    walkFunc T module f w = .ok (w ++ stubText T module f) := by
  have hargs : ∀ a ∈ f.Args, a.Type_.Ident ∈ vocabulary := fun a ha =>
    h a.Type_ (by simp only [funcTypes, List.mem_append, List.mem_map]; exact Or.inl ⟨a, ha, rfl⟩)
  rw [walkFunc]
  simp only []
  rw [walkArgs_ok T f.Args hargs]
  simp only []
  cases hr : f.Ret with
  | none => simp [stubText, retText, hr]
  | some r =>
    have hrv : r.Type_.Ident ∈ vocabulary := h r.Type_ (by simp [funcTypes, hr])
    simp only []
    rw [evalCall_of_mem _ _ _ hrv]
    simp [stubText, retText, hr]

theorem walkFunc_error (T : UnicodeTables) (module : List Char) (f : Func) (w : List Char)
    (h : ∃ t ∈ funcTypes f, t.Ident ∉ vocabulary) :
    ∃ node, (node = ".Type|Type".toList ∨ node = ".Ret.Type|Type".toList) ∧
      walkFunc T module f w = .error (unknownTypeError node) := by
  rw [walkFunc]
  simp only []
  by_cases hargs : ∀ a ∈ f.Args, a.Type_.Ident ∈ vocabulary
  · rw [walkArgs_ok T f.Args hargs]
    simp only []
    obtain ⟨t, ht, htv⟩ := h
    simp only [funcTypes, List.mem_append, List.mem_map] at ht
    rcases ht with ⟨a, ha, rfl⟩ | ht
    · exact absurd (hargs a ha) htv
    · cases hr : f.Ret with
      | none => simp [hr] at ht
      | some r =>
        simp only [hr, List.mem_singleton] at ht
        subst ht
        simp only []
        rw [evalCall_of_not_mem _ _ htv]
        exact ⟨_, Or.inr rfl, rfl⟩
  · push_neg at hargs
    rw [walkArgs_error T f.Args hargs]
    exact ⟨_, Or.inl rfl, rfl⟩

theorem walkDecls_ok (T : UnicodeTables) (module : List Char) (decls : List Decl)
    (h : ∀ t ∈ astTypes ⟨decls⟩, t.Ident ∈ vocabulary) (w : List Char) :
    walkDecls T module decls w =
      .ok (w ++ decls.flatMap (fun d => stubText T module d.Func)) := by
  induction decls generalizing w with
  | nil => simp [walkDecls]
  | cons d rest ih =>
    have hd : ∀ t ∈ funcTypes d.Func, t.Ident ∈ vocabulary := fun t ht =>
      h t (by simp [astTypes, ht])
    have hrest : ∀ t ∈ astTypes ⟨rest⟩, t.Ident ∈ vocabulary := fun t ht => by
      apply h t
      simp only [astTypes, List.map_cons, List.flatten_cons, List.mem_append] at ht ⊢
      exact Or.inr ht
    rw [walkDecls, walkFunc_ok T module d.Func w hd]
    simp only []
    rw [ih hrest]
    simp

theorem walkDecls_error (T : UnicodeTables) (module : List Char) (decls : List Decl)
    (h : ∃ t ∈ astTypes ⟨decls⟩, t.Ident ∉ vocabulary) (w : List Char) :
    ∃ node, (node = ".Type|Type".toList ∨ node = ".Ret.Type|Type".toList) ∧
      walkDecls T module decls w = .error (unknownTypeError node) := by
  induction decls generalizing w with
  | nil => simp [astTypes] at h
  | cons d rest ih =>
    rw [walkDecls]
    by_cases hd : ∀ t ∈ funcTypes d.Func, t.Ident ∈ vocabulary
    · rw [walkFunc_ok T module d.Func w hd]
      simp only []
      apply ih
      obtain ⟨t, ht, htv⟩ := h
      simp only [astTypes, List.map_cons, List.flatten_cons, List.mem_append] at ht
      rcases ht with ht | ht
      · exact absurd (hd t ht) htv
      · exact ⟨t, ht, htv⟩
    · push_neg at hd
      obtain ⟨node, hnode, hn⟩ := walkFunc_error T module d.Func w hd
      rw [hn]
      exact ⟨node, hnode, rfl⟩

theorem Execute_ok (T : UnicodeTables) (data : TemplateData)
    (h : ∀ t ∈ astTypes data.AST, t.Ident ∈ vocabulary) :
    Execute T data = .ok ("package ".toList ++ data.Package ++ "\n\n".toList ++
      data.AST.Decls.flatMap (fun d => stubText T data.Module d.Func) ++ "\n".toList) := by
  rw [Execute, walkDecls_ok T data.Module data.AST.Decls h]

theorem Execute_error (T : UnicodeTables) (data : TemplateData)
    (h : ∃ t ∈ astTypes data.AST, t.Ident ∉ vocabulary) :
    ∃ node, (node = ".Type|Type".toList ∨ node = ".Ret.Type|Type".toList) ∧
      Execute T data = .error (unknownTypeError node) := by
  obtain ⟨node, hnode, hn⟩ := walkDecls_error T data.Module data.AST.Decls h
    ("package ".toList ++ data.Package ++ "\n\n".toList)
  rw [Execute, hn]
  exact ⟨node, hnode, rfl⟩

/-! ## C4: the stub of one function -/

/-- C4: for a function whose types are all in the vocabulary the template
appends exactly the lines `//go:wasm-module <module>`, `//go:export <Public name>`
and `func <Public name>(<params>)<ret>` (then the blank line that closes the
block), the parameters being `<Private name> <mapped type>` joined by a comma
and a space and the return part a space and the mapped type, or nothing. -/
theorem walkFunc_stub (T : UnicodeTables) (module : List Char) (f : Func) (w : List Char)
    (hargs : ∀ a ∈ f.Args, a.Type_.Ident ∈ vocabulary)
    (hret : ∀ r, f.Ret = some r → r.Type_.Ident ∈ vocabulary) :
    walkFunc T module f w = .ok (w ++
      "//go:wasm-module ".toList ++ module ++ "\n".toList ++
      "//go:export ".toList ++ Public T f.Name ++ "\n".toList ++
      "func ".toList ++ Public T f.Name ++ "(".toList ++
        Join (f.Args.map (fun a => Private T a.Name ++ " ".toList ++ typeName a.Type_))
          ", ".toList ++
        ")".toList ++
        (match f.Ret with
          | none => []
          | some r => " ".toList ++ typeName r.Type_) ++ "\n".toList ++
      "\n".toList) := by
  have h : ∀ t ∈ funcTypes f, t.Ident ∈ vocabulary := by
    intro t ht
    simp only [funcTypes, List.mem_append, List.mem_map] at ht
    rcases ht with ⟨a, ha, rfl⟩ | ht
    · exact hargs a ha
    · cases hr : f.Ret with
      | none => simp [hr] at ht
      | some r =>
        simp only [hr, List.mem_singleton] at ht
        subst ht
        exact hret r hr
  rw [walkFunc_ok T module f w h]
  have hp : paramText T = fun a => Private T a.Name ++ " ".toList ++ typeName a.Type_ := rfl
  cases hr : f.Ret <;> simp [stubText, retText, hp, hr]

set_option maxRecDepth 100000 in
set_option maxHeartbeats 4000000 in
/-- C4 witness, the scenario of the specification: in module `lunatic::timer`
the function `send-receive-skip-search(process-id: u64, timeout: u32) -> u32`
is rendered with the export `SendReceiveSkipSearch`, the parameters
`processId uint64, timeout uint32` and the return type `uint32`, whatever the
tables above ASCII. -/
theorem walkFunc_stub_witness :
    ¬ ∃ T : UnicodeTables, walkFunc T "lunatic::timer".toList sendReceive [] ≠
      .ok ("//go:wasm-module lunatic::timer\n".toList ++
        "//go:export SendReceiveSkipSearch\n".toList ++
        "func SendReceiveSkipSearch(processId uint64, timeout uint32) uint32\n".toList ++
        "\n".toList) := by
  rintro ⟨T, h⟩
  apply h
  rw [walkFunc_stub T "lunatic::timer".toList sendReceive [] (by decide)
    (by intro r hr; cases hr; decide)]
  rfl

/-! ## C5: rendering fails exactly on an unknown type -/

/-- C5: `Execute` returns an error exactly when some argument or return type
of the tree is outside the vocabulary, and returns the rendered text when all
types are in it. -/
theorem Execute_error_iff (T : UnicodeTables) (data : TemplateData) :
    ((∃ e, Execute T data = .error e) ↔ ∃ t ∈ astTypes data.AST, t.Ident ∉ vocabulary) ∧
    ((∀ t ∈ astTypes data.AST, t.Ident ∈ vocabulary) → ∃ out, Execute T data = .ok out) := by
  refine ⟨⟨?_, ?_⟩, ?_⟩
  · rintro ⟨e, he⟩
    by_contra hno
    push_neg at hno
    rw [Execute_ok T data hno] at he
    cases he
  · intro h
    obtain ⟨node, _, hn⟩ := Execute_error T data h
    exact ⟨_, hn⟩
  · intro h
    exact ⟨_, Execute_ok T data h⟩

/-! ## C6: the error of an unknown type -/

theorem TypeFn_retype (ρ : List Char → List Char) (hfix : ∀ id ∈ vocabulary, ρ id = id)
    (hunk : ∀ id, id ∉ vocabulary → ρ id ∉ vocabulary) (t : Type_) :
    TypeFn ⟨ρ t.Ident⟩ = TypeFn t := by
  by_cases h : t.Ident ∈ vocabulary
  · rw [hfix _ h]
  · rw [TypeFn_of_not_mem t h, TypeFn_of_not_mem ⟨ρ t.Ident⟩ (hunk _ h)]

theorem walkArgs_retype (T : UnicodeTables) (ρ : List Char → List Char)
    (hfix : ∀ id ∈ vocabulary, ρ id = id) (hunk : ∀ id, id ∉ vocabulary → ρ id ∉ vocabulary)
    (args : List Arg) (idx : Nat) (w : List Char) :
    walkArgs T idx (args.map (fun a => ⟨a.Name, ⟨ρ a.Type_.Ident⟩⟩)) w = walkArgs T idx args w := by
  induction args generalizing idx w with
  | nil => rfl
  | cons a rest ih =>
    simp only [List.map_cons, walkArgs, TypeFn_retype ρ hfix hunk, ih]

theorem walkFunc_retype (T : UnicodeTables) (ρ : List Char → List Char)
    (hfix : ∀ id ∈ vocabulary, ρ id = id) (hunk : ∀ id, id ∉ vocabulary → ρ id ∉ vocabulary)
    (module : List Char) (f : Func) (w : List Char) :
    walkFunc T module (f.retype ρ) w = walkFunc T module f w := by
  cases hr : f.Ret with
  | none => simp [walkFunc, Func.retype, walkArgs_retype T ρ hfix hunk, hr]
  | some r => simp [walkFunc, Func.retype, walkArgs_retype T ρ hfix hunk, hr,
      TypeFn_retype ρ hfix hunk]

theorem walkDecls_retype (T : UnicodeTables) (ρ : List Char → List Char)
    (hfix : ∀ id ∈ vocabulary, ρ id = id) (hunk : ∀ id, id ∉ vocabulary → ρ id ∉ vocabulary)
    (module : List Char) (decls : List Decl) (w : List Char) :
    walkDecls T module (decls.map (fun d => ⟨d.Func.retype ρ⟩)) w = walkDecls T module decls w := by
  induction decls generalizing w with
  | nil => rfl
  | cons d rest ih =>
    simp only [List.map_cons, walkDecls, walkFunc_retype T ρ hfix hunk, ih]

/-- C6 (amended): an error of `Execute` is the fixed message `unknown type` of
the function `Type` at one of the two actions that call it; it does not name
the identifier, and renaming the unknown identifiers of the tree (the known
ones kept) yields the same error. -/
theorem Execute_error_constant (T : UnicodeTables) (data : TemplateData) (e : ExecError)
    (h : Execute T data = .error e) :
    e.fn = "Type".toList ∧ e.msg = "unknown type".toList ∧
    (e.node = ".Type|Type".toList ∨ e.node = ".Ret.Type|Type".toList) ∧
    ∀ ρ : List Char → List Char, (∀ id ∈ vocabulary, ρ id = id) →
      (∀ id, id ∉ vocabulary → ρ id ∉ vocabulary) →
      Execute T ⟨data.Module, data.Package, data.AST.retype ρ⟩ = .error e := by
  have hex : ∃ t ∈ astTypes data.AST, t.Ident ∉ vocabulary := by
    by_contra hno
    push_neg at hno
    rw [Execute_ok T data hno] at h
    cases h
  obtain ⟨node, hnode, hn⟩ := Execute_error T data hex
  rw [hn] at h
  cases h
  refine ⟨rfl, rfl, hnode, ?_⟩
  intro ρ hfix hunk
  rw [← hn]
  simp only [Execute, AST.retype, walkDecls_retype T ρ hfix hunk]

/-- C6 witness: the tree `f(x: u128)` fails, and so does the tree `f(x: u256)`
obtained by renaming, with the same error. -/
theorem Execute_error_constant_witness :
    Execute asciiTables ⟨"m".toList, "p".toList,
        (oneArgTree "u128".toList).retype
          (fun id => if id = "u128".toList then "u256".toList else id)⟩ =
      .error (unknownTypeError ".Type|Type".toList) :=
  (Execute_error_constant asciiTables ⟨"m".toList, "p".toList, oneArgTree "u128".toList⟩
    (unknownTypeError ".Type|Type".toList) (by decide)).2.2.2 _
    (by
      intro id hid
      have hne : id ≠ "u128".toList := by
        rintro rfl
        revert hid
        decide
      exact if_neg hne)
    (by
      intro id hid
      by_cases hc : id = "u128".toList
      · simp only [hc, if_true]
        decide
      · simp only [hc, if_false]
        exact hid)

/-- C6 counterexample: whatever the tables above ASCII, the trees `f(x: u128)`
and `f(x: u256)`, which differ only in the unknown identifier, fail with one
and the same error, which names neither identifier. -/
theorem Execute_u128_counterexample :
    ¬ ∃ T : UnicodeTables,
      ¬ (Execute T ⟨"m".toList, "p".toList, oneArgTree "u128".toList⟩ =
            .error ⟨".Type|Type".toList, "Type".toList, "unknown type".toList⟩ ∧
          Execute T ⟨"m".toList, "p".toList, oneArgTree "u256".toList⟩ =
            Execute T ⟨"m".toList, "p".toList, oneArgTree "u128".toList⟩) := by
  rintro ⟨T, h⟩
  exact h ⟨rfl, rfl⟩

/-! ## C9: module derivation -/

theorem replaceLoop_cons_ne (old c : Char) (new : List Char) (h : c ≠ old) (n : Nat)
    (cs : List Char) : replaceLoop old new n (c :: cs) = c :: replaceLoop old new n cs := by
  cases n with
  | zero => simp [replaceLoop]
  | succ n =>
    simp only [replaceLoop, Index, if_neg h]
    cases hI : Index old cs with
    | none => simp
    | some m => simp

theorem replaceLoop_Count (old : Char) (new : List Char) (s : List Char) :
    replaceLoop old new (Count old s) s = s.flatMap (fun c => if c = old then new else [c]) := by
  induction s with
  | nil => simp [Count, replaceLoop]
  | cons c cs ih =>
    by_cases h : c = old
    · simp [Count, h, replaceLoop, Index, ih]
    · simp [Count, h, replaceLoop_cons_ne, ih]

theorem flatMap_of_Count_zero (old : Char) (new : List Char) (s : List Char)
    (h : Count old s = 0) : s.flatMap (fun c => if c = old then new else [c]) = s := by
  induction s with
  | nil => rfl
  | cons c cs ih =>
    by_cases hc : c = old
    · simp [Count, hc] at h
    · simp only [Count, if_neg hc] at h
      simp [hc, ih h]

/-- `strings.ReplaceAll` replaces every occurrence of the character. -/
theorem ReplaceAll_eq_flatMap (s : List Char) (old : Char) (new : List Char) :
    ReplaceAll s old new = s.flatMap (fun c => if c = old then new else [c]) := by
  unfold ReplaceAll
  by_cases h1 : [old] = new
  · rw [if_pos h1]
    subst h1
    symm
    induction s with
    | nil => rfl
    | cons c cs ih =>
      by_cases hc : c = old <;> simp [hc, ih]
  · rw [if_neg h1]
    by_cases h2 : Count old s = 0
    · rw [if_pos h2, flatMap_of_Count_zero old new s h2]
    · rw [if_neg h2, replaceLoop_Count]

theorem derive_eq (name : List Char) :
    derive name = .ret ⟨ReplaceAll name '_' "::".toList, Split name '_',
      filepathJoin (Split name '_'), (Split name '_').getLast (Split_ne_nil name '_')⟩ := by
  have h : (Split name '_')[(Split name '_').length - 1]? =
      some ((Split name '_').getLast (Split_ne_nil name '_')) := by
    rw [List.getLast_eq_getElem, List.getElem?_eq_getElem]
  simp only [derive, h]

set_option maxRecDepth 100000 in
/-- C9: for every base name the module qualifier is the name with each
underscore replaced by `::`, the segments are the name split on underscores and
the package is the last segment; `lunatic_timer` gives the module
`lunatic::timer`, the segments `lunatic`, `timer` and the package `timer`. -/
theorem derive_module (name : List Char) :
    (∃ d, derive name = .ret d ∧
      d.module = name.flatMap (fun c => if c = '_' then "::".toList else [c]) ∧
      d.pkgParts = name.splitOn '_' ∧
      (name.splitOn '_').getLast? = some d.pkg) ∧
    (∃ d, derive "lunatic_timer".toList = .ret d ∧
      d.module = "lunatic::timer".toList ∧
      d.pkgParts = ["lunatic".toList, "timer".toList] ∧
      d.pkg = "timer".toList) := by
  refine ⟨⟨_, derive_eq name, ?_, ?_, ?_⟩, ⟨_, rfl, ?_, ?_, ?_⟩⟩
  · exact ReplaceAll_eq_flatMap name '_' "::".toList
  · exact Split_eq_splitOn name '_'
  · simp only [← Split_eq_splitOn]
    exact List.getLast?_eq_getLast _ _
  · decide
  · decide
  · decide
/-! ## C10: the output path -/

theorem takeWhile_plain (s rest : List Char) (hs : ∀ c ∈ s, isPathSeparator c = false)
    (hrest : rest = [] ∨ ∃ more, rest = Separator :: more) :
    (s ++ rest).takeWhile (fun x => !isPathSeparator x) = s ∧
      (s ++ rest).dropWhile (fun x => !isPathSeparator x) = rest := by
  induction s with
  | nil =>
    rcases hrest with h | ⟨more, h⟩
    · subst h; simp
    · subst h; simp [isPathSeparator]
  | cons c cs ih =>
    have hc := hs c (by simp)
    have := ih (fun x hx => hs x (by simp [hx]))
    simp [hc, this]

/-- One pass of the default case of `filepath.Clean` over a plain segment. -/
theorem cleanLoop_segment (rooted : Bool) (fuel : Nat) (s rest out : List Char) (dotdot : Nat)
    (hs : plainSegment s = true) (hrest : rest = [] ∨ ∃ more, rest = Separator :: more) :
    cleanLoop rooted (fuel + 1) (s ++ rest) out dotdot =
      cleanLoop rooted fuel rest
        ((if (rooted && decide (out.length ≠ 1)) || (!rooted && decide (out.length ≠ 0)) then
            out ++ [Separator]
          else out) ++ s) dotdot := by
  simp only [plainSegment, Bool.and_eq_true, decide_eq_true_eq, List.all_eq_true,
    Bool.not_eq_true'] at hs
  obtain ⟨⟨⟨hne, hdot⟩, hdotdot⟩, hall⟩ := hs
  obtain ⟨htake, hdrop⟩ := takeWhile_plain s rest hall hrest
  cases s with
  | nil => exact absurd rfl hne
  | cons c cs =>
    have hc : isPathSeparator c = false := hall c (by simp)
    have h1 : ¬ (c = '.' ∧ (cs ++ rest = [] ∨
        (cs ++ rest).head?.map isPathSeparator = some true)) := by
      rintro ⟨rfl, h⟩
      cases cs with
      | nil => exact absurd rfl hdot
      | cons d ds =>
        have hd : isPathSeparator d = false := hall d (by simp)
        simp [hd] at h
    have h2 : ¬ (c = '.' ∧ (cs ++ rest).head? = some '.' ∧
        ((cs ++ rest).tail = [] ∨
          (cs ++ rest).tail.head?.map isPathSeparator = some true)) := by
      rintro ⟨rfl, h, h'⟩
      cases cs with
      | nil =>
        rcases hrest with hr | ⟨more, hr⟩
        · subst hr; simp at h
        · subst hr
          simp only [List.nil_append, List.head?_cons, Option.some.injEq] at h
          exact absurd h (by decide)
      | cons d ds =>
        simp only [List.cons_append, List.head?_cons, Option.some.injEq] at h
        subst h
        cases ds with
        | nil => exact absurd rfl hdotdot
        | cons e es =>
          have he : isPathSeparator e = false := hall e (by simp)
          simp [he] at h'
    rw [List.cons_append] at htake hdrop ⊢
    rw [cleanLoop]
    simp only [hc, Bool.false_eq_true, if_false, if_neg h1, if_neg h2, htake, hdrop]

/-- `filepath.Clean`'s loop over plain segments joined by the separator. -/
theorem cleanLoop_plain (rooted : Bool) (segs : List (List Char))
    (hsegs : ∀ s ∈ segs, plainSegment s = true) (out : List Char) (dotdot fuel : Nat)
    (hfuel : (Join segs [Separator]).length < fuel) :
    cleanLoop rooted fuel (Join segs [Separator]) out dotdot = appendSegments rooted out segs := by
  induction segs generalizing out fuel with
  | nil =>
    cases fuel with
    | zero => simp at hfuel
    | succ n => simp [Join, cleanLoop, appendSegments]
  | cons s rest ih =>
    have hs := hsegs s (by simp)
    have hlen : 0 < s.length := by
      cases s with
      | nil => simp [plainSegment] at hs
      | cons c cs => simp
    cases rest with
    | nil =>
      simp only [Join] at hfuel ⊢
      obtain ⟨n, rfl⟩ : ∃ n, fuel = n + 1 := ⟨fuel - 1, by omega⟩
      have := cleanLoop_segment rooted n s [] out dotdot hs (Or.inl rfl)
      rw [List.append_nil] at this
      rw [this]
      cases n <;> simp [cleanLoop, appendSegments]
    | cons r rs =>
      simp only [Join, List.length_append, List.length_cons, List.length_nil] at hfuel ⊢
      obtain ⟨n, rfl⟩ : ∃ n, fuel = n + 1 + 1 := ⟨fuel - 2, by omega⟩
      rw [List.append_assoc, List.singleton_append]
      rw [cleanLoop_segment rooted (n + 1) s _ out dotdot hs (Or.inr ⟨_, rfl⟩), cleanLoop]
      simp only [isPathSeparator, decide_True, if_true]
      rw [ih (fun x hx => hsegs x (by simp [hx])) _ n (by omega)]
      rfl

theorem appendSegments_later (rooted : Bool) (segs : List (List Char)) (out : List Char)
    (hout : 1 < out.length) :
    appendSegments rooted out segs = out ++ segs.flatMap ([Separator] ++ ·) := by
  induction segs generalizing out with
  | nil => simp [appendSegments]
  | cons s rest ih =>
    have h1 : out.length ≠ 1 := by omega
    have h0 : out.length ≠ 0 := by omega
    rw [appendSegments]
    have hcond : ((rooted && decide (out.length ≠ 1)) || (!rooted && decide (out.length ≠ 0)))
        = true := by
      cases rooted <;> simp [h1, h0]
    rw [if_pos hcond, ih _ (by simp; omega)]
    simp

/-- `filepath.Clean` returns a path of plain segments unchanged. -/
theorem filepathClean_segmentPath (rooted : Bool) (segs : List (List Char))
    (hne : segs ≠ []) (hsegs : ∀ s ∈ segs, plainSegment s = true) :
    filepathClean (segmentPath rooted segs) = segmentPath rooted segs := by
  cases segs with
  | nil => exact absurd rfl hne
  | cons s rest =>
    have hs := hsegs s (by simp)
    have hall : ∀ c ∈ s, isPathSeparator c = false := by
      simp only [plainSegment, Bool.and_eq_true, List.all_eq_true, Bool.not_eq_true'] at hs
      exact hs.2
    cases s with
    | nil => simp [plainSegment] at hs
    | cons c cs =>
      have hc : isPathSeparator c = false := hall c (by simp)
      have hrest : ∀ x ∈ rest, plainSegment x = true := fun x hx => hsegs x (by simp [hx])
      cases rooted with
      | true =>
        have hJ : segmentPath true ((c :: cs) :: rest) =
            Separator :: Join ((c :: cs) :: rest) [Separator] := rfl
        rw [hJ, filepathClean]
        simp only [isPathSeparator, decide_True, if_true]
        rw [cleanLoop_plain true _ hsegs _ _ _ (by rw [List.length_cons]; omega), appendSegments,
          appendSegments_later true rest _ (by simp), Join_cons]
        simp
      | false =>
        have hJ : segmentPath false ((c :: cs) :: rest) =
            c :: (cs ++ rest.flatMap ([Separator] ++ ·)) := by
          simp [segmentPath, Join_cons]
        rw [hJ, filepathClean]
        simp only [hc, Bool.false_eq_true, if_false]
        rw [← List.cons_append, ← Join_cons, cleanLoop_plain false _ hsegs _ _ _ (by omega),
          appendSegments]
        cases cs with
        | nil =>
          cases rest with
          | nil => simp [appendSegments, Join]
          | cons r rs =>
            have hr := hrest r (by simp)
            have hrlen : 0 < r.length := by
              cases r with
              | nil => simp [plainSegment] at hr
              | cons _ _ => simp
            rw [appendSegments]
            simp only [List.length_nil, ne_eq, not_true_eq_false, decide_False, Bool.and_false,
              Bool.not_false, Bool.and_true, Bool.or_self, List.nil_append, List.length_cons,
              Bool.false_eq_true, if_false, Nat.reduceAdd]
            rw [appendSegments_later false rs _ (by simp)]
            simp [Join_cons]
        | cons d ds =>
          simp only [List.length_nil, ne_eq, not_true_eq_false, decide_False, Bool.and_false,
            Bool.not_false, Bool.and_true, Bool.or_self, Bool.false_eq_true, if_false,
            List.nil_append]
          rw [appendSegments_later false rest _ (by simp)]
          simp [Join_cons]
/-- Joining plain segments with `filepath.Join` is joining them with the separator. -/
theorem filepathJoin_plain (segs : List (List Char)) (hne : segs ≠ [])
    (hsegs : ∀ s ∈ segs, plainSegment s = true) :
    filepathJoin segs = Join segs [Separator] := by
  cases segs with
  | nil => exact absurd rfl hne
  | cons s rest =>
    have hs := hsegs s (by simp)
    have hsne : s ≠ [] := by
      intro h; subst h; simp [plainSegment] at hs
    rw [filepathJoin, if_pos hsne]
    exact filepathClean_segmentPath false _ hne hsegs

theorem codegen_eq (T : UnicodeTables) (dest filename : List Char) (ast : AST) :
    codegen T dest filename ast =
      .ret ⟨filepathJoin [dest, filepathJoin (Split (TrimSuffix (filepathBase filename)
          ".wit".toList) '_')],
        filepathJoin [dest, filepathJoin (Split (TrimSuffix (filepathBase filename)
          ".wit".toList) '_'),
          (Split (TrimSuffix (filepathBase filename) ".wit".toList) '_').getLast
            (Split_ne_nil _ '_') ++ ".go".toList],
        Execute T ⟨ReplaceAll (TrimSuffix (filepathBase filename) ".wit".toList) '_' "::".toList,
          (Split (TrimSuffix (filepathBase filename) ".wit".toList) '_').getLast
            (Split_ne_nil _ '_'), ast⟩⟩ := by
  rw [codegen]
  simp only [derive_eq]

/-- A repeated group over chunks that each match, stopped by a rest that does not. -/
theorem zeroOrMore_flatMap {α β : Type} (p : Parser α) (gen : β → List Token) (val : β → α)
    (xs : List β) (hp : ∀ x ∈ xs, ∀ r, p (gen x ++ r) = some (val x, r)) (rest : List Token)
    (hfail : p rest = none) (n : Nat) (hn : xs.length < n) :
    zeroOrMore p n (xs.flatMap gen ++ rest) = some (xs.map val, rest) := by
  induction xs generalizing n with
  | nil =>
    obtain ⟨m, rfl⟩ : ∃ m, n = m + 1 := ⟨n - 1, by simp at hn; omega⟩
    simp [zeroOrMore, hfail]
  | cons x xs ih =>
    obtain ⟨m, rfl⟩ : ∃ m, n = m + 1 := ⟨n - 1, by simp at hn; omega⟩
    simp only [List.flatMap_cons, List.append_assoc, zeroOrMore, hp x (by simp)]
    rw [ih (fun y hy => hp y (by simp [hy])) m (by simp at hn; omega)]
    simp

theorem literal_rune_eq (s : List Char) (c : Char) (r : List Token) (h : s = [c]) :
    literal s (runeToken c :: r) = some ([c], r) := by
  subst h; simp [literal, runeToken]

theorem literal_rune_ne (s : List Char) (c : Char) (r : List Token) (h : s ≠ [c]) :
    literal s (runeToken c :: r) = none := by
  simp only [literal, runeToken, ite_eq_right_iff]
  intro h'
  exact absurd h'.symm h

theorem literal_ident (s v : List Char) (r : List Token) (h : s = v) :
    literal s (identToken v :: r) = some (v, r) := by
  subst h; simp [literal, identToken]

theorem tokenRef_ident (v : List Char) (r : List Token) :
    tokenRef .Ident (identToken v :: r) = some (v, r) := by
  simp [tokenRef, identToken]

theorem tokenRef_rune (c : Char) (r : List Token) :
    tokenRef .Ident (runeToken c :: r) = none := by
  simp [tokenRef, runeToken]

theorem hyphenIdent_tokens (s : List Char) (r : List Token) :
    hyphenIdent ([runeToken '-', identToken s] ++ r) = some ('-' :: s, r) := by
  rw [hyphenIdent, List.cons_append, literal_rune_eq "-".toList '-' _ rfl]
  simp only [List.cons_append, List.nil_append, tokenRef_ident, List.singleton_append]

theorem hyphenIdent_rune (c : Char) (hc : c ≠ '-') (r : List Token) :
    hyphenIdent (runeToken c :: r) = none := by
  rw [hyphenIdent, literal_rune_ne _ c _ (by
    intro h
    have h1 : '-' = c := by simpa using h
    exact hc h1.symm)]

theorem hyphenIdent_nil : hyphenIdent [] = none := rfl

theorem parseName_tokens (n : NameSyntax) (hn : n.rest.length < MaxIterations) (r : List Token)
    (hr : hyphenIdent r = none) : parseName (n.tokens ++ r) = some (n.text, r) := by
  have h := zeroOrMore_flatMap hyphenIdent (fun s => [runeToken '-', identToken s])
    (fun s => '-' :: s) n.rest (fun s _ r => hyphenIdent_tokens s r) r hr MaxIterations hn
  rw [parseName, NameSyntax.tokens, List.cons_append, tokenRef_ident]
  simp only []
  rw [h]
  simp [NameSyntax.text, List.flatten_eq_flatMap, List.flatMap_map]

theorem parseType_ident (v : List Char) (r : List Token) :
    parseType (identToken v :: r) = some (⟨v⟩, r) := by
  rw [parseType, tokenRef_ident]

theorem parseArg_tokens (a : ArgSyntax) (ha : a.name.rest.length < MaxIterations)
    (r : List Token) : parseArg (a.tokens ++ r) = some (a.arg, r) := by
  rw [parseArg, ArgSyntax.tokens, List.append_assoc, parseName_tokens a.name ha _ (by
    simp only [List.cons_append]; exact hyphenIdent_rune ':' (by decide) _)]
  simp only [List.cons_append, List.nil_append]
  rw [literal_rune_eq ":".toList ':' _ rfl]
  simp only [parseType_ident]
  rfl

theorem commaArg_tokens (a : ArgSyntax) (ha : a.name.rest.length < MaxIterations)
    (r : List Token) : commaArg (runeToken ',' :: a.tokens ++ r) = some (a.arg, r) := by
  rw [commaArg, List.cons_append, literal_rune_eq ",".toList ',' _ rfl]
  exact parseArg_tokens a ha r

theorem parseName_rune (c : Char) (r : List Token) : parseName (runeToken c :: r) = none := by
  rw [parseName, tokenRef_rune]

theorem parseName_nil : parseName [] = none := rfl

theorem parseArg_rune (c : Char) (r : List Token) : parseArg (runeToken c :: r) = none := by
  rw [parseArg, parseName_rune]

theorem commaArg_rparen (r : List Token) : commaArg (runeToken ')' :: r) = none := by
  rw [commaArg, literal_rune_ne _ ')' _ (by decide)]

theorem commaArg_comma_rparen (r : List Token) :
    commaArg (runeToken ',' :: runeToken ')' :: r) = none := by
  rw [commaArg, literal_rune_eq ",".toList ',' _ rfl]
  exact parseArg_rune ')' r

/-- The argument list of a function with at least one argument, followed by
the closing parenthesis with or without a comma before it: in both cases the
list is parsed up to the parenthesis. -/
theorem parseArgList_tokens (args : List ArgSyntax) (hne : args ≠ [])
    (hnames : ∀ a ∈ args, a.name.rest.length < MaxIterations)
    (hlen : args.length ≤ MaxIterations) (comma : Bool) (r : List Token) :
    parseArgList (argListTokens args ++ (if comma then [runeToken ','] else []) ++
        runeToken ')' :: r) = some (args.map ArgSyntax.arg, runeToken ')' :: r) := by
  cases args with
  | nil => exact absurd rfl hne
  | cons a rest =>
    rw [parseArgList, argListTokens, List.append_assoc, List.append_assoc,
      parseArg_tokens a (hnames a (by simp))]
    simp only []
    have hloop : ∀ tail, commaArg tail = none →
        zeroOrMore commaArg MaxIterations
          (rest.flatMap (fun b => runeToken ',' :: b.tokens) ++ tail) =
          some (rest.map ArgSyntax.arg, tail) := fun tail htail =>
      zeroOrMore_flatMap commaArg (fun b => runeToken ',' :: b.tokens) ArgSyntax.arg rest
        (fun b hb r => by
          have := commaArg_tokens b (hnames b (by simp [hb])) r
          simpa using this)
        tail htail MaxIterations (by simp at hlen; omega)
    cases comma with
    | false =>
      simp only [Bool.false_eq_true, if_false, List.nil_append]
      rw [hloop _ (commaArg_rparen r)]
      simp only [zeroOrOne, literal_rune_ne _ ')' _ (by decide : ",".toList ≠ [')'])]
      rfl
    | true =>
      simp only [if_true, List.singleton_append]
      rw [hloop _ (commaArg_comma_rparen r)]
      simp only [zeroOrOne, literal_rune_eq ",".toList ',' _ rfl]
      rfl
theorem parseRet_tokens (t : List Char) (r : List Token) :
    parseRet (retTokens (some t) ++ r) = some (⟨⟨t⟩⟩, r) := by
  rw [parseRet, retTokens, List.cons_append, literal_rune_eq "-".toList '-' _ rfl]
  simp only [List.cons_append, List.nil_append]
  rw [literal_rune_eq ">".toList '>' _ rfl]
  simp only [parseType_ident]

theorem parseRet_nil : parseRet [] = none := rfl

theorem parseFuncOpen_tokens (r : List Token) :
    parseFuncOpen (runeToken ':' :: identToken "func".toList :: runeToken '(' :: r) =
      some ((), r) := by
  rw [parseFuncOpen, literal_rune_eq ":".toList ':' _ rfl]
  simp only []
  rw [literal_ident "func".toList _ _ rfl]
  simp only []
  rw [literal_rune_eq "(".toList '(' _ rfl]

/-- The arguments between the parentheses, up to the closing parenthesis. -/
theorem parseArgs_tokens (args : List ArgSyntax) (comma : Bool)
    (hcomma : comma = true → args ≠ [])
    (hnames : ∀ a ∈ args, a.name.rest.length < MaxIterations)
    (hlen : args.length ≤ MaxIterations) (r : List Token) :
    ∃ o, zeroOrOne parseArgList (argListTokens args ++
        (if comma then [runeToken ','] else []) ++ runeToken ')' :: r) =
        some (o, runeToken ')' :: r) ∧ o.getD [] = args.map ArgSyntax.arg := by
  cases hargs : args with
  | nil =>
    have hc : comma = false := by
      cases comma with
      | false => rfl
      | true => exact absurd hargs (hcomma rfl)
    subst hc
    refine ⟨none, ?_, rfl⟩
    simp only [argListTokens, Bool.false_eq_true, if_false, List.append_nil, List.nil_append,
      zeroOrOne, parseArgList, parseArg_rune]
  | cons a rest =>
    refine ⟨some ((a :: rest).map ArgSyntax.arg), ?_, rfl⟩
    rw [zeroOrOne, parseArgList_tokens (a :: rest) (by simp) (by rw [← hargs]; exact hnames)
      (by rw [← hargs]; exact hlen)]

theorem parseFunc_tokens (f : FuncSyntax) (comma : Bool) (hcomma : comma = true → f.args ≠ [])
    (hname : f.name.rest.length < MaxIterations)
    (hnames : ∀ a ∈ f.args, a.name.rest.length < MaxIterations)
    (hlen : f.args.length ≤ MaxIterations) (r : List Token)
    (hr : f.ret = none → parseRet r = none) :
    parseFunc (f.tokens comma ++ r) = some (f.func, r) := by
  obtain ⟨o, ho, hoargs⟩ := parseArgs_tokens f.args comma hcomma hnames hlen (retTokens f.ret ++ r)
  have htoks : f.tokens comma ++ r = f.name.tokens ++
      (runeToken ':' :: identToken "func".toList :: runeToken '(' ::
        (argListTokens f.args ++ (if comma then [runeToken ','] else []) ++
          runeToken ')' :: (retTokens f.ret ++ r))) := by
    simp [FuncSyntax.tokens]
  rw [htoks, parseFunc, parseName_tokens f.name hname _ (hyphenIdent_rune ':' (by decide) _)]
  simp only []
  rw [parseFuncOpen_tokens]
  simp only []
  rw [ho]
  simp only []
  rw [literal_rune_eq ")".toList ')' _ rfl]
  simp only []
  cases hret : f.ret with
  | none =>
    simp only [retTokens, List.nil_append, zeroOrOne, hr hret, FuncSyntax.func, hoargs, hret,
      Option.map_none']
  | some t =>
    simp only [zeroOrOne, parseRet_tokens, FuncSyntax.func, hoargs, hret, Option.map_some']

theorem MaxIterations_eq : MaxIterations = 999998 + 1 + 1 := rfl

theorem zeroOrMore_of_none {α : Type} (p : Parser α) (toks : List Token) (n : Nat)
    (h : p toks = none) (hn : 0 < n) : zeroOrMore p n toks = some ([], toks) := by
  obtain ⟨m, rfl⟩ : ∃ m, n = m + 1 := ⟨n - 1, by omega⟩
  rw [zeroOrMore, h]

theorem zeroOrMore_of_some {α : Type} (p : Parser α) (toks : List Token) (n : Nat) (v : α)
    (rest : List Token) (h : p toks = some (v, rest)) :
    zeroOrMore p (n + 1) toks =
      match zeroOrMore p n rest with
      | none => none
      | some (vs, rest1) => some (v :: vs, rest1) := by
  rw [zeroOrMore, h]

theorem parseDecl_of_parseFunc (toks : List Token) (f : Func) (r : List Token)
    (h : parseFunc toks = some (f, r)) : parseDecl toks = some (⟨f⟩, r) := by
  rw [parseDecl, h]

theorem ParseTokens_tokens (f : FuncSyntax) (comma : Bool) (hcomma : comma = true → f.args ≠ [])
    (hname : f.name.rest.length < MaxIterations)
    (hnames : ∀ a ∈ f.args, a.name.rest.length < MaxIterations)
    (hlen : f.args.length ≤ MaxIterations) :
    ParseTokens (f.tokens comma) = .ok ⟨[⟨f.func⟩]⟩ := by
  have h := parseFunc_tokens f comma hcomma hname hnames hlen [] (fun _ => parseRet_nil)
  rw [List.append_nil] at h
  have hloop : zeroOrMore parseDecl MaxIterations (f.tokens comma) = some ([⟨f.func⟩], []) := by
    rw [MaxIterations_eq, zeroOrMore_of_some _ _ _ _ _ (parseDecl_of_parseFunc _ _ _ h),
      zeroOrMore_of_none _ _ _ rfl (by omega)]
  rw [ParseTokens, hloop]

/-- A comma directly after the opening parenthesis is rejected. -/
theorem ParseTokens_comma_only (f : FuncSyntax) (hargs : f.args = [])
    (hname : f.name.rest.length < MaxIterations) :
    ParseTokens (f.tokens true) = .error .unexpectedToken := by
  have htoks : f.tokens true = f.name.tokens ++
      (runeToken ':' :: identToken "func".toList :: runeToken '(' ::
        runeToken ',' :: runeToken ')' :: retTokens f.ret) := by
    simp [FuncSyntax.tokens, hargs, argListTokens]
  have h : parseFunc (f.tokens true) = none := by
    rw [htoks, parseFunc, parseName_tokens f.name hname _ (hyphenIdent_rune ':' (by decide) _)]
    simp only []
    rw [parseFuncOpen_tokens]
    simp only [zeroOrOne, parseArgList, parseArg_rune]
    rw [literal_rune_ne ")".toList ',' _ (by decide)]
  have hne : f.tokens true ≠ [] := by rw [htoks]; simp [NameSyntax.tokens]
  have hd : parseDecl (f.tokens true) = none := by rw [parseDecl, h]
  rw [ParseTokens, zeroOrMore_of_none _ _ _ hd (by decide)]
  cases hft : f.tokens true with
  | nil => exact absurd hft hne
  | cons t ts => rfl

set_option maxRecDepth 100000 in
set_option maxHeartbeats 4000000 in
/-- C7: for a function with at least one argument the text with a comma after
the last argument and the text without it parse to the same tree, the tree of
that function; a comma with no argument before it is rejected, and so is the
text `foo-bar : func(,)`.  (Names and argument lists stay below the parser's
bound on repetitions.) -/
theorem trailing_comma (T : UnicodeTables) (f : FuncSyntax)
    (hname : f.name.rest.length < MaxIterations)
    (hnames : ∀ a ∈ f.args, a.name.rest.length < MaxIterations)
    (hlen : f.args.length ≤ MaxIterations) :
    (f.args ≠ [] →
      ParseTokens (f.tokens true) = .ok ⟨[⟨f.func⟩]⟩ ∧
      ParseTokens (f.tokens false) = .ok ⟨[⟨f.func⟩]⟩) ∧
    (f.args = [] → ParseTokens (f.tokens true) = .error .unexpectedToken) ∧
    Parse T "foo-bar : func(,)".toList = .error .unexpectedToken := by
  refine ⟨fun hargs => ⟨?_, ?_⟩, fun hargs => ?_, rfl⟩
  · exact ParseTokens_tokens f true (fun _ => hargs) hname hnames hlen
  · exact ParseTokens_tokens f false (fun h => by cases h) hname hnames hlen
  · exact ParseTokens_comma_only f hargs hname

set_option maxRecDepth 100000 in
/-- C7 witness: `foo-bar : func(a: u8,)` and `foo-bar : func(a: u8)`, whose
tokens are those of the function `foo-bar` with the argument `a` of type `u8`,
parse to the same tree. -/
theorem trailing_comma_witness :
    Lex asciiTables "foo-bar : func(a: u8,)".toList =
      .ok (FuncSyntax.tokens true ⟨⟨"foo".toList, ["bar".toList]⟩,
        [⟨⟨"a".toList, []⟩, "u8".toList⟩], none⟩) ∧
    Lex asciiTables "foo-bar : func(a: u8)".toList =
      .ok (FuncSyntax.tokens false ⟨⟨"foo".toList, ["bar".toList]⟩,
        [⟨⟨"a".toList, []⟩, "u8".toList⟩], none⟩) ∧
    Parse asciiTables "foo-bar : func(a: u8,)".toList =
      .ok ⟨[⟨⟨"foo-bar".toList, [⟨"a".toList, ⟨"u8".toList⟩⟩], none⟩⟩]⟩ ∧
    ParseTokens (FuncSyntax.tokens true ⟨⟨"foo".toList, ["bar".toList]⟩,
        [⟨⟨"a".toList, []⟩, "u8".toList⟩], none⟩) =
      .ok ⟨[⟨⟨"foo-bar".toList, [⟨"a".toList, ⟨"u8".toList⟩⟩], none⟩⟩]⟩ ∧
    ParseTokens (FuncSyntax.tokens false ⟨⟨"foo".toList, ["bar".toList]⟩,
        [⟨⟨"a".toList, []⟩, "u8".toList⟩], none⟩) =
      .ok ⟨[⟨⟨"foo-bar".toList, [⟨"a".toList, ⟨"u8".toList⟩⟩], none⟩⟩]⟩ :=
  ⟨by decide, by decide, by decide,
    (trailing_comma asciiTables ⟨⟨"foo".toList, ["bar".toList]⟩,
      [⟨⟨"a".toList, []⟩, "u8".toList⟩], none⟩ (by decide) (by decide) (by decide)).1
      (by decide)⟩

/-! ## C8: no partial parse -/

theorem tokenRef_inv {t : TokenType} {toks rest : List Token} {v : List Char}
    (h : tokenRef t toks = some (v, rest)) :
    ∃ tok, toks = tok :: rest ∧ tok.Type_ = t ∧ v = tok.Value := by
  cases toks with
  | nil => simp [tokenRef] at h
  | cons tok ts =>
    simp only [tokenRef] at h
    split at h
    · rename_i ht
      simp only [Option.some.injEq, Prod.mk.injEq] at h
      exact ⟨tok, by rw [h.2], ht, h.1.symm⟩
    · cases h

theorem literal_inv {s : List Char} {toks rest : List Token} {v : List Char}
    (h : literal s toks = some (v, rest)) :
    ∃ tok, toks = tok :: rest ∧ tok.Value = s ∧ v = tok.Value := by
  cases toks with
  | nil => simp [literal] at h
  | cons tok ts =>
    simp only [literal] at h
    split at h
    · rename_i ht
      simp only [Option.some.injEq, Prod.mk.injEq] at h
      exact ⟨tok, by rw [h.2], ht, h.1.symm⟩
    · cases h

theorem hyphenIdent_inv {toks rest : List Token} {v : List Char}
    (h : hyphenIdent toks = some (v, rest)) :
    ∃ hv r1 iv, literal "-".toList toks = some (hv, r1) ∧
      tokenRef .Ident r1 = some (iv, rest) ∧ v = hv ++ iv := by
  rw [hyphenIdent] at h
  cases h1 : literal "-".toList toks with
  | none => rw [h1] at h; cases h
  | some p1 =>
    obtain ⟨hv, r1⟩ := p1
    rw [h1] at h
    simp only [] at h
    cases h2 : tokenRef .Ident r1 with
    | none => rw [h2] at h; cases h
    | some p2 =>
      obtain ⟨iv, r2⟩ := p2
      rw [h2] at h
      simp only [Option.some.injEq, Prod.mk.injEq] at h
      obtain ⟨rfl, rfl⟩ := h
      exact ⟨hv, r1, iv, rfl, h2, rfl⟩

theorem parseName_inv {toks rest : List Token} {v : List Char}
    (h : parseName toks = some (v, rest)) :
    ∃ v0 r1 vs, tokenRef .Ident toks = some (v0, r1) ∧
      zeroOrMore hyphenIdent MaxIterations r1 = some (vs, rest) ∧ v = v0 ++ vs.flatten := by
  rw [parseName] at h
  cases h1 : tokenRef .Ident toks with
  | none => rw [h1] at h; cases h
  | some p1 =>
    obtain ⟨v0, r1⟩ := p1
    rw [h1] at h
    simp only [] at h
    cases h2 : zeroOrMore hyphenIdent MaxIterations r1 with
    | none => rw [h2] at h; cases h
    | some p2 =>
      obtain ⟨vs, r2⟩ := p2
      rw [h2] at h
      simp only [Option.some.injEq, Prod.mk.injEq] at h
      obtain ⟨rfl, rfl⟩ := h
      exact ⟨v0, r1, vs, rfl, h2, rfl⟩

theorem parseType_inv {toks rest : List Token} {t : Type_}
    (h : parseType toks = some (t, rest)) :
    ∃ v, tokenRef .Ident toks = some (v, rest) ∧ t = ⟨v⟩ := by
  rw [parseType] at h
  cases h1 : tokenRef .Ident toks with
  | none => rw [h1] at h; cases h
  | some p1 =>
    obtain ⟨v, r1⟩ := p1
    rw [h1] at h
    simp only [Option.some.injEq, Prod.mk.injEq] at h
    obtain ⟨rfl, rfl⟩ := h
    exact ⟨v, rfl, rfl⟩

theorem parseArg_inv {toks rest : List Token} {a : Arg}
    (h : parseArg toks = some (a, rest)) :
    ∃ r1 cv r2, parseName toks = some (a.Name, r1) ∧ literal ":".toList r1 = some (cv, r2) ∧
      parseType r2 = some (a.Type_, rest) := by
  rw [parseArg] at h
  cases h1 : parseName toks with
  | none => rw [h1] at h; cases h
  | some p1 =>
    obtain ⟨name, r1⟩ := p1
    rw [h1] at h
    simp only [] at h
    cases h2 : literal ":".toList r1 with
    | none => rw [h2] at h; cases h
    | some p2 =>
      obtain ⟨cv, r2⟩ := p2
      rw [h2] at h
      simp only [] at h
      cases h3 : parseType r2 with
      | none => rw [h3] at h; cases h
      | some p3 =>
        obtain ⟨t, r3⟩ := p3
        rw [h3] at h
        simp only [Option.some.injEq, Prod.mk.injEq] at h
        obtain ⟨ha, hr⟩ := h
        subst ha hr
        exact ⟨r1, cv, r2, rfl, h2, h3⟩

theorem commaArg_inv {toks rest : List Token} {a : Arg}
    (h : commaArg toks = some (a, rest)) :
    ∃ cv r1, literal ",".toList toks = some (cv, r1) ∧ parseArg r1 = some (a, rest) := by
  rw [commaArg] at h
  cases h1 : literal ",".toList toks with
  | none => rw [h1] at h; cases h
  | some p1 =>
    obtain ⟨cv, r1⟩ := p1
    rw [h1] at h
    exact ⟨cv, r1, rfl, h⟩

theorem parseArgList_inv {toks rest : List Token} {l : List Arg}
    (h : parseArgList toks = some (l, rest)) :
    ∃ a r1 more r2 o, parseArg toks = some (a, r1) ∧
      zeroOrMore commaArg MaxIterations r1 = some (more, r2) ∧
      zeroOrOne (literal ",".toList) r2 = some (o, rest) ∧ l = a :: more := by
  rw [parseArgList] at h
  cases h1 : parseArg toks with
  | none => rw [h1] at h; cases h
  | some p1 =>
    obtain ⟨a, r1⟩ := p1
    rw [h1] at h
    simp only [] at h
    cases h2 : zeroOrMore commaArg MaxIterations r1 with
    | none => rw [h2] at h; cases h
    | some p2 =>
      obtain ⟨more, r2⟩ := p2
      rw [h2] at h
      simp only [] at h
      cases h3 : zeroOrOne (literal ",".toList) r2 with
      | none => rw [h3] at h; cases h
      | some p3 =>
        obtain ⟨o, r3⟩ := p3
        rw [h3] at h
        simp only [Option.some.injEq, Prod.mk.injEq] at h
        obtain ⟨rfl, rfl⟩ := h
        exact ⟨a, r1, more, r2, o, rfl, h2, h3, rfl⟩

theorem parseRet_inv {toks rest : List Token} {r : Ret}
    (h : parseRet toks = some (r, rest)) :
    ∃ hv r1 gv r2, literal "-".toList toks = some (hv, r1) ∧
      literal ">".toList r1 = some (gv, r2) ∧ parseType r2 = some (r.Type_, rest) := by
  rw [parseRet] at h
  cases h1 : literal "-".toList toks with
  | none => rw [h1] at h; cases h
  | some p1 =>
    obtain ⟨hv, r1⟩ := p1
    rw [h1] at h
    simp only [] at h
    cases h2 : literal ">".toList r1 with
    | none => rw [h2] at h; cases h
    | some p2 =>
      obtain ⟨gv, r2⟩ := p2
      rw [h2] at h
      simp only [] at h
      cases h3 : parseType r2 with
      | none => rw [h3] at h; cases h
      | some p3 =>
        obtain ⟨t, r3⟩ := p3
        rw [h3] at h
        simp only [Option.some.injEq, Prod.mk.injEq] at h
        obtain ⟨ha, hr⟩ := h
        subst ha hr
        exact ⟨hv, r1, gv, r2, rfl, h2, h3⟩

theorem parseFuncOpen_inv {toks rest : List Token} {u : Unit}
    (h : parseFuncOpen toks = some (u, rest)) :
    ∃ v1 r1 v2 r2 v3, literal ":".toList toks = some (v1, r1) ∧
      literal "func".toList r1 = some (v2, r2) ∧ literal "(".toList r2 = some (v3, rest) := by
  rw [parseFuncOpen] at h
  cases h1 : literal ":".toList toks with
  | none => rw [h1] at h; cases h
  | some p1 =>
    obtain ⟨v1, r1⟩ := p1
    rw [h1] at h
    simp only [] at h
    cases h2 : literal "func".toList r1 with
    | none => rw [h2] at h; cases h
    | some p2 =>
      obtain ⟨v2, r2⟩ := p2
      rw [h2] at h
      simp only [] at h
      cases h3 : literal "(".toList r2 with
      | none => rw [h3] at h; cases h
      | some p3 =>
        obtain ⟨v3, r3⟩ := p3
        rw [h3] at h
        simp only [Option.some.injEq, Prod.mk.injEq] at h
        obtain ⟨_, rfl⟩ := h
        exact ⟨v1, r1, v2, r2, v3, rfl, h2, h3⟩

theorem parseFunc_inv {toks rest : List Token} {f : Func}
    (h : parseFunc toks = some (f, rest)) :
    ∃ r1 r2 args r3 pv r4, parseName toks = some (f.Name, r1) ∧
      parseFuncOpen r1 = some ((), r2) ∧ zeroOrOne parseArgList r2 = some (args, r3) ∧
      literal ")".toList r3 = some (pv, r4) ∧ zeroOrOne parseRet r4 = some (f.Ret, rest) ∧
      f.Args = args.getD [] := by
  rw [parseFunc] at h
  cases h1 : parseName toks with
  | none => rw [h1] at h; cases h
  | some p1 =>
    obtain ⟨name, r1⟩ := p1
    rw [h1] at h
    simp only [] at h
    cases h2 : parseFuncOpen r1 with
    | none => rw [h2] at h; cases h
    | some p2 =>
      obtain ⟨u, r2⟩ := p2
      rw [h2] at h
      simp only [] at h
      cases h3 : zeroOrOne parseArgList r2 with
      | none => rw [h3] at h; cases h
      | some p3 =>
        obtain ⟨args, r3⟩ := p3
        rw [h3] at h
        simp only [] at h
        cases h4 : literal ")".toList r3 with
        | none => rw [h4] at h; cases h
        | some p4 =>
          obtain ⟨pv, r4⟩ := p4
          rw [h4] at h
          simp only [] at h
          cases h5 : zeroOrOne parseRet r4 with
          | none => rw [h5] at h; cases h
          | some p5 =>
            obtain ⟨ret, r5⟩ := p5
            rw [h5] at h
            simp only [Option.some.injEq, Prod.mk.injEq] at h
            obtain ⟨ha, hr⟩ := h
            subst ha hr
            exact ⟨r1, r2, args, r3, pv, r4, rfl, h2, h3, h4, h5, rfl⟩

theorem parseDecl_inv {toks rest : List Token} {d : Decl}
    (h : parseDecl toks = some (d, rest)) : parseFunc toks = some (d.Func, rest) := by
  rw [parseDecl] at h
  cases h1 : parseFunc toks with
  | none => rw [h1] at h; cases h
  | some p1 =>
    obtain ⟨f, r1⟩ := p1
    rw [h1] at h
    simp only [Option.some.injEq, Prod.mk.injEq] at h
    obtain ⟨ha, hr⟩ := h
    subst ha hr
    rfl

theorem zeroOrOne_inv {α : Type} {p : Parser α} {toks rest : List Token} {o : Option α}
    (h : zeroOrOne p toks = some (o, rest)) :
    (p toks = none ∧ o = none ∧ rest = toks) ∨ ∃ v, p toks = some (v, rest) ∧ o = some v := by
  rw [zeroOrOne] at h
  cases h1 : p toks with
  | none =>
    rw [h1] at h
    simp only [Option.some.injEq, Prod.mk.injEq] at h
    exact Or.inl ⟨rfl, h.1.symm, h.2.symm⟩
  | some p1 =>
    obtain ⟨v, r1⟩ := p1
    rw [h1] at h
    simp only [Option.some.injEq, Prod.mk.injEq] at h
    obtain ⟨rfl, rfl⟩ := h
    exact Or.inr ⟨v, rfl, rfl⟩

theorem zeroOrMore_inv {α : Type} {p : Parser α} {n : Nat} {toks rest : List Token}
    {vs : List α} (h : zeroOrMore p n toks = some (vs, rest)) :
    ∃ m, n = m + 1 ∧ ((p toks = none ∧ vs = [] ∧ rest = toks) ∨
      ∃ v r1 vs1, p toks = some (v, r1) ∧ zeroOrMore p m r1 = some (vs1, rest) ∧
        vs = v :: vs1) := by
  cases n with
  | zero => simp [zeroOrMore] at h
  | succ m =>
    refine ⟨m, rfl, ?_⟩
    rw [zeroOrMore] at h
    cases h1 : p toks with
    | none =>
      rw [h1] at h
      simp only [Option.some.injEq, Prod.mk.injEq] at h
      exact Or.inl ⟨rfl, h.1.symm, h.2.symm⟩
    | some p1 =>
      obtain ⟨v, r1⟩ := p1
      rw [h1] at h
      simp only [] at h
      cases h2 : zeroOrMore p m r1 with
      | none => rw [h2] at h; cases h
      | some p2 =>
        obtain ⟨vs1, r2⟩ := p2
        rw [h2] at h
        simp only [Option.some.injEq, Prod.mk.injEq] at h
        obtain ⟨rfl, rfl⟩ := h
        exact Or.inr ⟨v, r1, vs1, rfl, h2, rfl⟩
/-- A repeated group is sound when each of its matches is. -/
theorem zeroOrMore_sound {α : Type} (p : Parser α) (Q : List Token → α → Prop)
    (hp : ∀ toks v rest, p toks = some (v, rest) → ∃ c, toks = c ++ rest ∧ Q c v)
    (n : Nat) (toks rest : List Token) (vs : List α)
    (h : zeroOrMore p n toks = some (vs, rest)) :
    ∃ c, toks = c ++ rest ∧ Star Q c vs := by
  induction n generalizing toks vs with
  | zero => simp [zeroOrMore] at h
  | succ m ih =>
    obtain ⟨m', hm, hcase⟩ := zeroOrMore_inv h
    have hmm : m' = m := by omega
    subst hmm
    rcases hcase with ⟨_, rfl, rfl⟩ | ⟨v, r1, vs1, h1, h2, rfl⟩
    · exact ⟨[], rfl, Star.nil⟩
    · obtain ⟨c1, hc1, hq⟩ := hp toks v r1 h1
      obtain ⟨c2, hc2, hstar⟩ := ih r1 vs1 h2
      exact ⟨c1 ++ c2, by rw [hc1, hc2, List.append_assoc], Star.cons hq hstar⟩

theorem hyphenIdent_sound (toks : List Token) (v : List Char) (rest : List Token)
    (h : hyphenIdent toks = some (v, rest)) : ∃ c, toks = c ++ rest ∧ GHyphenIdent c v := by
  obtain ⟨hv, r1, iv, h1, h2, rfl⟩ := hyphenIdent_inv h
  obtain ⟨t1, rfl, ht1, rfl⟩ := literal_inv h1
  obtain ⟨t2, rfl, ht2, rfl⟩ := tokenRef_inv h2
  exact ⟨[t1, t2], rfl, t1, t2, rfl, ht1, ht2, rfl⟩

theorem parseName_sound (toks : List Token) (v : List Char) (rest : List Token)
    (h : parseName toks = some (v, rest)) : ∃ c, toks = c ++ rest ∧ GName c v := by
  obtain ⟨v0, r1, vs, h1, h2, rfl⟩ := parseName_inv h
  obtain ⟨t, rfl, ht, rfl⟩ := tokenRef_inv h1
  obtain ⟨c, rfl, hstar⟩ := zeroOrMore_sound hyphenIdent GHyphenIdent hyphenIdent_sound _ _ _ _ h2
  exact ⟨t :: c, rfl, t, c, vs, rfl, ht, hstar, rfl⟩

theorem parseArg_sound (toks : List Token) (a : Arg) (rest : List Token)
    (h : parseArg toks = some (a, rest)) : ∃ c, toks = c ++ rest ∧ GArg c a := by
  obtain ⟨r1, cv, r2, h1, h2, h3⟩ := parseArg_inv h
  obtain ⟨n, rfl, hn⟩ := parseName_sound _ _ _ h1
  obtain ⟨colon, rfl, hcolon, _⟩ := literal_inv h2
  obtain ⟨tv, h4, ht⟩ := parseType_inv h3
  obtain ⟨t, rfl, htt, rfl⟩ := tokenRef_inv h4
  exact ⟨n ++ [colon, t], by simp, n, colon, t, rfl, hn, hcolon, htt, ht⟩

theorem commaArg_sound (toks : List Token) (a : Arg) (rest : List Token)
    (h : commaArg toks = some (a, rest)) : ∃ c, toks = c ++ rest ∧ GCommaArg c a := by
  obtain ⟨cv, r1, h1, h2⟩ := commaArg_inv h
  obtain ⟨comma, rfl, hcomma, _⟩ := literal_inv h1
  obtain ⟨c, rfl, hc⟩ := parseArg_sound _ _ _ h2
  exact ⟨comma :: c, rfl, comma, c, rfl, hcomma, hc⟩

theorem parseArgs_sound (toks : List Token) (o : Option (List Arg)) (rest : List Token)
    (h : zeroOrOne parseArgList toks = some (o, rest)) :
    ∃ c, toks = c ++ rest ∧ GArgs c (o.getD []) := by
  rcases zeroOrOne_inv h with ⟨_, rfl, rfl⟩ | ⟨l, hl, rfl⟩
  · exact ⟨[], rfl, Or.inl ⟨rfl, rfl⟩⟩
  · obtain ⟨a, r1, more, r2, oc, h1, h2, h3, rfl⟩ := parseArgList_inv hl
    obtain ⟨c1, rfl, hc1⟩ := parseArg_sound _ _ _ h1
    obtain ⟨cs, rfl, hcs⟩ := zeroOrMore_sound commaArg GCommaArg commaArg_sound _ _ _ _ h2
    rcases zeroOrOne_inv h3 with ⟨_, _, rfl⟩ | ⟨cv, hcv, _⟩
    · exact ⟨c1 ++ cs, by simp, Or.inr ⟨c1, a, cs, more, [], by simp, hc1, hcs, Or.inl rfl, rfl⟩⟩
    · obtain ⟨t, rfl, ht, _⟩ := literal_inv hcv
      exact ⟨c1 ++ cs ++ [t], by simp,
        Or.inr ⟨c1, a, cs, more, [t], rfl, hc1, hcs, Or.inr ⟨t, rfl, ht⟩, rfl⟩⟩

theorem parseRet_sound (toks : List Token) (o : Option Ret) (rest : List Token)
    (h : zeroOrOne parseRet toks = some (o, rest)) :
    ∃ c, toks = c ++ rest ∧ GRet c o := by
  rcases zeroOrOne_inv h with ⟨_, rfl, rfl⟩ | ⟨r, hr, rfl⟩
  · exact ⟨[], rfl, Or.inl ⟨rfl, rfl⟩⟩
  · obtain ⟨hv, r1, gv, r2, h1, h2, h3⟩ := parseRet_inv hr
    obtain ⟨t1, rfl, ht1, _⟩ := literal_inv h1
    obtain ⟨t2, rfl, ht2, _⟩ := literal_inv h2
    obtain ⟨tv, h4, ht⟩ := parseType_inv h3
    obtain ⟨t3, rfl, ht3, rfl⟩ := tokenRef_inv h4
    refine ⟨[t1, t2, t3], rfl, Or.inr ⟨t1, t2, t3, rfl, ht1, ht2, ht3, ?_⟩⟩
    cases r
    simp only [Ret.mk.injEq] at ht ⊢
    rw [ht]

theorem parseFunc_sound (toks : List Token) (f : Func) (rest : List Token)
    (h : parseFunc toks = some (f, rest)) : ∃ c, toks = c ++ rest ∧ GFunc c f := by
  obtain ⟨r1, r2, args, r3, pv, r4, h1, h2, h3, h4, h5, hargs⟩ := parseFunc_inv h
  obtain ⟨n, rfl, hn⟩ := parseName_sound _ _ _ h1
  obtain ⟨v1, q1, v2, q2, v3, g1, g2, g3⟩ := parseFuncOpen_inv h2
  obtain ⟨colon, rfl, hcolon, _⟩ := literal_inv g1
  obtain ⟨fn, rfl, hfn, _⟩ := literal_inv g2
  obtain ⟨lp, rfl, hlp, _⟩ := literal_inv g3
  obtain ⟨ca, rfl, hca⟩ := parseArgs_sound _ _ _ h3
  obtain ⟨rp, rfl, hrp, _⟩ := literal_inv h4
  obtain ⟨cr, rfl, hcr⟩ := parseRet_sound _ _ _ h5
  refine ⟨n ++ [colon, fn, lp] ++ ca ++ [rp] ++ cr, by simp,
    n, colon, fn, lp, ca, rp, cr, rfl, hn, hcolon, hfn, hlp, ?_, hrp, hcr⟩
  rw [hargs]
  exact hca

theorem parseDecl_sound (toks : List Token) (d : Decl) (rest : List Token)
    (h : parseDecl toks = some (d, rest)) : ∃ c, toks = c ++ rest ∧ GDecl c d :=
  parseFunc_sound toks d.Func rest (parseDecl_inv h)

theorem ParseTokens_inv {toks : List Token} {ast : AST} (h : ParseTokens toks = .ok ast) :
    zeroOrMore parseDecl MaxIterations toks = some (ast.Decls, []) := by
  rw [ParseTokens] at h
  split at h
  · rename_i decls heq
    cases h
    exact heq
  · cases h

/-- Every accepted token sequence is, as a whole, a sequence of declarations of
the grammar and the tree returned is the tree of these declarations. -/
theorem ParseTokens_sound (toks : List Token) (ast : AST) (h : ParseTokens toks = .ok ast) :
    GAST toks ast := by
  obtain ⟨c, hc, hstar⟩ :=
    zeroOrMore_sound parseDecl GDecl parseDecl_sound _ _ _ _ (ParseTokens_inv h)
  rw [List.append_nil] at hc
  rw [GAST, hc]
  exact hstar
/-! ### Appending tokens to an accepted text -/

theorem tokenRef_append {t : TokenType} {toks rest : List Token} {v : List Char}
    (extra : List Token) (h : tokenRef t toks = some (v, rest)) :
    tokenRef t (toks ++ extra) = some (v, rest ++ extra) := by
  obtain ⟨tok, rfl, ht, rfl⟩ := tokenRef_inv h
  simp [tokenRef, ht]

theorem literal_append {s : List Char} {toks rest : List Token} {v : List Char}
    (extra : List Token) (h : literal s toks = some (v, rest)) :
    literal s (toks ++ extra) = some (v, rest ++ extra) := by
  obtain ⟨tok, rfl, ht, rfl⟩ := literal_inv h
  simp [literal, ht]

theorem hyphenIdent_append {toks rest : List Token} {v : List Char} (extra : List Token)
    (h : hyphenIdent toks = some (v, rest)) :
    hyphenIdent (toks ++ extra) = some (v, rest ++ extra) := by
  obtain ⟨hv, r1, iv, h1, h2, rfl⟩ := hyphenIdent_inv h
  rw [hyphenIdent, literal_append extra h1]
  simp only [tokenRef_append extra h2]

theorem parseType_append {toks rest : List Token} {t : Type_} (extra : List Token)
    (h : parseType toks = some (t, rest)) :
    parseType (toks ++ extra) = some (t, rest ++ extra) := by
  obtain ⟨v, h1, rfl⟩ := parseType_inv h
  rw [parseType, tokenRef_append extra h1]

theorem parseFuncOpen_append {toks rest : List Token} {u : Unit} (extra : List Token)
    (h : parseFuncOpen toks = some (u, rest)) :
    parseFuncOpen (toks ++ extra) = some (u, rest ++ extra) := by
  obtain ⟨v1, r1, v2, r2, v3, h1, h2, h3⟩ := parseFuncOpen_inv h
  rw [parseFuncOpen, literal_append extra h1]
  simp only [literal_append extra h2, literal_append extra h3]

theorem parseRet_append {toks rest : List Token} {r : Ret} (extra : List Token)
    (h : parseRet toks = some (r, rest)) :
    parseRet (toks ++ extra) = some (r, rest ++ extra) := by
  obtain ⟨hv, r1, gv, r2, h1, h2, h3⟩ := parseRet_inv h
  rw [parseRet, literal_append extra h1]
  simp only [literal_append extra h2, parseType_append extra h3]

/-- Every value of a repeated group is the value of one match. -/
theorem zeroOrMore_values {α : Type} (p : Parser α) (n : Nat) (toks rest : List Token)
    (vs : List α) (h : zeroOrMore p n toks = some (vs, rest)) :
    ∀ x ∈ vs, ∃ a b, p a = some (x, b) := by
  induction n generalizing toks vs with
  | zero => simp [zeroOrMore] at h
  | succ m ih =>
    obtain ⟨m', hm, hcase⟩ := zeroOrMore_inv h
    have hmm : m' = m := by omega
    subst hmm
    rcases hcase with ⟨_, rfl, _⟩ | ⟨v, r1, vs2, hv, hrec, rfl⟩
    · simp
    · intro x hx
      simp only [List.mem_cons] at hx
      rcases hx with rfl | hx
      · exact ⟨_, _, hv⟩
      · exact ih _ _ hrec x hx

/-- On a longer input a repeated group whose matches are stable repeats at
least the same matches. -/
theorem zeroOrMore_append {α : Type} (p : Parser α)
    (hp : ∀ toks v rest extra, p toks = some (v, rest) →
      p (toks ++ extra) = some (v, rest ++ extra))
    (n : Nat) (toks rest rest1 extra : List Token) (vs vs1 : List α)
    (h : zeroOrMore p n toks = some (vs, rest))
    (h1 : zeroOrMore p n (toks ++ extra) = some (vs1, rest1)) :
    ∃ more, vs1 = vs ++ more ∧ (more = [] → rest1 = rest ++ extra) ∧
      ∀ x ∈ more, ∃ a b, p a = some (x, b) := by
  induction n generalizing toks vs vs1 with
  | zero => simp [zeroOrMore] at h
  | succ m ih =>
    obtain ⟨m', hm, hcase⟩ := zeroOrMore_inv h
    have hmm : m' = m := by omega
    subst hmm
    rcases hcase with ⟨hnone, rfl, rfl⟩ | ⟨v, r1, vs2, hv, hrec, rfl⟩
    · refine ⟨vs1, by simp, ?_, zeroOrMore_values p _ _ _ _ h1⟩
      rintro rfl
      obtain ⟨_, _, hc⟩ := zeroOrMore_inv h1
      rcases hc with ⟨_, _, hr⟩ | ⟨_, _, _, _, _, hcons⟩
      · exact hr
      · cases hcons
    · have hv1 := hp toks v r1 extra hv
      obtain ⟨k, hk, hc⟩ := zeroOrMore_inv h1
      have hkk : k = m' := by omega
      subst hkk
      rcases hc with ⟨hn, _, _⟩ | ⟨w, r2, ws, hw, hrec2, rfl⟩
      · rw [hv1] at hn; cases hn
      · rw [hv1] at hw
        simp only [Option.some.injEq, Prod.mk.injEq] at hw
        obtain ⟨rfl, rfl⟩ := hw
        obtain ⟨more, rfl, hrest, hmem⟩ := ih r1 vs2 ws hrec hrec2
        exact ⟨more, by simp, hrest, hmem⟩

/-- On a longer input a repeated group that yields the same values stops at
the same place, when this holds of each match. -/
theorem zeroOrMore_stable {α : Type} (p : Parser α)
    (hp : ∀ toks v rest rest1 extra, p toks = some (v, rest) →
      p (toks ++ extra) = some (v, rest1) → rest1 = rest ++ extra)
    (n : Nat) (toks rest rest1 extra : List Token) (vs : List α)
    (h : zeroOrMore p n toks = some (vs, rest))
    (h1 : zeroOrMore p n (toks ++ extra) = some (vs, rest1)) :
    rest1 = rest ++ extra := by
  induction n generalizing toks vs with
  | zero => simp [zeroOrMore] at h
  | succ m ih =>
    obtain ⟨m', hm, hcase⟩ := zeroOrMore_inv h
    have hmm : m' = m := by omega
    subst hmm
    obtain ⟨k, hk, hc⟩ := zeroOrMore_inv h1
    have hkk : k = m' := by omega
    subst hkk
    rcases hcase with ⟨hnone, rfl, rfl⟩ | ⟨v, r1, vs2, hv, hrec, rfl⟩
    · rcases hc with ⟨_, _, hr⟩ | ⟨_, _, _, _, _, hcons⟩
      · exact hr
      · cases hcons
    · rcases hc with ⟨_, hnil, _⟩ | ⟨w, r2, ws, hw, hrec2, hcons⟩
      · cases hnil
      · simp only [List.cons.injEq] at hcons
        obtain ⟨rfl, rfl⟩ := hcons
        have hr2 := hp toks v r1 r2 extra hv hw
        subst hr2
        exact ih r1 vs2 hrec hrec2

theorem hyphenIdent_value_ne_nil {toks rest : List Token} {v : List Char}
    (h : hyphenIdent toks = some (v, rest)) : v ≠ [] := by
  obtain ⟨hv, r1, iv, h1, h2, rfl⟩ := hyphenIdent_inv h
  obtain ⟨t, _, ht, rfl⟩ := literal_inv h1
  rw [ht]
  simp

theorem parseName_stable (toks : List Token) (v : List Char) (rest rest1 extra : List Token)
    (h : parseName toks = some (v, rest)) (h1 : parseName (toks ++ extra) = some (v, rest1)) :
    rest1 = rest ++ extra := by
  obtain ⟨v0, r1, vs, g1, g2, rfl⟩ := parseName_inv h
  obtain ⟨w0, q1, ws, k1, k2, hv⟩ := parseName_inv h1
  rw [tokenRef_append extra g1] at k1
  simp only [Option.some.injEq, Prod.mk.injEq] at k1
  obtain ⟨rfl, rfl⟩ := k1
  obtain ⟨more, rfl, hrest, hmem⟩ := zeroOrMore_append hyphenIdent
    (fun _ _ _ extra h => hyphenIdent_append extra h) _ _ _ _ _ _ _ g2 k2
  apply hrest
  simp only [List.flatten_append, List.append_cancel_left_eq, List.self_eq_append_right,
    List.flatten_eq_nil_iff] at hv
  cases more with
  | nil => rfl
  | cons x xs =>
    obtain ⟨a, b, hab⟩ := hmem x (by simp)
    exact absurd (hv x (by simp)) (hyphenIdent_value_ne_nil hab)

theorem parseArg_stable (toks : List Token) (a : Arg) (rest rest1 extra : List Token)
    (h : parseArg toks = some (a, rest)) (h1 : parseArg (toks ++ extra) = some (a, rest1)) :
    rest1 = rest ++ extra := by
  obtain ⟨r1, cv, r2, g1, g2, g3⟩ := parseArg_inv h
  obtain ⟨q1, cw, q2, k1, k2, k3⟩ := parseArg_inv h1
  have e1 := parseName_stable _ _ _ _ _ g1 k1
  subst e1
  rw [literal_append extra g2] at k2
  simp only [Option.some.injEq, Prod.mk.injEq] at k2
  obtain ⟨_, rfl⟩ := k2
  rw [parseType_append extra g3] at k3
  simp only [Option.some.injEq, Prod.mk.injEq] at k3
  exact k3.2.symm

theorem commaArg_stable (toks : List Token) (a : Arg) (rest rest1 extra : List Token)
    (h : commaArg toks = some (a, rest)) (h1 : commaArg (toks ++ extra) = some (a, rest1)) :
    rest1 = rest ++ extra := by
  obtain ⟨cv, r1, g1, g2⟩ := commaArg_inv h
  obtain ⟨cw, q1, k1, k2⟩ := commaArg_inv h1
  rw [literal_append extra g1] at k1
  simp only [Option.some.injEq, Prod.mk.injEq] at k1
  obtain ⟨_, rfl⟩ := k1
  exact parseArg_stable _ _ _ _ _ g2 k2
theorem parseArgList_ne_nil {toks rest : List Token} {l : List Arg}
    (h : parseArgList toks = some (l, rest)) : l ≠ [] := by
  obtain ⟨a, r1, more, r2, o, _, _, _, rfl⟩ := parseArgList_inv h
  simp

/-- The argument list and the closing parenthesis: with the same arguments
parsed, the longer input is left after the same parenthesis. -/
theorem parseArgs_stable (toks : List Token) (o o1 : Option (List Arg))
    (r3 q3 r4 q4 extra : List Token) (pv pw : List Char)
    (h : zeroOrOne parseArgList toks = some (o, r3))
    (hp : literal ")".toList r3 = some (pv, r4))
    (h1 : zeroOrOne parseArgList (toks ++ extra) = some (o1, q3))
    (hp1 : literal ")".toList q3 = some (pw, q4))
    (ho : o.getD [] = o1.getD []) : q4 = r4 ++ extra := by
  have hq3 : q3 = r3 ++ extra := by
    rcases zeroOrOne_inv h with ⟨hnone, rfl, rfl⟩ | ⟨l, hl, rfl⟩
    · rcases zeroOrOne_inv h1 with ⟨_, _, hq⟩ | ⟨l1, hl1, rfl⟩
      · exact hq
      · exact absurd ho.symm (parseArgList_ne_nil hl1)
    · rcases zeroOrOne_inv h1 with ⟨_, rfl, _⟩ | ⟨l1, hl1, rfl⟩
      · exact absurd ho (parseArgList_ne_nil hl)
      · simp only [Option.getD_some] at ho
        subst ho
        obtain ⟨a, r1, more, r2, oc, g1, g2, g3, hl⟩ := parseArgList_inv hl
        obtain ⟨b, s1, more1, s2, oc1, k1, k2, k3, hl1⟩ := parseArgList_inv hl1
        rw [hl] at hl1
        simp only [List.cons.injEq] at hl1
        obtain ⟨rfl, rfl⟩ := hl1
        have e1 := parseArg_stable _ _ _ _ _ g1 k1
        subst e1
        have e2 := zeroOrMore_stable commaArg commaArg_stable _ _ _ _ _ _ g2 k2
        subst e2
        cases r2 with
        | nil =>
          rcases zeroOrOne_inv g3 with ⟨_, _, hr⟩ | ⟨cv, hcv, _⟩
          · subst hr
            simp [literal] at hp
          · simp [literal] at hcv
        | cons tok ts =>
          rcases zeroOrOne_inv g3 with ⟨hn, _, hr⟩ | ⟨cv, hcv, _⟩
          · subst hr
            rcases zeroOrOne_inv k3 with ⟨_, _, hq⟩ | ⟨cw, hcw, _⟩
            · exact hq
            · obtain ⟨t, ht, htv, _⟩ := literal_inv hcw
              simp only [List.cons_append, List.cons.injEq] at ht
              obtain ⟨rfl, _⟩ := ht
              have hlit : literal ",".toList (tok :: ts) = some (tok.Value, ts) := by
                simp [literal, htv]
              rw [hlit] at hn
              cases hn
          · have hcv1 := literal_append extra hcv
            rcases zeroOrOne_inv k3 with ⟨hn, _, _⟩ | ⟨cw, hcw, _⟩
            · rw [hcv1] at hn; cases hn
            · rw [hcv1] at hcw
              simp only [Option.some.injEq, Prod.mk.injEq] at hcw
              exact hcw.2.symm
  subst hq3
  rw [literal_append extra hp] at hp1
  simp only [Option.some.injEq, Prod.mk.injEq] at hp1
  exact hp1.2.symm

theorem parseRetOpt_stable (toks : List Token) (o : Option Ret) (rest rest1 extra : List Token)
    (h : zeroOrOne parseRet toks = some (o, rest))
    (h1 : zeroOrOne parseRet (toks ++ extra) = some (o, rest1)) : rest1 = rest ++ extra := by
  rcases zeroOrOne_inv h with ⟨_, rfl, rfl⟩ | ⟨r, hr, rfl⟩
  · rcases zeroOrOne_inv h1 with ⟨_, _, hq⟩ | ⟨_, _, hcontra⟩
    · exact hq
    · cases hcontra
  · rcases zeroOrOne_inv h1 with ⟨_, hcontra, _⟩ | ⟨r1, hr1, hsome⟩
    · cases hcontra
    · rw [parseRet_append extra hr] at hr1
      simp only [Option.some.injEq, Prod.mk.injEq] at hr1
      exact hr1.2.symm

theorem parseFunc_stable (toks : List Token) (f : Func) (rest rest1 extra : List Token)
    (h : parseFunc toks = some (f, rest)) (h1 : parseFunc (toks ++ extra) = some (f, rest1)) :
    rest1 = rest ++ extra := by
  obtain ⟨r1, r2, args, r3, pv, r4, g1, g2, g3, g4, g5, gargs⟩ := parseFunc_inv h
  obtain ⟨q1, q2, args1, q3, pw, q4, k1, k2, k3, k4, k5, kargs⟩ := parseFunc_inv h1
  have e1 := parseName_stable _ _ _ _ _ g1 k1
  subst e1
  rw [parseFuncOpen_append extra g2] at k2
  simp only [Option.some.injEq, Prod.mk.injEq, true_and] at k2
  subst k2
  have e4 := parseArgs_stable _ _ _ _ _ _ _ _ _ _ g3 g4 k3 k4 (by rw [← gargs, ← kargs])
  subst e4
  exact parseRetOpt_stable _ _ _ _ _ g5 k5

theorem parseDecl_stable (toks : List Token) (d : Decl) (rest rest1 extra : List Token)
    (h : parseDecl toks = some (d, rest)) (h1 : parseDecl (toks ++ extra) = some (d, rest1)) :
    rest1 = rest ++ extra :=
  parseFunc_stable toks d.Func rest rest1 extra (parseDecl_inv h) (parseDecl_inv h1)

/-- Tokens appended to an accepted text never leave the parser returning the
tree of that text. -/
theorem ParseTokens_append_ne (toks extra : List Token) (ast : AST)
    (h : ParseTokens toks = .ok ast) (hextra : extra ≠ []) :
    ParseTokens (toks ++ extra) ≠ .ok ast := by
  intro h1
  have e := zeroOrMore_stable parseDecl parseDecl_stable _ _ _ _ _ _
    (ParseTokens_inv h) (ParseTokens_inv h1)
  exact hextra (by simpa using e.symm)

theorem ParseTokens_error_or_ok (toks : List Token) :
    ParseTokens toks = .error .unexpectedToken ∨ ∃ ast, ParseTokens toks = .ok ast := by
  rw [ParseTokens]
  split
  · exact Or.inr ⟨_, rfl⟩
  · exact Or.inl rfl

/-- A declaration of the grammar ends with the closing parenthesis or with the
identifier of the return type. -/
theorem GFunc_getLast {c : List Token} {f : Func} (h : GFunc c f) :
    ∃ last, c.getLast? = some last ∧ (last.Type_ = .Ident ∨ last.Value = ")".toList) := by
  obtain ⟨n, colon, fn, lp, ca, rp, cr, rfl, -, -, -, -, -, hrp, hret⟩ := h
  rcases hret with ⟨rfl, -⟩ | ⟨hy, g, t, rfl, -, -, ht, -⟩
  · exact ⟨rp, by rw [List.append_nil, List.getLast?_append]; rfl, Or.inr hrp⟩
  · exact ⟨t, by rw [List.getLast?_append]; rfl, Or.inl ht⟩

/-- A non-empty sequence of declarations of the grammar ends with the closing
parenthesis or with the identifier of a return type. -/
theorem Star_GDecl_getLast {toks : List Token} {ds : List Decl} (h : Star GDecl toks ds)
    (hne : toks ≠ []) :
    ∃ last, toks.getLast? = some last ∧ (last.Type_ = .Ident ∨ last.Value = ")".toList) := by
  induction h with
  | nil => exact absurd rfl hne
  | @cons c cs v vs hq _ ih =>
    by_cases hcs : cs = []
    · subst hcs
      rw [List.append_nil]
      exact GFunc_getLast hq
    · obtain ⟨last, hl, hprop⟩ := ih hcs
      refine ⟨last, ?_, hprop⟩
      rw [List.getLast?_append, hl]
      rfl

/-- No sequence of declarations of the grammar starts with a token that is
not an identifier. -/
theorem not_GAST_of_head {t : Token} {rest : List Token} (ht : t.Type_ ≠ .Ident) :
    ¬ ∃ ast, GAST (t :: rest) ast := by
  rintro ⟨ast, h⟩
  rw [GAST] at h
  generalize hx : t :: rest = x at h
  generalize ast.Decls = ds at h
  cases h with
  | nil => cases hx
  | cons hq _ =>
    obtain ⟨n, colon, fn, lp, ca, rp, cr, rfl, ⟨t1, r1, vs, rfl, hty, -⟩, -⟩ := hq
    simp only [List.cons_append, List.cons.injEq] at hx
    obtain ⟨rfl, -⟩ := hx
    exact ht hty

set_option maxRecDepth 100000 in
set_option maxHeartbeats 4000000 in
/-- C8, counterexample: `f: func()` parses, and the tokens of `-> u8`, which
are not a sequence of complete declarations, appended to it do not make the
parse fail: `f: func() -> u8` parses, to the tree of `f` with a return type. -/
theorem append_arrow_accepted :
    ParseTokens (FuncSyntax.tokens false ⟨⟨"f".toList, []⟩, [], none⟩) =
      .ok ⟨[⟨⟨"f".toList, [], none⟩⟩]⟩ ∧
    (¬ ∃ more, GAST (retTokens (some "u8".toList)) more) ∧
    ParseTokens (FuncSyntax.tokens false ⟨⟨"f".toList, []⟩, [], none⟩ ++
        retTokens (some "u8".toList)) =
      .ok ⟨[⟨⟨"f".toList, [], some ⟨⟨"u8".toList⟩⟩⟩⟩]⟩ ∧
    (∀ T : UnicodeTables,
      Lex T "f: func()".toList =
        .ok (FuncSyntax.tokens false ⟨⟨"f".toList, []⟩, [], none⟩) ∧
      Lex T "-> u8".toList = .ok (retTokens (some "u8".toList)) ∧
      Parse T "f: func()".toList = .ok ⟨[⟨⟨"f".toList, [], none⟩⟩]⟩ ∧
      Parse T "f: func() -> u8".toList =
        .ok ⟨[⟨⟨"f".toList, [], some ⟨⟨"u8".toList⟩⟩⟩⟩]⟩) := by
  refine ⟨by decide, ?_, by decide, fun T => ⟨rfl, rfl, rfl, rfl⟩⟩
  exact not_GAST_of_head (by decide)

/-- C8, amended: the parser either fails with a syntax error or returns a tree
whose declarations are, one after the other, all the tokens of the input, for
token sequences and for texts alike.  When it accepts a token sequence and
further tokens are appended, it never returns the tree of the accepted
sequence: it fails unless the extended sequence is as a whole a sequence of
complete declarations, and a tree it returns covers the appended tokens too;
it fails in particular when the last appended token is neither an identifier
nor `)`. -/
theorem no_partial_parse (T : UnicodeTables) (src : List Char) (toks : List Token) :
    (ParseTokens toks = .error .unexpectedToken ∨
      ∃ ast, ParseTokens toks = .ok ast ∧ GAST toks ast ∧
        ∀ extra, extra ≠ [] → ParseTokens (toks ++ extra) ≠ .ok ast ∧
          (∀ ast1, ParseTokens (toks ++ extra) = .ok ast1 → GAST (toks ++ extra) ast1) ∧
          ((¬ ∃ ast1, GAST (toks ++ extra) ast1) →
            ParseTokens (toks ++ extra) = .error .unexpectedToken) ∧
          (∀ last, extra.getLast? = some last → last.Type_ ≠ .Ident →
            last.Value ≠ ")".toList →
            ParseTokens (toks ++ extra) = .error .unexpectedToken)) ∧
    ((∃ e, Parse T src = .error e) ∨
      ∃ tk ast, Lex T src = .ok tk ∧ Parse T src = .ok ast ∧ GAST tk ast) := by
  have hfail : ∀ l : List Token, (¬ ∃ ast1, GAST l ast1) →
      ParseTokens l = .error .unexpectedToken := fun l hno => by
    rcases ParseTokens_error_or_ok l with h | ⟨ast1, h⟩
    · exact h
    · exact absurd ⟨ast1, ParseTokens_sound l ast1 h⟩ hno
  constructor
  · rcases ParseTokens_error_or_ok toks with h | ⟨ast, h⟩
    · exact Or.inl h
    · refine Or.inr ⟨ast, h, ParseTokens_sound toks ast h, fun extra hextra =>
        ⟨ParseTokens_append_ne toks extra ast h hextra,
          fun ast1 h1 => ParseTokens_sound _ ast1 h1, hfail _, ?_⟩⟩
      intro last hlast hty hval
      apply hfail
      rintro ⟨ast1, hg⟩
      obtain ⟨l, hl, hprop⟩ := Star_GDecl_getLast hg (by simp [hextra])
      rw [List.getLast?_append, hlast] at hl
      have hl2 : some last = some l := hl
      cases hl2
      rcases hprop with h1 | h1
      · exact hty h1
      · exact hval h1
  · cases hlex : Lex T src with
    | error e => exact Or.inl ⟨.scan e, by rw [Parse, hlex]⟩
    | ok tk =>
      have hP : Parse T src = ParseTokens tk := by rw [Parse, hlex]
      rcases ParseTokens_error_or_ok tk with h | ⟨ast, h⟩
      · exact Or.inl ⟨_, by rw [hP, h]⟩
      · exact Or.inr ⟨tk, ast, rfl, by rw [hP, h], ParseTokens_sound tk ast h⟩

/-! ## The fuel of the scanner and of `filepath.Clean` is sufficient -/

theorem scanLineComment_length (s r : List Char) (h : scanLineComment s = .ok r) :
    r.length ≤ s.length := by
  induction s with
  | nil => simp [scanLineComment] at h; simp [← h]
  | cons c cs ih =>
    rw [scanLineComment] at h
    split_ifs at h with h1 h2
    · cases h; simp
    · have := ih h
      simp only [List.length_cons]
      omega

theorem scanLineComment_fuel (s : List Char) : scanLineComment s ≠ .error .fuel := by
  induction s with
  | nil => simp [scanLineComment]
  | cons c cs ih =>
    rw [scanLineComment]
    split_ifs <;> simp [ih]

theorem scanBlockComment_length (s r : List Char) (h : scanBlockComment s = .ok r) :
    r.length ≤ s.length := by
  induction s with
  | nil => simp [scanBlockComment] at h
  | cons c cs ih =>
    cases cs with
    | nil =>
      rw [scanBlockComment] at h
      split_ifs at h
    | cons c1 cs1 =>
      rw [scanBlockComment] at h
      split_ifs at h with h1 h2
      · cases h
        simp only [List.length_cons]; omega
      · have := ih h
        simp only [List.length_cons] at this ⊢
        omega

theorem scanBlockComment_fuel (s : List Char) : scanBlockComment s ≠ .error .fuel := by
  induction s with
  | nil => simp [scanBlockComment]
  | cons c cs ih =>
    cases cs with
    | nil =>
      rw [scanBlockComment]
      split_ifs <;> simp
    | cons c1 cs1 =>
      rw [scanBlockComment]
      split_ifs
      · simp
      · simp
      · exact ih

theorem length_dropWhile_le {α : Type} (p : α → Bool) (l : List α) :
    (l.dropWhile p).length ≤ l.length := by
  induction l with
  | nil => simp
  | cons a l ih =>
    rw [List.dropWhile_cons]
    split_ifs
    · simp only [List.length_cons]; omega
    · exact le_refl _

/-- With more fuel than characters the scanner never runs out of fuel. -/
theorem scanAll_fuel (T : UnicodeTables) (fuel : Nat) (src : List Char)
    (h : src.length < fuel) : scanAll T fuel src ≠ .error .fuel := by
  induction fuel generalizing src with
  | zero => omega
  | succ n ih =>
    cases src with
    | nil => simp [scanAll]
    | cons ch rest =>
      simp only [List.length_cons] at h
      have hrest : rest.length < n := by omega
      rw [scanAll]
      split_ifs with h1 h2 h3 h4 h5 h6 h7 h8
      · exact ih rest hrest
      · have hd := ih (rest.dropWhile (fun c => isIdentRune T c 1))
          (lt_of_le_of_lt (length_dropWhile_le _ _) hrest)
        cases hs : scanAll T n (rest.dropWhile (fun c => isIdentRune T c 1)) with
        | error e =>
          rw [hs] at hd
          simp only [ne_eq, Except.error.injEq] at hd ⊢
          exact hd
        | ok toks => simp
      · simp
      · simp
      · simp
      · simp
      · cases hc : scanLineComment rest.tail with
        | error e =>
          have := scanLineComment_fuel rest.tail
          rw [hc] at this
          simpa using this
        | ok r =>
          simp only []
          apply ih
          have := scanLineComment_length _ _ hc
          have : rest.tail.length ≤ rest.length := by simp
          omega
      · cases hc : scanBlockComment rest.tail with
        | error e =>
          have := scanBlockComment_fuel rest.tail
          rw [hc] at this
          simpa using this
        | ok r =>
          simp only []
          apply ih
          have := scanBlockComment_length _ _ hc
          have : rest.tail.length ≤ rest.length := by simp
          omega
      · have hd := ih rest hrest
        cases hs : scanAll T n rest with
        | error e =>
          rw [hs] at hd
          simp only [ne_eq, Except.error.injEq] at hd ⊢
          exact hd
        | ok toks => simp

/-- The scanner's fuel is sufficient: `Lex` never fails for lack of it. -/
theorem Lex_fuel (T : UnicodeTables) (src : List Char) : Lex T src ≠ .error .fuel := by
  cases src with
  | nil => simp [Lex]
  | cons c rest =>
    rw [Lex]
    split_ifs
    · exact scanAll_fuel T _ _ (by omega)
    · exact scanAll_fuel T _ _ (by omega)

/-- With more fuel than unread characters the loop of `filepath.Clean` does not
depend on the fuel. -/
theorem cleanLoop_fuel (rooted : Bool) (n : Nat) :
    ∀ (input : List Char), input.length ≤ n → ∀ (f1 f2 : Nat), input.length < f1 →
      input.length < f2 → ∀ (out : List Char) (dotdot : Nat),
      cleanLoop rooted f1 input out dotdot = cleanLoop rooted f2 input out dotdot := by
  induction n with
  | zero =>
    intro input hn f1 f2 h1 h2 out dotdot
    have : input = [] := List.length_eq_zero.mp (by omega)
    subst this
    obtain ⟨a, rfl⟩ : ∃ a, f1 = a + 1 := ⟨f1 - 1, by omega⟩
    obtain ⟨b, rfl⟩ : ∃ b, f2 = b + 1 := ⟨f2 - 1, by omega⟩
    simp [cleanLoop]
  | succ n ih =>
    intro input hn f1 f2 h1 h2 out dotdot
    obtain ⟨a, rfl⟩ : ∃ a, f1 = a + 1 := ⟨f1 - 1, by omega⟩
    obtain ⟨b, rfl⟩ : ∃ b, f2 = b + 1 := ⟨f2 - 1, by omega⟩
    cases input with
    | nil => simp [cleanLoop]
    | cons c rest =>
      simp only [List.length_cons] at hn h1 h2
      have hrest : rest.length ≤ n := by omega
      have htail : rest.tail.length ≤ rest.length := by simp
      rw [cleanLoop, cleanLoop]
      have hdw : isPathSeparator c = false →
          ((c :: rest).dropWhile (fun x => !isPathSeparator x)).length ≤ rest.length := by
        intro hc
        rw [List.dropWhile_cons]
        simp only [hc, Bool.not_false, if_true]
        exact length_dropWhile_le _ _
      split_ifs with c1
      all_goals first
        | exact ih rest hrest a b (by omega) (by omega) _ _
        | exact ih rest.tail (by omega) a b (by omega) (by omega) _ _
        | exact ih _ (by have := hdw (by simpa using c1); omega) a b
            (by have := hdw (by simpa using c1); omega)
            (by have := hdw (by simpa using c1); omega) _ _

/-! ## C11, C15, C16: the two casings on identifiers -/

theorem Split_append_sep (sep : Char) (a b : List Char) (h : sep ∉ a) :
    Split (a ++ sep :: b) sep = a :: Split b sep := by
  induction a with
  | nil => simp [Split_cons]
  | cons c a ih =>
    simp only [List.mem_cons, not_or] at h
    rw [List.cons_append, Split_cons, if_neg (fun e => h.1 e.symm), ih h.2]
    rfl

/-- Splitting what `strings.Join` made of separator-free parts gives the parts back. -/
theorem Split_Join (sep : Char) (ps : List (List Char)) (hne : ps ≠ [])
    (h : ∀ p ∈ ps, sep ∉ p) : Split (Join ps [sep]) sep = ps := by
  induction ps with
  | nil => exact absurd rfl hne
  | cons p rest ih =>
    cases rest with
    | nil => simp only [Join]; exact Split_of_not_mem sep p (h p (by simp))
    | cons q rest =>
      rw [Join, List.append_assoc, List.singleton_append,
        Split_append_sep sep p _ (h p (by simp)),
        ih (by simp) (fun x hx => h x (by simp [hx]))]

theorem hyphen_not_mem_of_isIdent (T : UnicodeTables) (p : List Char)
    (h : isIdent T p = true) : '-' ∉ p := by
  intro hmem
  have := not_separator_of_isIdent T p h '-' hmem
  rw [isSeparator_hyphen] at this
  cases this

theorem Title_eq_capitalize (T : UnicodeTables) (p : List Char) (h : isIdent T p = true) :
    Title T p = capitalize T p := by
  cases p with
  | nil => simp [isIdent] at h
  | cons c cs => rw [Title_of_isIdent T c cs h, capitalize]

theorem map_Title_eq (T : UnicodeTables) (ps : List (List Char))
    (h : ∀ p ∈ ps, isIdent T p = true) : ps.map (Title T) = ps.map (capitalize T) := by
  induction ps with
  | nil => rfl
  | cons p ps ih =>
    simp only [List.map_cons, Title_eq_capitalize T p (h p (by simp)),
      ih (fun x hx => h x (by simp [hx]))]

/-- `Public` on the identifier with the segments `ps`. -/
theorem Public_Join (T : UnicodeTables) (ps : List (List Char)) (hne : ps ≠ [])
    (h : ∀ p ∈ ps, isIdent T p = true) :
    Public T (Join ps ['-']) = (ps.map (capitalize T)).flatten := by
  rw [Public, Split_Join '-' ps hne (fun p hp => hyphen_not_mem_of_isIdent T p (h p hp)),
    Join_nil, map_Title_eq T ps h]

/-- `Private` on the identifier with the segments `p0`, `ps`. -/
theorem Private_Join (T : UnicodeTables) (p0 : List Char) (ps : List (List Char))
    (h : ∀ p ∈ p0 :: ps, isIdent T p = true) :
    Private T (Join (p0 :: ps) ['-']) =
      p0.map (unicodeToLower T) ++ (ps.map (capitalize T)).flatten := by
  rw [Private, Split_Join '-' (p0 :: ps) (by simp)
    (fun p hp => hyphen_not_mem_of_isIdent T p (h p hp)), Join_nil, privateParts]
  simp only [Nat.lt_irrefl, if_false, gt_iff_lt]
  rw [privateParts_pos T (0 + 1) (by omega),
    map_Title_eq T ps (fun p hp => h p (by simp [hp]))]
  simp [ToLower]

theorem length_capitalize (T : UnicodeTables) (p : List Char) :
    (capitalize T p).length = p.length := by
  cases p <;> simp [capitalize]

/-- C11: on an identifier of one segment `Private` returns the segment with
every character lower-cased, and `Public` the segment with its first character
title-cased (upper-cased, for an ASCII letter) and the others unchanged. -/
theorem single_segment (T : UnicodeTables) (s : List Char) (h : isIdent T s = true) :
    Private T s = s.map (unicodeToLower T) ∧
    Public T s = capitalize T s ∧
    ∀ c cs, s = c :: cs → Public T s = unicodeToTitle T c :: cs ∧
      (isASCIILower c = true → (Public T s).head? = some (Char.ofNat (c.toNat - 32))) := by
  have hpriv := Private_Join T s [] (by simpa using h)
  have hpub := Public_Join T [s] (by simp) (by simpa using h)
  simp only [Join, List.map_nil, List.flatten_nil, List.append_nil, List.map_cons,
    List.flatten_cons] at hpriv hpub
  refine ⟨hpriv, hpub, ?_⟩
  rintro c cs rfl
  rw [hpub, capitalize]
  refine ⟨rfl, fun hl => ?_⟩
  have ha : isASCII c = true := by
    simp only [isASCIILower, Bool.and_eq_true, decide_eq_true_eq] at hl
    simp only [isASCII, decide_eq_true_eq]
    have : 'z'.toNat = 122 := rfl
    omega
  simp [unicodeToTitle, ha, hl]

/-- C11 witness: `timeout` is an identifier of one segment. -/
theorem single_segment_witness :
    Private asciiTables "Timeout".toList = "timeout".toList ∧
    Public asciiTables "timeout".toList = "Timeout".toList :=
  ⟨(single_segment asciiTables "Timeout".toList (by decide)).1.trans (by decide),
    (single_segment asciiTables "timeout".toList (by decide)).2.1.trans (by decide)⟩

set_option maxRecDepth 100000 in
set_option maxHeartbeats 4000000 in
/-- C15: for the identifier with the segments `ps`, each an identifier, `Public`
returns the segments concatenated without separator, each with its first
character title-cased (upper-cased, for an ASCII letter) and the others
unchanged; `send-receive-skip-search` maps to `SendReceiveSkipSearch`. -/
theorem Public_segments (T : UnicodeTables) (ps : List (List Char)) (hne : ps ≠ [])
    (h : ∀ p ∈ ps, isIdent T p = true) :
    Public T (Join ps ['-']) = (ps.map (capitalize T)).flatten ∧
    Public T "send-receive-skip-search".toList = "SendReceiveSkipSearch".toList :=
  ⟨Public_Join T ps hne h, rfl⟩

set_option maxRecDepth 100000 in
/-- C15 witness: the segments `send`, `receive`, `skip`, `search`. -/
theorem Public_segments_witness :
    Public asciiTables (Join ["send".toList, "receive".toList, "skip".toList, "search".toList]
        ['-']) =
      "SendReceiveSkipSearch".toList :=
  (Public_segments asciiTables
    ["send".toList, "receive".toList, "skip".toList, "search".toList] (by decide)
    (by decide)).1.trans (by decide)

set_option maxRecDepth 100000 in
set_option maxHeartbeats 4000000 in
/-- C16: for the identifier with the segments `p0`, `ps`, `Private` returns `p0`
lower-cased in full followed by what `Public` produces for `ps`, so `Private`
and `Public` have the same length and agree after the first `len(p0)`
characters; `process-id` maps to `processId`. -/
theorem Private_segments (T : UnicodeTables) (p0 : List Char) (ps : List (List Char))
    (h : ∀ p ∈ p0 :: ps, isIdent T p = true) :
    Private T (Join (p0 :: ps) ['-']) =
      p0.map (unicodeToLower T) ++ (ps.map (capitalize T)).flatten ∧
    (ps ≠ [] → Private T (Join (p0 :: ps) ['-']) =
      p0.map (unicodeToLower T) ++ Public T (Join ps ['-'])) ∧
    (Private T (Join (p0 :: ps) ['-'])).length = (Public T (Join (p0 :: ps) ['-'])).length ∧
    (Private T (Join (p0 :: ps) ['-'])).drop p0.length =
      (Public T (Join (p0 :: ps) ['-'])).drop p0.length ∧
    Private T "process-id".toList = "processId".toList := by
  have hpriv := Private_Join T p0 ps h
  have hpub := Public_Join T (p0 :: ps) (by simp) h
  rw [List.map_cons, List.flatten_cons] at hpub
  refine ⟨hpriv, fun hne => ?_, ?_, ?_, rfl⟩
  · rw [hpriv, Public_Join T ps hne (fun p hp => h p (by simp [hp]))]
  · rw [hpriv, hpub]
    simp [length_capitalize]
  · rw [hpriv, hpub, List.drop_left' (by simp), List.drop_left' (length_capitalize T p0)]

set_option maxRecDepth 100000 in
/-- C16 witness: the segments `process`, `id`. -/
theorem Private_segments_witness :
    Private asciiTables (Join ["process".toList, "id".toList] ['-']) = "processId".toList :=
  (Private_segments asciiTables "process".toList ["id".toList] (by decide)).1.trans (by decide)

/-! ## C17: the table of the type mapper -/

set_option maxRecDepth 100000 in
/-- C17: `Type` maps `uN` to `uintN` and `sN` to `intN` for N in 8, 16, 32, 64,
`float32` to `float32` and `float64` to `float64`, and distinct identifiers of
the vocabulary to distinct target names. -/
theorem TypeFn_table :
    (∀ n ∈ ["8".toList, "16".toList, "32".toList, "64".toList],
      TypeFn ⟨'u' :: n⟩ = .ret ("uint".toList ++ n) ∧
      TypeFn ⟨'s' :: n⟩ = .ret ("int".toList ++ n)) ∧
    TypeFn ⟨"float32".toList⟩ = .ret "float32".toList ∧
    TypeFn ⟨"float64".toList⟩ = .ret "float64".toList ∧
    (∀ a ∈ vocabulary, ∀ b ∈ vocabulary, TypeFn ⟨a⟩ = TypeFn ⟨b⟩ → a = b) := by
  refine ⟨by decide, by decide, by decide, by decide⟩

/-! ## C19, C20: the two derivations from the base name -/

theorem Join_Split_eq_flatMap (s : List Char) (sep : Char) (new : List Char) :
    Join (Split s sep) new = s.flatMap (fun c => if c = sep then new else [c]) := by
  induction s with
  | nil => simp [Split_nil, Join]
  | cons c cs ih =>
    rw [Split_cons]
    cases hS : Split cs sep with
    | nil => exact absurd hS (Split_ne_nil cs sep)
    | cons x xs =>
      rw [hS] at ih
      by_cases h : c = sep
      · rw [if_pos h, Join, List.nil_append, ih]
        simp [h]
      · rw [if_neg h, List.modifyHead_cons, Join_cons, List.cons_append, ← Join_cons, ih]
        simp [h]

theorem getLast_suffix_Join (l : List (List Char)) (h : l ≠ []) (sep : List Char) :
    l.getLast h <:+ Join l sep := by
  induction l with
  | nil => exact absurd rfl h
  | cons a rest ih =>
    cases rest with
    | nil => simp [Join]
    | cons b rest =>
      rw [List.getLast_cons (by simp), Join]
      exact (ih (by simp)).trans (List.suffix_append _ _)

theorem length_Split (s : List Char) (sep : Char) : (Split s sep).length = Count sep s + 1 := by
  induction s with
  | nil => simp [Split_nil, Count]
  | cons c cs ih =>
    rw [Split_cons]
    by_cases h : c = sep
    · simp [h, Count, ih]
    · simp [h, Count, ih, List.length_modifyHead]

/-- C19: the module qualifier is the segments joined with `::`, so the package
name, the last segment, is a suffix of it. -/
theorem module_eq_join (name : List Char) :
    ReplaceAll name '_' "::".toList = Join (Split name '_') "::".toList ∧
    ∃ d, derive name = .ret d ∧ d.module = Join d.pkgParts "::".toList ∧
      d.pkg <:+ d.module := by
  have h1 : ReplaceAll name '_' "::".toList = Join (Split name '_') "::".toList := by
    rw [ReplaceAll_eq_flatMap, Join_Split_eq_flatMap]
  refine ⟨h1, _, derive_eq name, h1, ?_⟩
  simp only [h1]
  exact getLast_suffix_Join _ _ _

set_option maxRecDepth 100000 in
/-- C20: the segment list of every base name is non-empty (it has one segment
more than the name has underscores), so the index of the last segment is in
range and `codegen` never panics; for the empty base name the segments are the
one empty segment, for `___` four empty segments. -/
theorem pkgParts_nonempty (T : UnicodeTables) (dest filename name : List Char) (ast : AST) :
    Split name '_' ≠ [] ∧
    (Split name '_').length = Count '_' name + 1 ∧
    (Split name '_').length - 1 < (Split name '_').length ∧
    (∃ d, derive name = .ret d) ∧
    (∃ g, codegen T dest filename ast = .ret g) ∧
    Split (TrimSuffix (filepathBase ".wit".toList) ".wit".toList) '_' = [[]] ∧
    Split (TrimSuffix (filepathBase "___.wit".toList) ".wit".toList) '_' = [[], [], [], []] := by
  refine ⟨Split_ne_nil name '_', length_Split name '_', ?_, ⟨_, derive_eq name⟩,
    ⟨_, codegen_eq T dest filename ast⟩, by decide, by decide⟩
  rw [length_Split]
  omega

/-! ## C14: a base name without underscore -/

theorem not_mem_takeWhile_reverse (l : List Char) :
    Separator ∉ (l.takeWhile (fun c => !isPathSeparator c)).reverse := by
  intro h
  rw [List.mem_reverse] at h
  have := List.mem_takeWhile_imp h
  simp [isPathSeparator] at this

/-- What `filepath.Base` returns is free of separators or is the separator alone. -/
theorem filepathBase_cases (path : List Char) :
    Separator ∉ filepathBase path ∨ filepathBase path = [Separator] := by
  unfold filepathBase
  by_cases h1 : path = []
  · left; rw [if_pos h1]; decide
  · rw [if_neg h1]
    simp only []
    split_ifs
    · right; rfl
    · left; exact not_mem_takeWhile_reverse _

theorem TrimSuffix_base_cases (b suffix : List Char) (hs : 1 < suffix.length)
    (h : Separator ∉ b ∨ b = [Separator]) :
    Separator ∉ TrimSuffix b suffix ∨ TrimSuffix b suffix = [Separator] := by
  unfold TrimSuffix
  split_ifs with h1
  · rcases h with h | h
    · left
      intro hm
      exact h (List.mem_of_mem_take hm)
    · subst h
      simp only [HasSuffix, List.length_singleton, Bool.and_eq_true, decide_eq_true_eq] at h1
      omega
  · exact h

/-- On one element that is free of separators, or is the separator alone,
`filepath.Join` returns the element. -/
theorem filepathJoin_single (name : List Char)
    (h : Separator ∉ name ∨ name = [Separator]) : filepathJoin [name] = name := by
  rcases h with h | h
  · by_cases h0 : name = []
    · subst h0; rfl
    · by_cases h1 : name = ['.']
      · subst h1; decide
      · by_cases h2 : name = ['.', '.']
        · subst h2; decide
        · have hp : plainSegment name = true := by
            simp only [plainSegment, Bool.and_eq_true, decide_eq_true_eq, List.all_eq_true,
              Bool.not_eq_true', isPathSeparator, decide_eq_false_iff_not]
            exact ⟨⟨⟨h0, h1⟩, h2⟩, fun c hc e => h (e ▸ hc)⟩
          rw [filepathJoin_plain [name] (by simp) (by simpa using hp)]
          rfl
  · subst h; decide

/-- C14: when the base name of the input file has no underscore, the segments
are the name alone, and the path, the module qualifier (nothing is replaced in
it) and the package are all equal to the name. -/
theorem derive_no_underscore (filename name : List Char)
    (hname : TrimSuffix (filepathBase filename) ".wit".toList = name) (h : '_' ∉ name) :
    derive name = .ret ⟨name, [name], name, name⟩ := by
  have hbase : Separator ∉ name ∨ name = [Separator] := by
    rw [← hname]
    exact TrimSuffix_base_cases _ _ (by decide) (filepathBase_cases filename)
  have hS : Split name '_' = [name] := Split_of_not_mem '_' name h
  have hM : ReplaceAll name '_' "::".toList = name := by
    rw [ReplaceAll_eq_flatMap, ← Join_Split_eq_flatMap, hS]
    rfl
  rw [derive_eq]
  simp only [hS, hM, filepathJoin_single name hbase, List.getLast_singleton]

set_option maxRecDepth 100000 in
/-- C14 witness: `wit/timer.wit` has the base name `timer`. -/
theorem derive_no_underscore_witness :
    derive "timer".toList =
      .ret ⟨"timer".toList, ["timer".toList], "timer".toList, "timer".toList⟩ :=
  derive_no_underscore "wit/timer.wit".toList "timer".toList (by decide) (by decide)

/-! ## C12: output order -/

/-- The outer loop over a concatenation is the loop over the first list
followed by the loop over the second. -/
theorem walkDecls_append (T : UnicodeTables) (module : List Char) (d1 d2 : List Decl)
    (w : List Char) :
    walkDecls T module (d1 ++ d2) w =
      match walkDecls T module d1 w with
      | .error e => .error e
      | .ok w1 => walkDecls T module d2 w1 := by
  induction d1 generalizing w with
  | nil => rfl
  | cons d rest ih =>
    rw [List.cons_append, walkDecls, walkDecls]
    cases walkFunc T module d.Func w with
    | error e => rfl
    | ok w1 => exact ih w1

theorem exportLineCount_line (a b : List Char) (h : '\n' ∉ a) :
    exportLineCount (a ++ '\n' :: b) =
      (if isExportLine a = true then 1 else 0) + exportLineCount b := by
  rw [exportLineCount, Split_append_sep '\n' a b h, List.filter_cons]
  split_ifs
  · simp [exportLineCount]
    omega
  · simp [exportLineCount]

theorem typeName_no_newline (t : Type_) (h : t.Ident ∈ vocabulary) : '\n' ∉ typeName t := by
  simp only [vocabulary, List.mem_cons, List.mem_singleton, List.not_mem_nil, or_false] at h
  rcases h with h | h | h | h | h | h | h | h | h | h <;>
    · rw [typeName, TypeFn, h]
      decide

theorem not_mem_Join (c : Char) (l : List (List Char)) (sep : List Char)
    (hl : ∀ x ∈ l, c ∉ x) (hs : c ∉ sep) : c ∉ Join l sep := by
  cases l with
  | nil => simp [Join]
  | cons a rest =>
    rw [Join_cons]
    simp only [List.mem_append, List.mem_flatMap, not_or, not_exists, not_and]
    refine ⟨hl a (by simp), fun x hx => ?_⟩
    exact ⟨hs, hl x (by simp [hx])⟩

/-- The signature line of a stub has no line break when its names have none. -/
theorem funcLine_no_newline (T : UnicodeTables) (f : Func)
    (hv : ∀ t ∈ funcTypes f, t.Ident ∈ vocabulary) (hname : '\n' ∉ Public T f.Name)
    (hargs : ∀ a ∈ f.Args, '\n' ∉ Private T a.Name) :
    '\n' ∉ "func ".toList ++ Public T f.Name ++ "(".toList ++
      Join (f.Args.map (paramText T)) ", ".toList ++ ")".toList ++ retText f.Ret := by
  have hparams : '\n' ∉ Join (f.Args.map (paramText T)) ", ".toList := by
    apply not_mem_Join _ _ _ _ (by decide)
    intro x hx
    simp only [List.mem_map] at hx
    obtain ⟨a, ha, rfl⟩ := hx
    have ht := typeName_no_newline a.Type_ (hv a.Type_ (by
      simp only [funcTypes, List.mem_append, List.mem_map]
      exact Or.inl ⟨a, ha, rfl⟩))
    simp only [paramText, List.mem_append, not_or]
    exact ⟨⟨hargs a ha, by decide⟩, ht⟩
  have hret : '\n' ∉ retText f.Ret := by
    cases hr : f.Ret with
    | none => simp [retText]
    | some r =>
      have ht := typeName_no_newline r.Type_ (hv r.Type_ (by simp [funcTypes, hr]))
      simp only [retText, List.mem_append, not_or]
      exact ⟨by decide, ht⟩
  simp only [List.mem_append, not_or]
  exact ⟨⟨⟨⟨⟨by decide, hname⟩, by decide⟩, hparams⟩, by decide⟩, hret⟩

/-- Each stub block contributes exactly one `//go:export` line. -/
theorem exportLineCount_stub (T : UnicodeTables) (module : List Char) (f : Func)
    (rest : List Char) (hv : ∀ t ∈ funcTypes f, t.Ident ∈ vocabulary)
    (hmod : '\n' ∉ module) (hname : '\n' ∉ Public T f.Name)
    (hargs : ∀ a ∈ f.Args, '\n' ∉ Private T a.Name) :
    exportLineCount (stubText T module f ++ rest) = 1 + exportLineCount rest := by
  have hshape : stubText T module f ++ rest =
      ("//go:wasm-module ".toList ++ module) ++ '\n' ::
        (("//go:export ".toList ++ Public T f.Name) ++ '\n' ::
          (("func ".toList ++ Public T f.Name ++ "(".toList ++
              Join (f.Args.map (paramText T)) ", ".toList ++ ")".toList ++ retText f.Ret) ++
            '\n' :: ([] ++ '\n' :: rest))) := by
    simp [stubText]
  have h1 : '\n' ∉ "//go:wasm-module ".toList ++ module := by
    simp only [List.mem_append, not_or]
    exact ⟨by decide, hmod⟩
  have h2 : '\n' ∉ "//go:export ".toList ++ Public T f.Name := by
    simp only [List.mem_append, not_or]
    exact ⟨by decide, hname⟩
  have e1 : isExportLine ("//go:wasm-module ".toList ++ module) = false := rfl
  have e2 : isExportLine ("//go:export ".toList ++ Public T f.Name) = true := by
    rw [isExportLine, List.isPrefixOf_iff_prefix]
    exact List.prefix_append _ _
  have e3 : isExportLine ("func ".toList ++ Public T f.Name ++ "(".toList ++
      Join (f.Args.map (paramText T)) ", ".toList ++ ")".toList ++ retText f.Ret) = false := rfl
  have e4 : isExportLine [] = false := rfl
  rw [hshape, exportLineCount_line _ _ h1, exportLineCount_line _ _ h2,
    exportLineCount_line _ _ (funcLine_no_newline T f hv hname hargs),
    exportLineCount_line _ _ (by simp), e1, e2, e3, e4]
  simp

theorem exportLineCount_stubs (T : UnicodeTables) (module : List Char) (decls : List Decl)
    (rest : List Char) (hv : ∀ t ∈ astTypes ⟨decls⟩, t.Ident ∈ vocabulary)
    (hmod : '\n' ∉ module)
    (hnames : ∀ d ∈ decls, '\n' ∉ Public T d.Func.Name ∧
      ∀ a ∈ d.Func.Args, '\n' ∉ Private T a.Name) :
    exportLineCount (decls.flatMap (fun d => stubText T module d.Func) ++ rest) =
      decls.length + exportLineCount rest := by
  induction decls with
  | nil => simp
  | cons d ds ih =>
    have hd : ∀ t ∈ funcTypes d.Func, t.Ident ∈ vocabulary := fun t ht =>
      hv t (by simp [astTypes, ht])
    have hds : ∀ t ∈ astTypes ⟨ds⟩, t.Ident ∈ vocabulary := fun t ht => by
      apply hv t
      simp only [astTypes, List.map_cons, List.flatten_cons, List.mem_append] at ht ⊢
      exact Or.inr ht
    rw [List.flatMap_cons, List.append_assoc,
      exportLineCount_stub T module d.Func _ hd hmod (hnames d (by simp)).1
        (hnames d (by simp)).2,
      ih hds (fun x hx => hnames x (by simp [hx]))]
    simp only [List.length_cons]
    omega

set_option maxRecDepth 100000 in
/-- C12: with all types in the vocabulary the rendered file is the header
`package <pkg>` and a blank line, then one stub block per declaration in the
order of the tree, each ending with a blank line, then a final line break; the
blocks written for a concatenation of two lists are the blocks of the first
followed by the blocks of the second; and, no name holding a line break, the
file has as many `//go:export` lines as the tree has declarations. -/
theorem render_order (T : UnicodeTables) (module pkg : List Char) (d1 d2 : List Decl)
    (hv : ∀ t ∈ astTypes ⟨d1 ++ d2⟩, t.Ident ∈ vocabulary)
    (hmod : '\n' ∉ module) (hpkg : '\n' ∉ pkg)
    (hnames : ∀ d ∈ d1 ++ d2, '\n' ∉ Public T d.Func.Name ∧
      ∀ a ∈ d.Func.Args, '\n' ∉ Private T a.Name) :
    ∃ b1 b2 out,
      walkDecls T module d1 [] = .ok b1 ∧ walkDecls T module d2 [] = .ok b2 ∧
      walkDecls T module (d1 ++ d2) [] = .ok (b1 ++ b2) ∧
      b1 = d1.flatMap (fun d => stubText T module d.Func) ∧
      b2 = d2.flatMap (fun d => stubText T module d.Func) ∧
      (∀ d : Decl, ∃ body, stubText T module d.Func = body ++ "\n\n".toList) ∧
      Execute T ⟨module, pkg, ⟨d1 ++ d2⟩⟩ = .ok out ∧
      out = "package ".toList ++ pkg ++ "\n\n".toList ++ (b1 ++ b2) ++ "\n".toList ∧
      exportLineCount out = (d1 ++ d2).length := by
  have hv1 : ∀ t ∈ astTypes ⟨d1⟩, t.Ident ∈ vocabulary := fun t ht => by
    apply hv t
    simp only [astTypes, List.map_append, List.flatten_append, List.mem_append] at ht ⊢
    exact Or.inl ht
  have hv2 : ∀ t ∈ astTypes ⟨d2⟩, t.Ident ∈ vocabulary := fun t ht => by
    apply hv t
    simp only [astTypes, List.map_append, List.flatten_append, List.mem_append] at ht ⊢
    exact Or.inr ht
  have w1 := walkDecls_ok T module d1 hv1 []
  have w2 := walkDecls_ok T module d2 hv2 []
  have w12 := walkDecls_ok T module (d1 ++ d2) hv []
  rw [List.nil_append] at w1 w2 w12
  refine ⟨_, _, _, w1, w2, ?_, rfl, rfl, ?_, Execute_ok T ⟨module, pkg, ⟨d1 ++ d2⟩⟩ hv, ?_, ?_⟩
  · rw [w12, List.flatMap_append]
  · intro d
    refine ⟨"//go:wasm-module ".toList ++ module ++ "\n".toList ++
      "//go:export ".toList ++ Public T d.Func.Name ++ "\n".toList ++
      "func ".toList ++ Public T d.Func.Name ++ "(".toList ++
      Join (d.Func.Args.map (paramText T)) ", ".toList ++ ")".toList ++ retText d.Func.Ret, ?_⟩
    have hnn : "\n\n".toList = "\n".toList ++ "\n".toList := rfl
    rw [stubText, hnn]
    simp only [List.append_assoc]
  · simp only [List.flatMap_append]
  · have hshape : "package ".toList ++ pkg ++ "\n\n".toList ++
        (d1 ++ d2).flatMap (fun d => stubText T module d.Func) ++ "\n".toList =
        ("package ".toList ++ pkg) ++ '\n' :: ([] ++ '\n' ::
          ((d1 ++ d2).flatMap (fun d => stubText T module d.Func) ++ ([] ++ '\n' :: []))) := by
      simp
    have hh : '\n' ∉ "package ".toList ++ pkg := by
      simp only [List.mem_append, not_or]
      exact ⟨by decide, hpkg⟩
    have e1 : isExportLine ("package ".toList ++ pkg) = false := rfl
    have e2 : isExportLine [] = false := rfl
    have e3 : exportLineCount [] = 0 := by decide
    simp only []
    rw [hshape, exportLineCount_line _ _ hh, exportLineCount_line _ _ (by simp),
      exportLineCount_stubs T module (d1 ++ d2) _ hv hmod hnames,
      exportLineCount_line _ _ (by simp), e1, e2, e3]
    simp

set_option maxRecDepth 100000 in
set_option maxHeartbeats 4000000 in
/-- Witness for C12: a tree with the declarations `now` and `sleep` renders
the header, the block of `now`, the block of `sleep` and a final line break,
with two `//go:export` lines. -/
theorem render_order_witness :
    ∃ out, Execute asciiTables ⟨"wasi::clock".toList, "clock".toList,
        ⟨[⟨⟨"now".toList, [], some ⟨⟨"u64".toList⟩⟩⟩⟩] ++
          [⟨⟨"sleep".toList, [⟨"ms".toList, ⟨"u32".toList⟩⟩], none⟩⟩]⟩⟩ = .ok out ∧
      out = ("package clock\n\n".toList ++
        ("//go:wasm-module wasi::clock\n//go:export Now\nfunc Now() uint64\n\n".toList ++
         "//go:wasm-module wasi::clock\n//go:export Sleep\nfunc Sleep(ms uint32)\n\n".toList) ++
        "\n".toList) ∧
      exportLineCount out = 2 := by
  obtain ⟨b1, b2, out, -, -, -, e1, e2, -, hx, hout, hc⟩ :=
    render_order asciiTables "wasi::clock".toList "clock".toList
      [⟨⟨"now".toList, [], some ⟨⟨"u64".toList⟩⟩⟩⟩]
      [⟨⟨"sleep".toList, [⟨"ms".toList, ⟨"u32".toList⟩⟩], none⟩⟩]
      (by decide) (by decide) (by decide) (by decide)
  refine ⟨out, hx, ?_, hc⟩
  rw [hout, e1, e2]
  decide

/-! ## C13: argument names are returned as written -/

set_option maxRecDepth 100000 in
set_option maxHeartbeats 4000000 in
/-- C13, counterexample: `f: func(a: u8, a: u16)` parses, whatever the tables
above ASCII, to a function whose two arguments are both named `a`, so the
argument names of a returned tree are not always pairwise distinct. -/
theorem duplicate_argument_names :
    (¬ ∃ T : UnicodeTables, Parse T "f: func(a: u8, a: u16)".toList ≠
      .ok ⟨[⟨⟨"f".toList, [⟨"a".toList, ⟨"u8".toList⟩⟩, ⟨"a".toList, ⟨"u16".toList⟩⟩],
        none⟩⟩]⟩) ∧
    ¬ (([⟨"a".toList, ⟨"u8".toList⟩⟩, ⟨"a".toList, ⟨"u16".toList⟩⟩] : List Arg).map
        (fun a => a.Name)).Nodup := by
  refine ⟨?_, by decide⟩
  rintro ⟨T, h⟩
  exact h rfl

/-- C13, amended: the parser returns the argument names of a function exactly
as they are written, in the written order, without comparing them: the names
in the returned tree are pairwise distinct exactly when the written names
are.  (Names and argument lists stay below the parser's bound on
repetitions.) -/
theorem argument_names_as_written (f : FuncSyntax) (comma : Bool)
    (hcomma : comma = true → f.args ≠ [])
    (hname : f.name.rest.length < MaxIterations)
    (hnames : ∀ a ∈ f.args, a.name.rest.length < MaxIterations)
    (hlen : f.args.length ≤ MaxIterations) :
    ∃ ast, ParseTokens (f.tokens comma) = .ok ast ∧
      ast.Decls.map (fun d => d.Func.Args.map (fun a => a.Name)) =
        [f.args.map (fun a => a.name.text)] ∧
      ((∀ d ∈ ast.Decls, (d.Func.Args.map (fun a => a.Name)).Nodup) ↔
        (f.args.map (fun a => a.name.text)).Nodup) := by
  refine ⟨_, ParseTokens_tokens f comma hcomma hname hnames hlen, ?_, ?_⟩
  · simp [FuncSyntax.func, ArgSyntax.arg, Function.comp_def]
  · simp [FuncSyntax.func, ArgSyntax.arg, Function.comp_def]

set_option maxRecDepth 100000 in
/-- Witness for the amended C13: the tokens of `f: func(a: u8, a: u16)` are
those of a function written with the argument names `a`, `a`, and the tree
returned for them has the argument names `a`, `a`. -/
theorem argument_names_as_written_witness :
    Lex asciiTables "f: func(a: u8, a: u16)".toList =
      .ok (FuncSyntax.tokens false ⟨⟨"f".toList, []⟩,
        [⟨⟨"a".toList, []⟩, "u8".toList⟩, ⟨⟨"a".toList, []⟩, "u16".toList⟩], none⟩) ∧
    ∃ ast, ParseTokens (FuncSyntax.tokens false ⟨⟨"f".toList, []⟩,
        [⟨⟨"a".toList, []⟩, "u8".toList⟩, ⟨⟨"a".toList, []⟩, "u16".toList⟩], none⟩) = .ok ast ∧
      ast.Decls.map (fun d => d.Func.Args.map (fun a => a.Name)) =
        [["a".toList, "a".toList]] := by
  refine ⟨by decide, ?_⟩
  obtain ⟨ast, h1, h2, -⟩ := argument_names_as_written ⟨⟨"f".toList, []⟩,
    [⟨⟨"a".toList, []⟩, "u8".toList⟩, ⟨⟨"a".toList, []⟩, "u16".toList⟩], none⟩ false
    (by decide) (by decide) (by decide) (by decide)
  exact ⟨ast, h1, h2.trans (by decide)⟩

/-! ## C18: names are identifiers joined by single hyphens -/

theorem all_takeWhile {α : Type} (p : α → Bool) (l : List α) :
    (l.takeWhile p).all p = true := by
  induction l with
  | nil => rfl
  | cons a l ih =>
    rw [List.takeWhile_cons]
    by_cases h : p a = true
    · simp only [h, if_true, List.all_cons, Bool.true_and]
      exact ih
    · simp [h]

/-- Every identifier token of the scanner is an identifier. -/
theorem scanAll_idents (T : UnicodeTables) (fuel : Nat) :
    ∀ (src : List Char) (toks : List Token), scanAll T fuel src = .ok toks →
      ∀ t ∈ toks, t.Type_ = .Ident → isIdent T t.Value = true := by
  induction fuel with
  | zero =>
    intro src toks h
    rw [scanAll] at h
    cases h
  | succ n ih =>
    intro src toks h
    cases src with
    | nil =>
      rw [scanAll] at h
      cases h
      intro t ht
      cases ht
    | cons ch rest =>
      rw [scanAll] at h
      split_ifs at h with h1 h2 h3 h4 h5 h6 h7 h8
      · exact ih _ _ h
      · cases hs : scanAll T n (rest.dropWhile (fun c => isIdentRune T c 1)) with
        | error e => rw [hs] at h; cases h
        | ok tk =>
          rw [hs] at h
          cases h
          intro t ht hty
          rcases List.mem_cons.1 ht with rfl | ht
          · simp only [isIdent, h2, Bool.true_and]
            exact all_takeWhile _ _
          · exact ih _ _ hs t ht hty
      · cases hs : scanLineComment rest.tail with
        | error e => rw [hs] at h; cases h
        | ok r1 =>
          rw [hs] at h
          exact ih _ _ h
      · cases hs : scanBlockComment rest.tail with
        | error e => rw [hs] at h; cases h
        | ok r1 =>
          rw [hs] at h
          exact ih _ _ h
      · cases hs : scanAll T n rest with
        | error e => rw [hs] at h; cases h
        | ok tk =>
          rw [hs] at h
          cases h
          intro t ht hty
          rcases List.mem_cons.1 ht with rfl | ht
          · cases hty
          · exact ih _ _ hs t ht hty

theorem Lex_idents (T : UnicodeTables) (src : List Char) (toks : List Token)
    (h : Lex T src = .ok toks) : ∀ t ∈ toks, t.Type_ = .Ident → isIdent T t.Value = true := by
  cases src with
  | nil =>
    rw [Lex] at h
    cases h
    intro t ht
    cases ht
  | cons c rest =>
    rw [Lex] at h
    split_ifs at h
    · exact scanAll_idents T _ _ _ h
    · exact scanAll_idents T _ _ _ h

/-- The items of a repetition are matched by parts of its tokens. -/
theorem Star_mem {α : Type} {Q : List Token → α → Prop} {c : List Token} {vs : List α}
    (h : Star Q c vs) : ∀ v ∈ vs, ∃ c1, Q c1 v ∧ ∀ t ∈ c1, t ∈ c := by
  induction h with
  | nil =>
    intro v hv
    cases hv
  | cons hq _ ih =>
    intro v hv
    rcases List.mem_cons.1 hv with rfl | hv
    · exact ⟨_, hq, fun t ht => List.mem_append_left _ ht⟩
    · obtain ⟨c1, h1, h2⟩ := ih v hv
      exact ⟨c1, h1, fun t ht => List.mem_append_right _ (h2 t ht)⟩

theorem Star_hyphenIdent_segments (T : UnicodeTables) {c : List Token} {vs : List (List Char)}
    (h : Star GHyphenIdent c vs) (hid : ∀ t ∈ c, t.Type_ = .Ident → isIdent T t.Value = true) :
    ∃ ps : List (List Char), vs.flatten = ps.flatMap (fun p => ['-'] ++ p) ∧
      ∀ p ∈ ps, isIdent T p = true := by
  induction h with
  | nil => exact ⟨[], rfl, fun p hp => by cases hp⟩
  | cons hq _ ih =>
    obtain ⟨ps, h1, h2⟩ := ih (fun t ht => hid t (List.mem_append_right _ ht))
    obtain ⟨hy, tk, rfl, hhy, hty, rfl⟩ := hq
    refine ⟨tk.Value :: ps, ?_, ?_⟩
    · rw [List.flatten_cons, h1, List.flatMap_cons, hhy]
      rfl
    · intro p hp
      rcases List.mem_cons.1 hp with rfl | hp
      · exact hid tk (by simp) hty
      · exact h2 p hp

/-- A name matched by the grammar over scanned tokens is one or more
identifiers joined by single hyphens. -/
theorem GName_segments (T : UnicodeTables) {c : List Token} {v : List Char} (h : GName c v)
    (hid : ∀ t ∈ c, t.Type_ = .Ident → isIdent T t.Value = true) :
    ∃ p0 ps, v = Join (p0 :: ps) ['-'] ∧ ∀ p ∈ p0 :: ps, isIdent T p = true := by
  obtain ⟨t, rest, vs, rfl, hty, hstar, rfl⟩ := h
  obtain ⟨ps, h1, h2⟩ := Star_hyphenIdent_segments T hstar
    (fun x hx => hid x (List.mem_cons_of_mem _ hx))
  refine ⟨t.Value, ps, ?_, ?_⟩
  · rw [Join_cons, h1]
  · intro p hp
    rcases List.mem_cons.1 hp with rfl | hp
    · exact hid t (by simp) hty
    · exact h2 p hp

theorem GArgs_mem {c : List Token} {args : List Arg} (h : GArgs c args) :
    ∀ a ∈ args, ∃ n, GName n a.Name ∧ ∀ t ∈ n, t ∈ c := by
  intro a ha
  rcases h with ⟨-, rfl⟩ | ⟨c1, a0, cs, rest, trailing, rfl, harg, hstar, -, rfl⟩
  · cases ha
  · rcases List.mem_cons.1 ha with rfl | ha
    · obtain ⟨n, colon, ty, rfl, hn, -⟩ := harg
      exact ⟨n, hn, fun t ht => by simp [ht]⟩
    · obtain ⟨c2, ⟨comma, c3, rfl, -, n, colon, ty, rfl, hn, -⟩, hsub⟩ := Star_mem hstar a ha
      refine ⟨n, hn, fun t ht => ?_⟩
      have := hsub t (by simp [ht])
      simp [this]

/-- Every function name and argument name of a tree matched by the grammar
is matched, as a name, by part of the tokens. -/
theorem GAST_names {toks : List Token} {ast : AST} (h : GAST toks ast) (name : List Char)
    (hname : name ∈ ast.Decls.map (fun d => d.Func.Name) ∨
      name ∈ ast.Decls.flatMap (fun d => d.Func.Args.map (fun a => a.Name))) :
    ∃ n, GName n name ∧ ∀ t ∈ n, t ∈ toks := by
  rcases hname with hname | hname
  · obtain ⟨d, hd, rfl⟩ := List.mem_map.1 hname
    obtain ⟨c, ⟨n, colon, fn, lp, ca, rp, cr, rfl, hn, -⟩, hsub⟩ := Star_mem h d hd
    exact ⟨n, hn, fun t ht => hsub t (by simp [ht])⟩
  · obtain ⟨d, hd, hmem⟩ := List.mem_flatMap.1 hname
    obtain ⟨arg, harg, hnm⟩ := List.mem_map.1 hmem
    obtain ⟨c, ⟨n, colon, fn, lp, ca, rp, cr, rfl, -, -, -, -, hargs, -⟩, hsub⟩ :=
      Star_mem h d hd
    obtain ⟨n1, hn1, hsub1⟩ := GArgs_mem hargs arg harg
    rw [hnm] at hn1
    refine ⟨n1, hn1, fun t ht => hsub t ?_⟩
    have := hsub1 t ht
    simp [this]

/-! ### Rejection of a misplaced hyphen -/

theorem literal_ident_ne (s v : List Char) (r : List Token) (h : s ≠ v) :
    literal s (identToken v :: r) = none := by
  simp only [literal, identToken, ite_eq_right_iff]
  intro h1
  exact absurd h1.symm h

theorem isIdent_ne_hyphen (T : UnicodeTables) (v : List Char) (h : isIdent T v = true) :
    "-".toList ≠ v := by
  intro e
  exact hyphen_not_mem_of_isIdent T v h (by rw [← e]; decide)

theorem isIdent_ne_rparen (T : UnicodeTables) (v : List Char) (h : isIdent T v = true) :
    ")".toList ≠ v := by
  intro e
  rw [← e] at h
  have h1 : isIdent T ")".toList = false := rfl
  rw [h1] at h
  cases h

theorem NameSyntax.valid_first (T : UnicodeTables) (n : NameSyntax) (h : n.valid T = true) :
    isIdent T n.first = true ∧ n.rest.length < MaxIterations := by
  simp only [NameSyntax.valid, Bool.and_eq_true, decide_eq_true_eq] at h
  exact ⟨h.1.1, h.2⟩

theorem parseRet_name (T : UnicodeTables) (n : NameSyntax) (h : n.valid T = true)
    (r : List Token) : parseRet (n.tokens ++ r) = none := by
  rw [parseRet, NameSyntax.tokens, List.cons_append,
    literal_ident_ne _ _ _ (isIdent_ne_hyphen T _ (n.valid_first T h).1)]

theorem parseRet_hyphen (rest : List Token) (h : literal ">".toList rest = none) :
    parseRet (runeToken '-' :: rest) = none := by
  rw [parseRet, literal_rune_eq "-".toList '-' _ rfl]
  simp only [h]

theorem hyphenIdent_hyphen (rest : List Token) (h : tokenRef .Ident rest = none) :
    hyphenIdent (runeToken '-' :: rest) = none := by
  rw [hyphenIdent, literal_rune_eq "-".toList '-' _ rfl]
  simp only [h]

/-- A name followed by a hyphen that no identifier follows: the name is read,
and the hyphen is left. -/
theorem parseName_hyphen (T : UnicodeTables) (m : NameSyntax) (hm : m.valid T = true)
    (rest : List Token) (h : tokenRef .Ident rest = none) :
    parseName (m.tokens ++ runeToken '-' :: rest) = some (m.text, runeToken '-' :: rest) :=
  parseName_tokens m (m.valid_first T hm).2 _ (hyphenIdent_hyphen rest h)

theorem parseFuncOpen_hyphen (rest : List Token) :
    parseFuncOpen (runeToken '-' :: rest) = none := by
  rw [parseFuncOpen, literal_rune_ne _ '-' _ (by decide)]

theorem parseDecl_hyphen (rest : List Token) : parseDecl (runeToken '-' :: rest) = none := by
  rw [parseDecl, parseFunc, parseName_rune]

theorem parseDecl_name_hyphen (T : UnicodeTables) (m : NameSyntax) (hm : m.valid T = true)
    (rest : List Token) (h : tokenRef .Ident rest = none) :
    parseDecl (m.tokens ++ runeToken '-' :: rest) = none := by
  rw [parseDecl, parseFunc, parseName_hyphen T m hm rest h]
  simp only [parseFuncOpen_hyphen]

theorem parseArg_name_hyphen (T : UnicodeTables) (m : NameSyntax) (hm : m.valid T = true)
    (rest : List Token) (h : tokenRef .Ident rest = none) :
    parseArg (m.tokens ++ runeToken '-' :: rest) = none := by
  rw [parseArg, parseName_hyphen T m hm rest h]
  simp only []
  rw [literal_rune_ne _ '-' _ (by decide)]

theorem literal_rparen_name (T : UnicodeTables) (m : NameSyntax) (hm : m.valid T = true)
    (r : List Token) : literal ")".toList (m.tokens ++ r) = none := by
  rw [NameSyntax.tokens, List.cons_append,
    literal_ident_ne _ _ _ (isIdent_ne_rparen T _ (m.valid_first T hm).1)]

theorem written_shift (written : List ArgSyntax) (d : List Token) :
    runeToken ',' :: (written.flatMap (fun a => a.tokens ++ [runeToken ',']) ++ d) =
      written.flatMap (fun b => runeToken ',' :: b.tokens) ++ runeToken ',' :: d := by
  induction written with
  | nil => rfl
  | cons a rest ih =>
    simp only [List.flatMap_cons, List.append_assoc, List.cons_append, List.singleton_append,
      List.nil_append]
    rw [ih]

/-- At the place of an argument name, tokens that do not start an argument
and are not the closing parenthesis make the declaration fail. -/
theorem parseFunc_argPosition (T : UnicodeTables) (n : NameSyntax) (hn : n.valid T = true)
    (written : List ArgSyntax) (hw : ∀ a ∈ written, a.name.valid T = true)
    (hlen : written.length ≤ MaxIterations) (d : List Token)
    (hd1 : parseArg d = none) (hd2 : literal ")".toList d = none) :
    parseFunc (argPosition n written ++ d) = none := by
  have htoks : argPosition n written ++ d = n.tokens ++
      (runeToken ':' :: identToken "func".toList :: runeToken '(' ::
        (written.flatMap (fun a => a.tokens ++ [runeToken ',']) ++ d)) := by
    simp [argPosition]
  rw [htoks, parseFunc,
    parseName_tokens n (n.valid_first T hn).2 _ (hyphenIdent_rune ':' (by decide) _)]
  simp only []
  rw [parseFuncOpen_tokens]
  simp only []
  cases written with
  | nil =>
    simp only [List.flatMap_nil, List.nil_append, zeroOrOne, parseArgList, hd1, hd2]
  | cons a rest =>
    have hargs : parseArgList ((a :: rest).flatMap (fun a => a.tokens ++ [runeToken ',']) ++ d) =
        some ((a :: rest).map ArgSyntax.arg, d) := by
      have hloop := zeroOrMore_flatMap commaArg (fun b => runeToken ',' :: b.tokens)
        ArgSyntax.arg rest
        (fun b hb r => by
          have := commaArg_tokens b ((b.name.valid_first T (hw b (by simp [hb]))).2) r
          simpa using this)
        (runeToken ',' :: d)
        (by rw [commaArg, literal_rune_eq ",".toList ',' _ rfl]; exact hd1)
        MaxIterations (by simp at hlen; omega)
      rw [parseArgList, List.flatMap_cons, List.append_assoc, List.append_assoc,
        parseArg_tokens a ((a.name.valid_first T (hw a (by simp))).2)]
      simp only [List.singleton_append]
      rw [written_shift rest d, hloop]
      simp only [zeroOrOne, literal_rune_eq ",".toList ',' _ rfl]
      rfl
    simp only [zeroOrOne, hargs, hd2]

theorem FuncSyntax.valid_parts (T : UnicodeTables) (comma : Bool) (f : FuncSyntax)
    (h : f.valid T comma = true) :
    f.name.valid T = true ∧ (∀ a ∈ f.args, a.name.rest.length < MaxIterations) ∧
      f.args.length ≤ MaxIterations ∧ (comma = true → f.args ≠ []) := by
  simp only [FuncSyntax.valid, Bool.and_eq_true, decide_eq_true_eq, List.all_eq_true,
    Bool.or_eq_true, Bool.not_eq_true', List.isEmpty_eq_false] at h
  obtain ⟨⟨⟨h1, h2⟩, h3⟩, h4⟩ := h
  refine ⟨h1, fun a ha => (a.name.valid_first T (h2 a ha)).2, h3, fun hc => ?_⟩
  rcases h4 with h4 | h4
  · rw [hc] at h4; cases h4
  · exact h4

theorem parseRet_funcTokens (T : UnicodeTables) (comma : Bool) (f : FuncSyntax)
    (h : f.valid T comma = true) (r : List Token) : parseRet (f.tokens comma ++ r) = none := by
  have := parseRet_name T f.name (f.valid_parts T comma h).1
    ([runeToken ':', identToken "func".toList, runeToken '('] ++
      argListTokens f.args ++ (if comma then [runeToken ','] else []) ++
      [runeToken ')'] ++ retTokens f.ret ++ r)
  simpa [FuncSyntax.tokens] using this

/-- Declarations written one after the other are read one by one, up to tokens
that are neither a return clause nor a declaration. -/
theorem zeroOrMore_declsTokens (T : UnicodeTables) (gs : List (FuncSyntax × Bool))
    (hgs : ∀ g ∈ gs, g.1.valid T g.2 = true) (r : List Token)
    (hr : parseRet r = none) (hd : parseDecl r = none) (n : Nat) (hn : gs.length < n) :
    zeroOrMore parseDecl n (declsTokens gs ++ r) =
      some (gs.map (fun g => ⟨g.1.func⟩), r) := by
  induction gs generalizing n with
  | nil =>
    rw [declsTokens, List.flatMap_nil, List.nil_append,
      zeroOrMore_of_none _ _ _ hd (by omega)]
    rfl
  | cons g rest ih =>
    obtain ⟨m, rfl⟩ : ∃ m, n = m + 1 := ⟨n - 1, by simp at hn; omega⟩
    obtain ⟨h1, h2, h3, h4⟩ := g.1.valid_parts T g.2 (hgs g (by simp))
    have hnext : parseRet (declsTokens rest ++ r) = none := by
      cases rest with
      | nil => exact hr
      | cons g2 rest2 =>
        rw [declsTokens, List.flatMap_cons, List.append_assoc]
        exact parseRet_funcTokens T g2.2 g2.1 (hgs g2 (by simp)) _
    have hf := parseFunc_tokens g.1 g.2 h4 (g.1.name.valid_first T h1).2 h2 h3
      (declsTokens rest ++ r) (fun _ => hnext)
    have htoks : declsTokens (g :: rest) ++ r = g.1.tokens g.2 ++ (declsTokens rest ++ r) := by
      simp [declsTokens]
    rw [htoks, zeroOrMore_of_some _ _ _ _ _ (parseDecl_of_parseFunc _ _ _ hf),
      ih (fun x hx => hgs x (by simp [hx])) m (by simp at hn; omega)]
    rfl

/-- After declarations written one after the other, tokens that are neither a
return clause nor a declaration make the parser reject the whole text. -/
theorem ParseTokens_declsTokens (T : UnicodeTables) (gs : List (FuncSyntax × Bool))
    (hgs : ∀ g ∈ gs, g.1.valid T g.2 = true) (hlen : gs.length < MaxIterations)
    (r : List Token) (hr : parseRet r = none) (hd : parseDecl r = none) (hne : r ≠ []) :
    ParseTokens (declsTokens gs ++ r) = .error .unexpectedToken := by
  rw [ParseTokens, zeroOrMore_declsTokens T gs hgs r hr hd MaxIterations hlen]
  cases r with
  | nil => exact absurd rfl hne
  | cons t ts => rfl

theorem parseDecl_argPosition (T : UnicodeTables) (n : NameSyntax) (hn : n.valid T = true)
    (written : List ArgSyntax) (hw : ∀ a ∈ written, a.name.valid T = true)
    (hlen : written.length ≤ MaxIterations) (d : List Token)
    (hd1 : parseArg d = none) (hd2 : literal ")".toList d = none) :
    parseDecl (argPosition n written ++ d) = none ∧
      parseRet (argPosition n written ++ d) = none ∧ argPosition n written ++ d ≠ [] := by
  refine ⟨?_, ?_, ?_⟩
  · rw [parseDecl, parseFunc_argPosition T n hn written hw hlen d hd1 hd2]
  · rw [argPosition, List.append_assoc, List.append_assoc]
    exact parseRet_name T n hn _
  · simp [argPosition, NameSyntax.tokens]

set_option maxRecDepth 100000 in
set_option maxHeartbeats 4000000 in
/-- C18: every function name and argument name of a tree returned by the
parser is one or more identifiers joined by single hyphens, so that each of
its parts between hyphens is an identifier and none is empty, and the tree is
matched by the grammar on the tokens of the text, its names being the texts of
their tokens.  A hyphen that does not stand between two identifiers of a name
is rejected: after any declarations, at the place of a function name and at
the place of an argument name after any arguments, a hyphen that starts the
name (leading hyphen) and a hyphen after a name that no identifier follows
(trailing hyphen, two hyphens in a row) make the parser fail, whatever tokens
come after; so do the six texts given. -/
theorem names_segmented (T : UnicodeTables) (src : List Char) (ast : AST)
    (h : Parse T src = .ok ast) :
    (∀ name, (name ∈ ast.Decls.map (fun d => d.Func.Name) ∨
        name ∈ ast.Decls.flatMap (fun d => d.Func.Args.map (fun a => a.Name))) →
      (∃ p0 ps, name = Join (p0 :: ps) ['-'] ∧ ∀ p ∈ p0 :: ps, isIdent T p = true) ∧
      hyphenSegmented T name = true ∧ [] ∉ Split name '-') ∧
    (∃ toks, Lex T src = .ok toks ∧ GAST toks ast) ∧
    (∀ rest, ParseTokens (runeToken '-' :: rest) = .error .unexpectedToken) ∧
    (∀ (gs : List (FuncSyntax × Bool)) (rest : List Token),
      (∀ g ∈ gs, g.1.valid T g.2 = true) → gs.length < MaxIterations →
      (literal ">".toList rest = none →
        ParseTokens (declsTokens gs ++ runeToken '-' :: rest) = .error .unexpectedToken) ∧
      (∀ m : NameSyntax, m.valid T = true → tokenRef .Ident rest = none →
        ParseTokens (declsTokens gs ++ (m.tokens ++ runeToken '-' :: rest)) =
          .error .unexpectedToken) ∧
      (∀ (n : NameSyntax) (written : List ArgSyntax), n.valid T = true →
        (∀ a ∈ written, a.name.valid T = true) → written.length ≤ MaxIterations →
        ParseTokens (declsTokens gs ++ (argPosition n written ++ runeToken '-' :: rest)) =
          .error .unexpectedToken ∧
        ∀ m : NameSyntax, m.valid T = true → tokenRef .Ident rest = none →
          ParseTokens (declsTokens gs ++
              (argPosition n written ++ (m.tokens ++ runeToken '-' :: rest))) =
            .error .unexpectedToken)) ∧
    Parse T "-foo: func()".toList = .error .unexpectedToken ∧
    Parse T "foo-: func()".toList = .error .unexpectedToken ∧
    Parse T "foo--bar: func()".toList = .error .unexpectedToken ∧
    Parse T "f: func(-a: u8)".toList = .error .unexpectedToken ∧
    Parse T "f: func(a-: u8)".toList = .error .unexpectedToken ∧
    Parse T "f: func(a--b: u8)".toList = .error .unexpectedToken := by
  refine ⟨?_, ?_, ?_, ?_, rfl, rfl, rfl, rfl, rfl, rfl⟩
  · intro name hname
    rw [Parse] at h
    cases hl : Lex T src with
    | error e => rw [hl] at h; cases h
    | ok toks =>
      rw [hl] at h
      simp only [] at h
      obtain ⟨n, hn, hsub⟩ := GAST_names (ParseTokens_sound toks ast h) name hname
      obtain ⟨p0, ps, rfl, hp⟩ := GName_segments T hn
        (fun t ht => Lex_idents T src toks hl t (hsub t ht))
      have hsplit : Split (Join (p0 :: ps) ['-']) '-' = p0 :: ps :=
        Split_Join '-' (p0 :: ps) (by simp) (fun p hq => hyphen_not_mem_of_isIdent T p (hp p hq))
      refine ⟨⟨p0, ps, rfl, hp⟩, ?_, ?_⟩
      · rw [hyphenSegmented, hsplit, List.all_eq_true]
        exact hp
      · rw [hsplit]
        intro hmem
        have := hp [] hmem
        simp [isIdent] at this
  · rw [Parse] at h
    cases hl : Lex T src with
    | error e => rw [hl] at h; cases h
    | ok toks =>
      rw [hl] at h
      exact ⟨toks, rfl, ParseTokens_sound toks ast h⟩
  · intro rest
    rw [ParseTokens, zeroOrMore_of_none _ _ _ (parseDecl_hyphen rest) (by decide)]
  · intro gs rest hgs hlen
    refine ⟨fun hgt => ?_, fun m hm hrest => ?_, fun n written hn hw hwl => ⟨?_, fun m hm hrest => ?_⟩⟩
    · exact ParseTokens_declsTokens T gs hgs hlen _ (parseRet_hyphen rest hgt)
        (parseDecl_hyphen rest) (by simp)
    · exact ParseTokens_declsTokens T gs hgs hlen _ (parseRet_name T m hm _)
        (parseDecl_name_hyphen T m hm rest hrest) (by simp [NameSyntax.tokens])
    · obtain ⟨h1, h2, h3⟩ := parseDecl_argPosition T n hn written hw hwl
        (runeToken '-' :: rest) (parseArg_rune '-' rest) (literal_rune_ne _ '-' _ (by decide))
      exact ParseTokens_declsTokens T gs hgs hlen _ h2 h1 h3
    · obtain ⟨h1, h2, h3⟩ := parseDecl_argPosition T n hn written hw hwl
        (m.tokens ++ runeToken '-' :: rest) (parseArg_name_hyphen T m hm rest hrest)
        (literal_rparen_name T m hm _)
      exact ParseTokens_declsTokens T gs hgs hlen _ h2 h1 h3

set_option maxRecDepth 100000 in
set_option maxHeartbeats 4000000 in
/-- Witness for C18: the text of the scenario parses, and the argument name
`process-id` of its tree splits on the hyphen into identifiers, none empty;
the tokens of `g: func() f: func(a: u8, b--c: u8)` are a declaration, then a
declaration up to its second argument name, then the name `b` followed by a
hyphen that no identifier follows, and they are rejected. -/
theorem names_segmented_witness :
    Parse asciiTables
        "send-receive-skip-search : func(process-id: u64, timeout: u32) -> u32".toList =
      .ok ⟨[⟨sendReceive⟩]⟩ ∧
    hyphenSegmented asciiTables "process-id".toList = true ∧
    [] ∉ Split "process-id".toList '-' ∧
    Lex asciiTables "g: func() f: func(a: u8, b--c: u8)".toList =
      .ok (declsTokens [(⟨⟨"g".toList, []⟩, [], none⟩, false)] ++
        (argPosition ⟨"f".toList, []⟩ [⟨⟨"a".toList, []⟩, "u8".toList⟩] ++
          (NameSyntax.tokens ⟨"b".toList, []⟩ ++ runeToken '-' ::
            [runeToken '-', identToken "c".toList, runeToken ':', identToken "u8".toList,
              runeToken ')']))) ∧
    ParseTokens (declsTokens [(⟨⟨"g".toList, []⟩, [], none⟩, false)] ++
        (argPosition ⟨"f".toList, []⟩ [⟨⟨"a".toList, []⟩, "u8".toList⟩] ++
          (NameSyntax.tokens ⟨"b".toList, []⟩ ++ runeToken '-' ::
            [runeToken '-', identToken "c".toList, runeToken ':', identToken "u8".toList,
              runeToken ')']))) = .error .unexpectedToken :=
  have H := names_segmented asciiTables
    "send-receive-skip-search : func(process-id: u64, timeout: u32) -> u32".toList
    ⟨[⟨sendReceive⟩]⟩ (by decide)
  ⟨by decide, (H.1 "process-id".toList (Or.inr (by decide))).2.1,
    (H.1 "process-id".toList (Or.inr (by decide))).2.2, by decide,
    (((H.2.2.2.1 [(⟨⟨"g".toList, []⟩, [], none⟩, false)]
      [runeToken '-', identToken "c".toList, runeToken ':', identToken "u8".toList,
        runeToken ')'] (by decide) (by decide)).2.2
      ⟨"f".toList, []⟩ [⟨⟨"a".toList, []⟩, "u8".toList⟩] (by decide) (by decide)
      (by decide)).2 ⟨"b".toList, []⟩ (by decide) (by decide))⟩

end WitGo
